import Mathlib

/-!
# libing-gen-utils: bitmap free-slot allocator and keyed record store

Shallow embedding of `src/c/bitmap.h`, `src/c/bitmap.c` and the functions that the
`_GENERATE_DB_FUNCTIONS` macro of `src/c/ing_container.h` generates, followed by
theorems about them.

Conventions of the embedding

* C `int` values are `Int`; every `int` arithmetic result is reduced by `wrap_int`
  (two's complement, 32 bits). `size_t` and `unsigned long` values are `Nat`, reduced
  modulo `2 ^ 64` (LP64: `sizeof(unsigned long) = 8`).
* A C array is a `List`; a pointer that may be `NULL` is an `Option`; `db->records`, which
  `init` can leave pointing at a freed block, is a `heap_ptr`.
* A pointer into `db->records` is the index of the slot it points at, so that
  `tmp - db->records` is that index.
* A function returns `none` where the C code would read or write outside an array or
  through a `NULL` array pointer; otherwise it returns `some` of its results.
* Handles (`bitmap_t *bmp`, `..._db_t *db`) are passed by value and are never `NULL`;
  the `xi_val` / `xi_key` arguments may be `NULL` and are `Option`s.
-/

/-! ## Machine integers -/

/-- Largest value of a C `int`. -/
def INT_MAX : Int := 2 ^ 31 - 1

/-- Smallest value of a C `int`. -/
def INT_MIN : Int := -(2 ^ 31)

/-- Reduction of an integer to the range of a 32 bit two's complement `int`. -/
def wrap_int (x : Int) : Int := (x + 2 ^ 31) % 2 ^ 32 - 2 ^ 31

/-- The `sizeof(_ulong)` of `bitmap.h`, with `_ulong` = `unsigned long` on LP64. -/
def sizeof_ulong : Nat := 8

/-- Number of values of an `unsigned long` / `size_t`. -/
def ULONG_MOD : Nat := 2 ^ (8 * sizeof_ulong)

/-- Conversion of an `int` to `size_t` (the cast `(size_t)x`, and the usual arithmetic
conversion of an `int` operand that meets an `unsigned long` operand). -/
def to_size_t (x : Int) : Nat := (x % (ULONG_MOD : Int)).toNat

/-- The GCC builtin `__builtin_ffsl`: one plus the index of the least significant 1-bit of
the word, or zero if the word is zero. -/
def builtin_ffsl (x : Nat) : Int :=
  match (List.range (8 * sizeof_ulong)).find? (fun k => x.testBit k) with
  | some k => (k : Int) + 1
  | none => 0

/-! ## bitmap.h -/

/-- The macro `ceil_div(a,b)`:
`( ((a)/(b)*(b) == (a)) ? ((a)/(b)) : ((a)/(b)+1) )`, on `size_t` operands. -/
def ceil_div (a b : Nat) : Nat :=
  if a / b * b = a then a / b else (a / b + 1) % ULONG_MOD

/-- The macro `NUM_ULONGS(elems)`: `ceil_div((elems), 8*sizeof(_ulong))`. -/
def NUM_ULONGS (elems : Nat) : Nat := ceil_div elems (8 * sizeof_ulong)

/-- The macro `NUM_BYTES(elems)`: `(NUM_ULONGS(elems)*sizeof(_ulong))`. -/
def NUM_BYTES (elems : Nat) : Nat := (NUM_ULONGS elems * sizeof_ulong) % ULONG_MOD

/-- The macro `I_ULONG(idx)`: `((idx)/8/sizeof(_ulong))` with `idx` an `int`: the first
division is an `int` division (truncating), its result is converted to `unsigned long`
for the second. -/
def I_ULONG (idx : Int) : Nat := to_size_t (Int.tdiv idx 8) / sizeof_ulong

/-- The macro `I_BIT(idx)`: `((idx) % (8*sizeof(_ulong)))` with `idx` an `int` converted
to `unsigned long`. -/
def I_BIT (idx : Int) : Nat := to_size_t idx % (8 * sizeof_ulong)

/-- The struct `bitmap_t`: `map` is the word array (`NULL` when absent), `elements` the
number of bits. -/
structure bitmap_t where
  map : Option (List Nat)
  elements : Int
  deriving DecidableEq, Repr

/-! ## bitmap.c -/

/-- The word `1UL << b`. -/
def ulong_bit (b : Nat) : Nat := (1 <<< b) % ULONG_MOD

/-- The word `~x`. -/
def ulong_not (x : Nat) : Nat := (ULONG_MOD - 1) - x % ULONG_MOD

/-- The function `bitmap_init` (for a non-`NULL` `bmp`). `calloc_ok` is the outcome of the
`calloc` call. Returns the return value and the bitmap written through `bmp`. -/
def bitmap_init (num_of_elements : Int) (set_all : Int) (calloc_ok : Bool) : Int × bitmap_t :=
  if calloc_ok then
    let n := NUM_ULONGS (to_size_t num_of_elements)
    if set_all ≠ 0 then
      (0, { map := some (List.replicate n (ULONG_MOD - 1)), elements := num_of_elements })
    else
      (0, { map := some (List.replicate n 0), elements := num_of_elements })
  else
    (-1, { map := none, elements := num_of_elements })

/-- The function `bitmap_destroy` (for a non-`NULL` `bmp`). -/
def bitmap_destroy (_bmp : bitmap_t) : Int × bitmap_t :=
  (0, { map := none, elements := 0 })

/-- The loop `while (!res && i < ulongs) res = __builtin_ffsl(*(bmp->map + i++));` of
`bitmap_ffs`, entered with `res = 0`. The list is the word array from `bmp->map + i` on;
reading past its end is out of bounds. Returns the final `(i, res)`. -/
def bitmap_ffs_loop (ulongs : Int) : List Nat → Int → Option (Int × Int)
  | [], i => if i < ulongs then none else some (i, 0)
  | w :: rest, i =>
    if i < ulongs then
      if builtin_ffsl w ≠ 0 then some (wrap_int (i + 1), builtin_ffsl w)
      else bitmap_ffs_loop ulongs rest (wrap_int (i + 1))
    else some (i, 0)

/-- The function `bitmap_ffs`: find first set; returns -1 if it did not find anything. -/
def bitmap_ffs (bmp : bitmap_t) : Option Int :=
  match bmp.map with
  | none => some (-1)
  | some map =>
    match bitmap_ffs_loop (wrap_int (NUM_ULONGS (to_size_t bmp.elements))) map 0 with
    | none => none
    | some (i, res) =>
      let res : Int :=
        if res ≠ 0 then
          wrap_int (wrap_int (wrap_int (wrap_int (wrap_int (i - 1) * 8) * (sizeof_ulong : Int))
            + res) - 1)
        else wrap_int (bmp.elements + 1)
      some (if res < bmp.elements then res else -1)

/-- The function `bitmap_set`: set bit `idx`. -/
def bitmap_set (bmp : bitmap_t) (idx : Int) : Option (Int × bitmap_t) :=
  match bmp.map with
  | none => some (-1, bmp)
  | some map =>
    if idx ≥ bmp.elements then some (-1, bmp)
    else
      match map[I_ULONG idx]? with
      | none => none
      | some w =>
        some (0, { bmp with map := some (map.set (I_ULONG idx) (w ||| ulong_bit (I_BIT idx))) })

/-- The function `bitmap_clear`: reset bit `idx`; if `idx < 0`, clears the whole bitmap. -/
def bitmap_clear (bmp : bitmap_t) (idx : Int) : Option (Int × bitmap_t) :=
  match bmp.map with
  | none => some (-1, bmp)
  | some map =>
    if idx < 0 then
      let n := NUM_BYTES (to_size_t bmp.elements) / sizeof_ulong
      if n ≤ map.length ∧ NUM_BYTES (to_size_t bmp.elements) % sizeof_ulong = 0 then
        some (0, { bmp with map := some (List.replicate n 0 ++ map.drop n) })
      else none
    else if idx ≥ bmp.elements then some (-1, bmp)
    else
      match map[I_ULONG idx]? with
      | none => none
      | some w =>
        some (0, { bmp with
          map := some (map.set (I_ULONG idx) (w &&& ulong_not (ulong_bit (I_BIT idx)))) })

/-- The function `bitmap_get`: get bit status. -/
def bitmap_get (bmp : bitmap_t) (idx : Int) : Option Int :=
  match bmp.map with
  | none => some (-1)
  | some map =>
    if idx ≥ bmp.elements then some (-1)
    else
      match map[I_ULONG idx]? with
      | none => none
      | some w => some (if (w &&& ulong_bit (I_BIT idx)) > 0 then 1 else 0)

/-! ## ing_gen_utils.h -/

/-- The enum `ing_stat_t`. -/
inductive ing_stat_t
  | ING_STAT_OK
  | ING_STAT_GENERAL_ERROR
  | ING_STAT_SYSTEM_ERROR
  | ING_STAT_INVALID_ARGUMENT
  | ING_STAT_OUTOFMEMORY
  | ING_STAT_ALREADY_EXISTS
  | ING_STAT_NOT_FOUND
  | ING_STAT_FULL
  deriving DecidableEq, Repr

open ing_stat_t

/-! ## uthash_ing.h -/

/-- Modelled from the spec: the hash table of `uthash_ing.h`, which is not among the
sources. The spec describes it as "a mapping from key bytes to slot identifier, for
occupied slots only", traversed from `head` along `hh.next`. It is a list of
(key, slot) entries; `hash_index K` is what `db->head` denotes, the empty list being
`head == NULL`. -/
abbrev hash_index (K : Type) := List (K × Nat)

/-- Modelled from the spec: the macro `HASH_FIND(hh, head, keyptr, keylen, out)` of
`uthash_ing.h`: the slot of the entry whose key bytes equal the given key, or `NULL`. -/
def HASH_FIND {K : Type} [DecidableEq K] : hash_index K → K → Option Nat
  | [], _ => none
  | (k, p) :: t, key => if k = key then some p else HASH_FIND t key

/-- Modelled from the spec: the macro `HASH_ADD(hh, head, fieldname, keylen, add)` of
`uthash_ing.h`: "inserts a (key → slot) entry into the index"; the new entry is linked
after the last one. -/
def HASH_ADD {K : Type} (head : hash_index K) (key : K) (add : Nat) : hash_index K :=
  head ++ [(key, add)]

/-- Modelled from the spec: the macro `HASH_DELETE(hh, head, delptr)` of `uthash_ing.h`:
"removes the index entry" of the record `delptr` points at. The macro does not look the
record up: the entry of that record is unlinked if there is one, and the other entries
stay as they are. It works on the table it reaches through `head`: with an empty table
(`head == NULL`) there is no table and the result is `none`. -/
def HASH_DELETE {K : Type} (head : hash_index K) (delptr : Nat) : Option (hash_index K) :=
  if head.isEmpty then none else some (head.filter (fun e => e.2 ≠ delptr))

/-- Modelled from the spec: the pointer `head` of `uthash_ing.h` read as a record pointer:
the first record of the traversal, `NULL` for an empty table. -/
def HASH_head {K : Type} (head : hash_index K) : Option Nat :=
  match head with
  | [] => none
  | e :: _ => some e.2

/-- Modelled from the spec: the field `hh.next` of the record in slot `p`, the link that
the traversal follows: the record of the next entry, `NULL` for the last one (and for a
record that has no entry). -/
def hh_next {K : Type} : hash_index K → Nat → Option Nat
  | [], _ => none
  | e :: t, p => if e.2 = p then HASH_head t else hh_next t p

/-! ## ing_container.h -/

/-- A pointer to a heap block: `NULL`, a pointer to a live block with the given contents,
or a dangling pointer to a block that has been freed. -/
inductive heap_ptr (α : Type)
  | null
  | live (block : α)
  | dangling
  deriving DecidableEq, Repr

/-- A record type with a designated key field: what `RECORD_TYPE` and `KEYFIELD_NAME`
stand for in the macros (the `UT_hash_handle hh` field is the entry of `hash_index`). -/
structure RECORD_TYPE (K V : Type) where
  key : K
  val : V
  deriving DecidableEq, Repr

/-- The struct that `_GENERATE_DB_TYPE` generates. `hash_buf` is left out: it is zeroed by
`init` and never assigned. -/
structure RECORD_TYPE_db_t (K V : Type) where
  max_rec_num : Int
  rec_num : Int
  records : heap_ptr (List (RECORD_TYPE K V))
  map_free : bitmap_t
  head : hash_index K
  deriving DecidableEq, Repr

section container
variable {K V : Type} [DecidableEq K] [Inhabited K] [Inhabited V]

/-- The function `init_##RECORD_TYPE` (non-`NULL` `db`). `malloc_ok` and `calloc_ok` are
the outcomes of the `malloc` of the slot array and of the `calloc` inside `bitmap_init`.
A negative `max_rec_num` is converted to `size_t` in `max_rec_num*sizeof(RECORD_TYPE)`,
a request of almost the whole address space, which `malloc` refuses whatever `malloc_ok`
is. The zeroed slots hold `default`. When `bitmap_init` fails the slot array is freed and
`db->records` keeps pointing at it. Returns the status and the store written through
`db`. -/
def init_RECORD_TYPE (max_rec_num : Int) (malloc_ok calloc_ok : Bool) :
    ing_stat_t × RECORD_TYPE_db_t K V :=
  if max_rec_num < 0 ∨ malloc_ok = false then
    (ING_STAT_OUTOFMEMORY,
      { max_rec_num := max_rec_num, rec_num := 0, records := heap_ptr.null,
        map_free := { map := none, elements := 0 }, head := [] })
  else
    let records := List.replicate max_rec_num.toNat (⟨default, default⟩ : RECORD_TYPE K V)
    let r := bitmap_init max_rec_num 1 calloc_ok
    if r.1 < 0 then
      (ING_STAT_SYSTEM_ERROR,
        { max_rec_num := max_rec_num, rec_num := 0, records := heap_ptr.dangling,
          map_free := r.2, head := [] })
    else
      (ING_STAT_OK,
        { max_rec_num := max_rec_num, rec_num := 0, records := heap_ptr.live records,
          map_free := r.2, head := [] })

/-- The function `destroy_##RECORD_TYPE` (non-`NULL` `db`). The statement
`db->rec_num = 0;` is not in the scope of the `if (db->head)` above it. Freeing a dangling
`db->records` is a double free: the result is `none`. -/
def destroy_RECORD_TYPE (db : RECORD_TYPE_db_t K V) :
    Option (ing_stat_t × RECORD_TYPE_db_t K V) :=
  match db.records with
  | heap_ptr.dangling => none
  | _ =>
    some (ING_STAT_OK,
      { db with map_free := (bitmap_destroy db.map_free).2, head := [], rec_num := 0,
                records := heap_ptr.null })

/-- The function `add_##RECORD_TYPE` (non-`NULL` `db`). `HASH_ADD` reads the key from
`db->records[ifree]` after the `memcpy`, where it is the key of `xi_val`. -/
def add_RECORD_TYPE (db : RECORD_TYPE_db_t K V) (xi_val : Option (RECORD_TYPE K V)) :
    Option (ing_stat_t × RECORD_TYPE_db_t K V) :=
  match xi_val with
  | none => some (ING_STAT_INVALID_ARGUMENT, db)
  | some val =>
    match HASH_FIND db.head val.key with
    | some _ => some (ING_STAT_ALREADY_EXISTS, db)
    | none =>
      if db.rec_num ≥ db.max_rec_num then some (ING_STAT_FULL, db)
      else
        match bitmap_ffs db.map_free with
        | none => none
        | some ifree =>
          if ifree < 0 then some (ING_STAT_FULL, db)
          else
            match db.records with
            | heap_ptr.null => none
            | heap_ptr.dangling => none
            | heap_ptr.live records =>
              if ifree.toNat < records.length then
                match bitmap_clear db.map_free ifree with
                | none => none
                | some (_, map_free) =>
                  some (ING_STAT_OK,
                    { db with
                      records := heap_ptr.live (records.set ifree.toNat val)
                      map_free := map_free
                      rec_num := wrap_int (db.rec_num + 1)
                      head := HASH_ADD db.head val.key ifree.toNat })
              else none

/-- The function `del_##RECORD_TYPE` (non-`NULL` `db`). The pointer difference
`tmp - db->records` is converted to the `int` parameter of `bitmap_set`. -/
def del_RECORD_TYPE (db : RECORD_TYPE_db_t K V) (xi_key : Option K) :
    Option (ing_stat_t × RECORD_TYPE_db_t K V) :=
  match xi_key with
  | none => some (ING_STAT_INVALID_ARGUMENT, db)
  | some key =>
    match HASH_FIND db.head key with
    | none => some (ING_STAT_NOT_FOUND, db)
    | some tmp =>
      match HASH_DELETE db.head tmp with
      | none => none
      | some head =>
        match bitmap_set db.map_free (wrap_int (tmp : Int)) with
        | none => none
        | some (_, map_free) =>
          some (ING_STAT_OK,
            { db with head := head, map_free := map_free, rec_num := wrap_int (db.rec_num - 1) })

/-- The function `del_val_##RECORD_TYPE` (non-`NULL` `db`): delete a db entry that is
already found in the db, so searching is not needed. -/
def del_val_RECORD_TYPE (db : RECORD_TYPE_db_t K V) (xi_val : Option Nat) :
    Option (ing_stat_t × RECORD_TYPE_db_t K V) :=
  match xi_val with
  | none => some (ING_STAT_INVALID_ARGUMENT, db)
  | some val =>
    match HASH_DELETE db.head val with
    | none => none
    | some head =>
      match bitmap_set db.map_free (wrap_int (val : Int)) with
      | none => none
      | some (_, map_free) =>
        some (ING_STAT_OK,
          { db with head := head, map_free := map_free, rec_num := wrap_int (db.rec_num - 1) })

/-- The function `get_##RECORD_TYPE` (non-`NULL` `db` and `xo_val`). Returns the status,
the pointer stored in `*xo_val` and the store, which the function does not write. -/
def get_RECORD_TYPE (db : RECORD_TYPE_db_t K V) (xi_key : Option K) :
    ing_stat_t × Option Nat × RECORD_TYPE_db_t K V :=
  match xi_key with
  | none => (ING_STAT_INVALID_ARGUMENT, none, db)
  | some key =>
    match HASH_FIND db.head key with
    | none => (ING_STAT_NOT_FOUND, none, db)
    | some tmp => (ING_STAT_OK, some tmp, db)

/-- The function `size_##RECORD_TYPE` (non-`NULL` `db`). -/
def size_RECORD_TYPE (db : RECORD_TYPE_db_t K V) : Int := db.rec_num

/-- The expression `(_tmp ? _tmp->hh.next : NULL)` of the `IC_FOREACH` macros. -/
def next_or_null (head : hash_index K) (tmp : Option Nat) : Option Nat :=
  match tmp with
  | none => none
  | some t => hh_next head t

/-- The `for` loop of the macro `IC_FOREACH`, entered with the values of `ELEM` and `_tmp`,
with a body that leaves the store and the loop variables alone. Returns the values of
`ELEM` the body runs with, in order; `none` when more than `fuel` iterations are needed. -/
def IC_FOREACH_loop (head : hash_index K) : Nat → Option Nat → Option Nat → Option (List Nat)
  | _, none, _ => some []
  | 0, some _, _ => none
  | fuel + 1, some e, tmp =>
    match IC_FOREACH_loop head fuel tmp (next_or_null head tmp) with
    | none => none
    | some visited => some (e :: visited)

/-- The macro `IC_FOREACH(RECORD_TYPE, ELEM, DB_PTR)`: loop over the whole container. -/
def IC_FOREACH (db : RECORD_TYPE_db_t K V) (fuel : Nat) : Option (List Nat) :=
  IC_FOREACH_loop db.head fuel (HASH_head db.head) (next_or_null db.head (HASH_head db.head))

/-- The `for` loop of the macro `IC_FOREACH_LIMIT`, entered with the values of `ELEM`,
`_tmp` and `ic_cnt`. Returns the values of `ELEM` the body runs with and the value of
`ELEM` when the loop ends. -/
def IC_FOREACH_LIMIT_loop (head : hash_index K) (LIMIT : Int) :
    Nat → Option Nat → Option Nat → Int → Option (List Nat × Option Nat)
  | _, none, _, _ => some ([], none)
  | 0, some e, _, ic_cnt => if ic_cnt < LIMIT then none else some ([], some e)
  | fuel + 1, some e, tmp, ic_cnt =>
    if ic_cnt < LIMIT then
      match IC_FOREACH_LIMIT_loop head LIMIT fuel tmp (next_or_null head tmp)
          (wrap_int (ic_cnt + 1)) with
      | none => none
      | some (visited, last) => some (e :: visited, last)
    else some ([], some e)

/-- The macro `IC_FOREACH_LIMIT(RECORD_TYPE, ELEM, DB_PTR, LIMIT)`: loop over `LIMIT`
elements of the container. -/
def IC_FOREACH_LIMIT (db : RECORD_TYPE_db_t K V) (LIMIT : Int) (fuel : Nat) :
    Option (List Nat × Option Nat) :=
  IC_FOREACH_LIMIT_loop db.head LIMIT fuel (HASH_head db.head)
    (next_or_null db.head (HASH_head db.head)) 0

/-- The `for` loop of the macro `IC_FOREACH_FROM`, entered with the values of `ELEM`,
`_tmp` and `FROM`; its step is `ELEM = _tmp, _tmp = ..., FROM = ELEM`. Returns the values
of `ELEM` the body runs with and the value of `FROM` when the loop ends. -/
def IC_FOREACH_FROM_loop (head : hash_index K) :
    Nat → Option Nat → Option Nat → Option Nat → Option (List Nat × Option Nat)
  | _, none, _, FROM => some ([], FROM)
  | 0, some _, _, _ => none
  | fuel + 1, some e, tmp, _ =>
    match IC_FOREACH_FROM_loop head fuel tmp (next_or_null head tmp) tmp with
    | none => none
    | some (visited, last) => some (e :: visited, last)

/-- The macro `IC_FOREACH_FROM(RECORD_TYPE, ELEM, FROM, DB_PTR)`: loop over the container
starting from the element `FROM`. -/
def IC_FOREACH_FROM (db : RECORD_TYPE_db_t K V) (FROM : Option Nat) (fuel : Nat) :
    Option (List Nat × Option Nat) :=
  IC_FOREACH_FROM_loop db.head fuel FROM (next_or_null db.head FROM) FROM

/-- The `for` loop of the macro `IC_FOREACH_FROM_WITH_LIMIT`, entered with the values of
`ELEM`, `_tmp`, `FROM` and `ic_cnt`; its condition is `(ELEM) && ic_cnt < (LIMIT)` and its
step is `ELEM = _tmp, _tmp = ..., FROM = ELEM`, which leaves `ic_cnt` as it is. Returns
the values of `ELEM` the body runs with and the value of `FROM` when the loop ends. -/
def IC_FOREACH_FROM_WITH_LIMIT_loop (head : hash_index K) (LIMIT : Int) :
    Nat → Option Nat → Option Nat → Option Nat → Int → Option (List Nat × Option Nat)
  | _, none, _, FROM, _ => some ([], FROM)
  | 0, some _, _, FROM, ic_cnt => if ic_cnt < LIMIT then none else some ([], FROM)
  | fuel + 1, some e, tmp, FROM, ic_cnt =>
    if ic_cnt < LIMIT then
      match IC_FOREACH_FROM_WITH_LIMIT_loop head LIMIT fuel tmp (next_or_null head tmp) tmp
          ic_cnt with
      | none => none
      | some (visited, last) => some (e :: visited, last)
    else some ([], FROM)

/-- The macro `IC_FOREACH_FROM_WITH_LIMIT(RECORD_TYPE, ELEM, DB_PTR, FROM, LIMIT)`: loop
over `LIMIT` elements of the container, starting from the element `FROM`. -/
def IC_FOREACH_FROM_WITH_LIMIT (db : RECORD_TYPE_db_t K V) (FROM : Option Nat) (LIMIT : Int)
    (fuel : Nat) : Option (List Nat × Option Nat) :=
  IC_FOREACH_FROM_WITH_LIMIT_loop db.head LIMIT fuel FROM (next_or_null db.head FROM) FROM 0

end container

/-! ## Notions used in the statements -/

/-- Bit `i` of a word array: bit `i % 64` of word `i / 64` (`false` outside the array). -/
def bit_at (map : List Nat) (i : Nat) : Bool :=
  (map.getD (i / (8 * sizeof_ulong)) 0).testBit (i % (8 * sizeof_ulong))

section notions
variable {K V : Type} [DecidableEq K] [Inhabited K] [Inhabited V]

/-- The store states reachable from a successful `init(C)`, `C` an `int`, by calls of
`add`, `delete(key)` and `get` that return. -/
inductive Reachable (C : Int) : RECORD_TYPE_db_t K V → Prop
  | init (malloc_ok calloc_ok : Bool) (db : RECORD_TYPE_db_t K V)
      (hC : INT_MIN ≤ C ∧ C ≤ INT_MAX)
      (h : init_RECORD_TYPE C malloc_ok calloc_ok = (ING_STAT_OK, db)) : Reachable C db
  | add (db db' : RECORD_TYPE_db_t K V) (xi_val : Option (RECORD_TYPE K V)) (st : ing_stat_t)
      (hr : Reachable C db) (h : add_RECORD_TYPE db xi_val = some (st, db')) : Reachable C db'
  | del (db db' : RECORD_TYPE_db_t K V) (xi_key : Option K) (st : ing_stat_t)
      (hr : Reachable C db) (h : del_RECORD_TYPE db xi_key = some (st, db')) : Reachable C db'
  | get (db : RECORD_TYPE_db_t K V) (xi_key : Option K)
      (hr : Reachable C db) : Reachable C (get_RECORD_TYPE db xi_key).2.2

/-- Slot `i` is occupied: it is the slot that `get` returns for some key. -/
def occupied (db : RECORD_TYPE_db_t K V) (i : Nat) : Prop :=
  ∃ k : K, get_RECORD_TYPE db (some k) = (ING_STAT_OK, some i, db)

/-- The record stored in slot `i` of the slot array. -/
def slot (db : RECORD_TYPE_db_t K V) (i : Nat) : Option (RECORD_TYPE K V) :=
  match db.records with
  | heap_ptr.live records => records[i]?
  | _ => none

/-- A record with key `k` is present: some slot below the capacity has free bit 0 and
holds a record whose key is `k`. -/
def present (db : RECORD_TYPE_db_t K V) (k : K) : Prop :=
  ∃ (i : Nat) (r : RECORD_TYPE K V), (i : Int) < db.max_rec_num ∧
    bitmap_get db.map_free (i : Int) = some 0 ∧ slot db i = some r ∧ r.key = k

/-- Adding the records of a list one after another: the statuses returned and the final
store. -/
def add_list (db : RECORD_TYPE_db_t K V) :
    List (RECORD_TYPE K V) → Option (List ing_stat_t × RECORD_TYPE_db_t K V)
  | [] => some ([], db)
  | r :: rest =>
    match add_RECORD_TYPE db (some r) with
    | none => none
    | some (st, db') =>
      match add_list db' rest with
      | none => none
      | some (sts, db'') => some (st :: sts, db'')

/-- Number of zero bits of the free map among the indices `[0, C)`. -/
def zero_bits (db : RECORD_TYPE_db_t K V) (C : Int) : Nat :=
  ((List.range C.toNat).filter
    (fun (i : Nat) => decide (bitmap_get db.map_free (i : Int) = some 0))).length

/-- The consistency of slot array, free map and key index of a store of capacity `n`, with
slot array `rs` and free map words `ws`. -/
structure StoreInv (n : Nat) (db : RECORD_TYPE_db_t K V) (rs : List (RECORD_TYPE K V))
    (ws : List Nat) : Prop where
  cap : (n : Int) ≤ INT_MAX
  max_eq : db.max_rec_num = n
  num_eq : db.rec_num = db.head.length
  recs_eq : db.records = heap_ptr.live rs
  recs_len : rs.length = n
  map_eq : db.map_free = { map := some ws, elements := n }
  map_len : ws.length = NUM_ULONGS n
  free_iff : ∀ i, i < n → (bit_at ws i = false ↔ i ∈ db.head.map Prod.snd)
  entry : ∀ e ∈ db.head, e.2 < n ∧ ∃ r, rs[e.2]? = some r ∧ r.key = e.1
  keys_nodup : (db.head.map Prod.fst).Nodup
  slots_nodup : (db.head.map Prod.snd).Nodup

end notions

/-! ## The scenario of the specification: a store of capacity 3 -/

/-- The store after `add` of the record `{k, v}` (the store itself if `add` does not return). -/
def scenario_add (db : RECORD_TYPE_db_t Nat Nat) (k v : Nat) : RECORD_TYPE_db_t Nat Nat :=
  match add_RECORD_TYPE db (some ⟨k, v⟩) with
  | some (_, db') => db'
  | none => db

/-- The store after `delete(k)` (the store itself if `delete` does not return). -/
def scenario_del (db : RECORD_TYPE_db_t Nat Nat) (k : Nat) : RECORD_TYPE_db_t Nat Nat :=
  match del_RECORD_TYPE db (some k) with
  | some (_, db') => db'
  | none => db

/-- The fresh store of capacity 3. -/
def scenario0 : RECORD_TYPE_db_t Nat Nat := (init_RECORD_TYPE 3 true true).2

/-- The store holding key 1. -/
def scenario1 : RECORD_TYPE_db_t Nat Nat := scenario_add scenario0 1 10

/-- The store holding keys 1, 2. -/
def scenario2 : RECORD_TYPE_db_t Nat Nat := scenario_add scenario1 2 20

/-- The full store holding keys 1, 2, 3. -/
def scenario3 : RECORD_TYPE_db_t Nat Nat := scenario_add scenario2 3 30

/-- The store after `delete(2)`: keys 1, 3. -/
def scenario3d : RECORD_TYPE_db_t Nat Nat := scenario_del scenario3 2

/-- The store after the `add` of key 4: keys 1, 3, 4. -/
def scenario4 : RECORD_TYPE_db_t Nat Nat := scenario_add scenario3d 4 40

/-- The fresh store of capacity 4. -/
def pagination0 : RECORD_TYPE_db_t Nat Nat := (init_RECORD_TYPE 4 true true).2

/-- The store of capacity 4 holding key 1. -/
def pagination1 : RECORD_TYPE_db_t Nat Nat := scenario_add pagination0 1 10

/-- The store of capacity 4 holding keys 1, 2. -/
def pagination2 : RECORD_TYPE_db_t Nat Nat := scenario_add pagination1 2 20

/-- The store of capacity 4 holding keys 1, 2, 3. -/
def pagination3 : RECORD_TYPE_db_t Nat Nat := scenario_add pagination2 3 30

/-- A store of capacity 4 holding four records with the keys 1, 2, 3, 4. -/
def pagination_store : RECORD_TYPE_db_t Nat Nat := scenario_add pagination3 4 40

/-! ## ing_gen_utils.c: strings -/

/-- The C library function `strlen` on the bytes of a buffer from the pointer on: the number
of bytes before the first NUL; no result when there is no NUL up to the end of the buffer. -/
def strlen : List Nat → Option Nat
  | [] => none
  | c :: s =>
    if c = 0 then some 0
    else
      match strlen s with
      | none => none
      | some n => some (n + 1)

/-- The C library function `memmove(dest, src, n)`, `dest` being the offset `d` in the
buffer `buf` and `src` the bytes from the source pointer to the end of its buffer (for a
move inside one buffer, `buf.drop s`); no result when `n` bytes cannot be read from `src`
or written at `dest`. The bytes are read before any is written. -/
def memmove (buf : List Nat) (d : Nat) (src : List Nat) (n : Nat) : Option (List Nat) :=
  if n ≤ src.length ∧ d + n ≤ buf.length then
    some (buf.take d ++ src.take n ++ buf.drop (d + n))
  else none

/-- The C library function `strcat(dest, src)`: the string at `src` with its NUL is copied
to the terminating NUL of `dest`. -/
def strcat (dest src : List Nat) : Option (List Nat) :=
  match strlen dest, strlen src with
  | some ld, some ls => memmove dest ld src (ls + 1)
  | _, _ => none

/-- Whether the bytes `s` start with the bytes `t`. -/
def starts_with : List Nat → List Nat → Bool
  | _, [] => true
  | [], _ :: _ => false
  | c :: s, d :: t => decide (c = d) && starts_with s t

/-- The search of `strstr`: the offset, counted from `p`, of the first place where `s`
starts with `needle`. -/
def strstr_loop (needle : List Nat) : List Nat → Nat → Option Nat
  | [], p => if starts_with [] needle then some p else none
  | c :: s, p => if starts_with (c :: s) needle then some p else strstr_loop needle s (p + 1)

/-- The C library function `strstr(s1, s2)`: the offset in `s1` of the first occurrence of
the string `s2` (without its NUL) in the string `s1`, or `NULL` (inner `none`); no result
when one of them has no NUL. -/
def strstr (s1 s2 : List Nat) : Option (Option Nat) :=
  match strlen s1, strlen s2 with
  | some l1, some l2 => some (strstr_loop (s2.take l2) (s1.take l1) 0)
  | _, _ => none

/-- The function `strcat_safe`. `to_` and `from_` (the parameters `to` and `from`) are the
buffers the pointers point to (`none` for `NULL`), `to_len` is a `size_t`; the subtraction
`to_len - strlen(to)` is one of `size_t`. Returns whether the returned pointer is
non-`NULL` and the buffer `to`. -/
def strcat_safe (to_ from_ : Option (List Nat)) (to_len : Nat) :
    Option (Bool × Option (List Nat)) :=
  match to_, from_ with
  | some t, some f =>
    match strlen t, strlen f with
    | some lt, some lf =>
      if to_size_t ((to_len : Int) - (lt : Int)) > lf then
        match strcat t f with
        | none => none
        | some t' => some (true, some t')
      else some (false, some t)
    | _, _ => none
  | _, _ => some (false, to_)

/-- The function `str_replace`. `str`, `placeholder` and `replacement` are the buffers the
pointers point to (`none` for `NULL`); `p_ph` is an offset in `str`; the lengths are
`size_t` values. Returns the return value and the buffer `str`. -/
def str_replace (str : Option (List Nat)) (str_size : Nat)
    (placeholder replacement : Option (List Nat)) : Option (Int × Option (List Nat)) :=
  match str, placeholder, replacement with
  | some s, some ph, some rep =>
    match strstr s ph with
    | none => none
    | some none => some (2, some s)
    | some (some p_ph) =>
      match strlen rep, strlen s, strlen ph, strlen (s.drop p_ph) with
      | some sv_len, some ls, some lph, some lp =>
        if (to_size_t ((ls : Int) - (lph : Int)) + sv_len) % ULONG_MOD ≥ str_size then
          some (3, some s)
        else
          match memmove s (p_ph + sv_len) (s.drop (p_ph + lph)) (to_size_t ((lp : Int) - 1)) with
          | none => none
          | some s1 =>
            match memmove s1 p_ph rep sv_len with
            | none => none
            | some s2 => some (0, some s2)
      | _, _, _, _ => none
  | _, _, _ => some (1, str)

/-! ## Notions for the bitmap, the store states and the strings -/

/-- A call of `bitmap_set` or of `bitmap_clear` with the given index. -/
inductive bitmap_call
  | set (idx : Int)
  | clear (idx : Int)
  deriving DecidableEq, Repr

/-- The bitmap after a sequence of calls, each made on the bitmap the call before left. -/
def bitmap_calls : bitmap_t → List bitmap_call → Option bitmap_t
  | bmp, [] => some bmp
  | bmp, bitmap_call.set idx :: rest =>
    match bitmap_set bmp idx with
    | none => none
    | some r => bitmap_calls r.2 rest
  | bmp, bitmap_call.clear idx :: rest =>
    match bitmap_clear bmp idx with
    | none => none
    | some r => bitmap_calls r.2 rest

/-- The calls that are in range for a bitmap of `n` bits: `bitmap_set` with an index in
`[0, n)`, `bitmap_clear` with an index in `[0, n)` or, to clear the whole bitmap, with a
negative index. -/
def bitmap_call.in_range (n : Int) : bitmap_call → Prop
  | bitmap_call.set idx => 0 ≤ idx ∧ idx < n
  | bitmap_call.clear idx => idx < n

/-- Whether the call clears the whole bitmap. -/
def bitmap_call.clears_all : bitmap_call → Bool
  | bitmap_call.set _ => false
  | bitmap_call.clear idx => decide (idx < 0)

/-- The string a buffer holds: its bytes before the first NUL. -/
def c_str (s : List Nat) : List Nat := s.takeWhile (fun c => decide (c ≠ 0))

/-- A store handle that is zeroed and has not been initialised. -/
def zeroed_db (K V : Type) : RECORD_TYPE_db_t K V :=
  { max_rec_num := 0, rec_num := 0, records := heap_ptr.null,
    map_free := { map := none, elements := 0 }, head := [] }

/-- The store that `init` with capacity 3 leaves when the `calloc` of the bitmap fails. -/
def failed_init_store : RECORD_TYPE_db_t Nat Nat := (init_RECORD_TYPE 3 true false).2

/-- The store `scenario3` after `destroy` (the store itself if `destroy` does not return). -/
def destroyed_store : RECORD_TYPE_db_t Nat Nat :=
  match destroy_RECORD_TYPE scenario3 with
  | some r => r.2
  | none => scenario3


/-! ## ing_gen_utils.c: trim and rstrstr -/

/-- The test `*p == ' ' || *p == '\t' || *p == '\n' || *p == '\r'` of `trim`. -/
def trim_space (c : Nat) : Bool := c = 32 || c = 9 || c = 10 || c = 13

/-- The first loop of `trim`, `for (p = str; <*p is a space>; p++);`, on the bytes from
`p` on: the number of steps of `p`; no result when the loop runs past the end of the
buffer. -/
def trim_skip : List Nat → Option Nat
  | [] => none
  | c :: s =>
    if trim_space c then
      match trim_skip s with
      | none => none
      | some k => some (k + 1)
    else some 0

/-- The second loop of `trim`, `for (...; p >= str && (<*p is a space> || *p == '\0'); p--)
*p = '\0';`, entered with `p = str + q - 1` (`q = 0` for a `p` below `str`). Returns the
buffer when the loop ends. -/
def trim_back (buf : List Nat) : Nat → Option (List Nat)
  | 0 => some buf
  | q + 1 =>
    match buf[q]? with
    | none => none
    | some c =>
      if trim_space c || c = 0 then trim_back (buf.set q 0) q
      else some buf

/-- The function `trim`. `str` is the buffer the pointer points to (`none` for `NULL`).
After the `memmove` the pointer `p` is where the first loop left it, and both
`strlen(p)` of the second loop are taken there in the buffer as moved. Returns the
buffer (`none` for the return value `NULL`). -/
def trim (str : Option (List Nat)) : Option (Option (List Nat)) :=
  match str with
  | none => some none
  | some s =>
    match trim_skip s with
    | none => none
    | some p =>
      match strlen (s.drop p) with
      | none => none
      | some l =>
        match memmove s 0 (s.drop p) (l + 1) with
        | none => none
        | some s1 =>
          match strlen (s1.drop p) with
          | none => none
          | some l2 =>
            match trim_back s1 (p + l2) with
            | none => none
            | some s2 => some (some s2)

/-- The C library function `strncmp(s1, s2, n)`: at most `n` bytes are compared, up to
and including a NUL; the result is zero for equal, and the difference of the first two
bytes that differ otherwise. No result when the comparison runs past the end of a
buffer. -/
def strncmp : List Nat → List Nat → Nat → Option Int
  | _, _, 0 => some 0
  | a :: s, b :: t, n + 1 =>
    if a ≠ b then some ((a : Int) - (b : Int))
    else if a = 0 then some 0
    else strncmp s t n
  | _, _, _ + 1 => none

/-- The loop of `rstrstr`, `for (...; s >= s1; s--) if (strncmp(s, s2, s2len) == 0) return
s;`, entered with `s = s1 + q - 1` (`q = 0` for an `s` below `s1`). Returns the offset of
the returned pointer in `s1`, inner `none` for `NULL`. -/
def rstrstr_loop (s1 s2 : List Nat) (s2len : Nat) : Nat → Option (Option Nat)
  | 0 => some none
  | q + 1 =>
    match strncmp (s1.drop q) s2 s2len with
    | none => none
    | some r => if r = 0 then some (some q) else rstrstr_loop s1 s2 s2len q

/-- The function `rstrstr` (non-`NULL` `s1` and `s2`, given as the buffers they point to).
Returns the offset of the returned pointer in `s1`, inner `none` for `NULL`. -/
def rstrstr (s1 s2 : List Nat) : Option (Option Nat) :=
  match strlen s1, strlen s2 with
  | some s1len, some s2len =>
    if s2len > s1len then some none
    else rstrstr_loop s1 s2 s2len (s1len - s2len + 1)
  | _, _ => none

/-! ## Notions for the traversal from an element and for substrings -/

/-- The values of `FROM` that the body of the `for` loop of `IC_FOREACH_FROM` runs with,
in order, the loop being entered with the given values of `ELEM`, `_tmp` and `FROM`. -/
def IC_FOREACH_FROM_cursor_loop {K : Type} (head : hash_index K) :
    Nat → Option Nat → Option Nat → Option Nat → Option (List (Option Nat))
  | _, none, _, _ => some []
  | 0, some _, _, _ => none
  | fuel + 1, some _, tmp, FROM =>
    match IC_FOREACH_FROM_cursor_loop head fuel tmp (next_or_null head tmp) tmp with
    | none => none
    | some cursors => some (FROM :: cursors)

/-- The values of `FROM` that the body of `IC_FOREACH_FROM` runs with. -/
def IC_FOREACH_FROM_cursor {K V : Type} (db : RECORD_TYPE_db_t K V) (FROM : Option Nat)
    (fuel : Nat) : Option (List (Option Nat)) :=
  IC_FOREACH_FROM_cursor_loop db.head fuel FROM (next_or_null db.head FROM) FROM

/-- The string `b` occurs in the string `a` at offset `p`. -/
def occurs_at (a b : List Nat) (p : Nat) : Prop :=
  p + b.length ≤ a.length ∧ (a.drop p).take b.length = b


/-! ## Machine arithmetic -/

theorem sizeof_ulong_eq : sizeof_ulong = 8 := rfl

theorem ULONG_MOD_eq : ULONG_MOD = 18446744073709551616 := by
  simp [ULONG_MOD, sizeof_ulong]

theorem wrap_int_of_range {x : Int} (h0 : -(2 ^ 31) ≤ x) (h1 : x < 2 ^ 31) : wrap_int x = x := by
  unfold wrap_int
  rw [Int.emod_eq_of_lt (by omega) (by omega)]
  omega

theorem to_size_t_natCast {i : Nat} (h : i < 2 ^ 64) : to_size_t (i : Int) = i := by
  unfold to_size_t
  rw [ULONG_MOD_eq, Int.emod_eq_of_lt (by omega) (by omega)]
  simp

theorem I_ULONG_natCast {i : Nat} (h : i < 2 ^ 64) : I_ULONG (i : Int) = i / 64 := by
  unfold I_ULONG
  have h8 : Int.tdiv (i : Int) 8 = ((i / 8 : Nat) : Int) := by
    rw [Int.tdiv_eq_ediv (by omega) (by omega)]
    norm_cast
  rw [h8, to_size_t_natCast (by omega), sizeof_ulong_eq, Nat.div_div_eq_div_mul]

theorem I_BIT_natCast {i : Nat} (h : i < 2 ^ 64) : I_BIT (i : Int) = i % 64 := by
  unfold I_BIT
  rw [to_size_t_natCast h, sizeof_ulong_eq]

theorem NUM_ULONGS_eq {n : Nat} (h : n < 2 ^ 64) : NUM_ULONGS n = (n + 63) / 64 := by
  unfold NUM_ULONGS ceil_div
  rw [sizeof_ulong_eq, ULONG_MOD_eq]
  split <;> omega

theorem ulong_bit_eq {b : Nat} (h : b < 64) : ulong_bit b = 2 ^ b := by
  unfold ulong_bit
  rw [Nat.one_shiftLeft, ULONG_MOD_eq]
  apply Nat.mod_eq_of_lt
  calc 2 ^ b < 2 ^ 64 := Nat.pow_lt_pow_right (by omega) h
    _ = 18446744073709551616 := by norm_num

theorem testBit_ulong_not_bit {b j : Nat} (hb : b < 64) (hj : j < 64) :
    (ulong_not (ulong_bit b)).testBit j = decide (j ≠ b) := by
  have hlt : (2 : Nat) ^ b < 2 ^ 64 := Nat.pow_lt_pow_right (by omega) hb
  have h64 : (2 : Nat) ^ 64 = 18446744073709551616 := by norm_num
  unfold ulong_not
  rw [ulong_bit_eq hb, ULONG_MOD_eq, Nat.mod_eq_of_lt (by omega)]
  have : 18446744073709551616 - 1 - 2 ^ b = 2 ^ 64 - (2 ^ b + 1) := by omega
  rw [this, Nat.testBit_two_pow_sub_succ hlt, Nat.testBit_two_pow]
  by_cases h : b = j <;> simp [h, hj, eq_comm]

theorem and_two_pow_pos_iff (w b : Nat) : (w &&& 2 ^ b) > 0 ↔ w.testBit b = true := by
  constructor
  · intro h
    obtain ⟨i, hi⟩ := Nat.ne_zero_implies_bit_true (Nat.pos_iff_ne_zero.mp h)
    rw [Nat.testBit_and, Nat.testBit_two_pow] at hi
    simp at hi
    obtain ⟨h1, h2⟩ := hi
    subst h2
    exact h1
  · intro h
    apply Nat.pos_iff_ne_zero.mpr
    intro h0
    have : (w &&& 2 ^ b).testBit b = true := by
      rw [Nat.testBit_and, Nat.testBit_two_pow]
      simp [h]
    rw [h0] at this
    simp at this

/-! ## Bitmap lemmas -/

theorem word_index_lt {n i : Nat} (hn : n < 2 ^ 64) (hi : i < n) : i / 64 < NUM_ULONGS n := by
  rw [NUM_ULONGS_eq hn]
  omega

theorem bit_at_eq (ws : List Nat) (i : Nat) :
    bit_at ws i = ((ws[i / 64]?).getD 0).testBit (i % 64) := by
  simp [bit_at, sizeof_ulong_eq]

theorem bit_at_of_getElem? {ws : List Nat} {i w : Nat} (h : ws[i / 64]? = some w) :
    bit_at ws i = w.testBit (i % 64) := by
  simp [bit_at_eq, h]

theorem bitmap_get_spec {ws : List Nat} {n i : Nat} (hn : (n : Int) ≤ INT_MAX)
    (hlen : ws.length = NUM_ULONGS n) (hi : i < n) :
    bitmap_get { map := some ws, elements := n } i = some (if bit_at ws i then 1 else 0) := by
  have hn' : n < 2 ^ 31 := by unfold INT_MAX at hn; omega
  have hw : i / 64 < ws.length := hlen ▸ word_index_lt (by omega) hi
  obtain ⟨w, hwv⟩ : ∃ w, ws[i / 64]? = some w := ⟨ws[i / 64], List.getElem?_eq_getElem hw⟩
  have hnot : ¬ ((i : Int) ≥ (n : Int)) := by omega
  simp only [bitmap_get, hnot, if_false, I_ULONG_natCast (show i < 2 ^ 64 by omega), hwv,
    I_BIT_natCast (show i < 2 ^ 64 by omega), ulong_bit_eq (Nat.mod_lt i (by norm_num)),
    bit_at_of_getElem? hwv]
  by_cases hb : w.testBit (i % 64) = true
  · simp [hb, (and_two_pow_pos_iff w (i % 64)).2 hb]
  · have : ¬ (w &&& 2 ^ (i % 64)) > 0 := fun h => hb ((and_two_pow_pos_iff _ _).1 h)
    simp [hb, this]

theorem bit_at_set {ws : List Nat} {q : Nat} (v : Nat) (j : Nat) (hq : q < ws.length) :
    bit_at (ws.set q v) j = if j / 64 = q then v.testBit (j % 64) else bit_at ws j := by
  rw [bit_at_eq, bit_at_eq, List.getElem?_set]
  by_cases h : q = j / 64
  · subst h; simp [hq]
  · have h' : ¬ j / 64 = q := fun e => h e.symm
    simp [h, h']

theorem bitmap_set_spec {ws : List Nat} {n i : Nat} (hn : (n : Int) ≤ INT_MAX)
    (hlen : ws.length = NUM_ULONGS n) (hi : i < n) :
    ∃ ws', bitmap_set { map := some ws, elements := n } i
        = some (0, { map := some ws', elements := n }) ∧
      ws'.length = ws.length ∧ ∀ j, bit_at ws' j = (decide (j = i) || bit_at ws j) := by
  have hn' : n < 2 ^ 31 := by unfold INT_MAX at hn; omega
  have hw : i / 64 < ws.length := hlen ▸ word_index_lt (by omega) hi
  obtain ⟨w, hwv⟩ : ∃ w, ws[i / 64]? = some w := ⟨ws[i / 64], List.getElem?_eq_getElem hw⟩
  have hnot : ¬ ((i : Int) ≥ (n : Int)) := by omega
  refine ⟨ws.set (i / 64) (w ||| 2 ^ (i % 64)), ?_, by simp, ?_⟩
  · simp only [bitmap_set, hnot, if_false, I_ULONG_natCast (show i < 2 ^ 64 by omega), hwv,
      I_BIT_natCast (show i < 2 ^ 64 by omega), ulong_bit_eq (Nat.mod_lt i (by norm_num))]
  · intro j
    rw [bit_at_set _ _ hw]
    by_cases hq : j / 64 = i / 64
    · rw [if_pos hq, Nat.testBit_or, Nat.testBit_two_pow, bit_at_of_getElem? (hq ▸ hwv)]
      by_cases hb : i % 64 = j % 64
      · have : j = i := by omega
        simp [hb, this]
      · have : ¬ j = i := by intro e; subst e; exact hb rfl
        simp [hb, this]
    · have : ¬ j = i := by intro e; subst e; exact hq rfl
      simp [hq, this]

theorem bitmap_clear_spec {ws : List Nat} {n i : Nat} (hn : (n : Int) ≤ INT_MAX)
    (hlen : ws.length = NUM_ULONGS n) (hi : i < n) :
    ∃ ws', bitmap_clear { map := some ws, elements := n } i
        = some (0, { map := some ws', elements := n }) ∧
      ws'.length = ws.length ∧ ∀ j, bit_at ws' j = (decide (j ≠ i) && bit_at ws j) := by
  have hn' : n < 2 ^ 31 := by unfold INT_MAX at hn; omega
  have hw : i / 64 < ws.length := hlen ▸ word_index_lt (by omega) hi
  obtain ⟨w, hwv⟩ : ∃ w, ws[i / 64]? = some w := ⟨ws[i / 64], List.getElem?_eq_getElem hw⟩
  have hnot : ¬ ((i : Int) ≥ (n : Int)) := by omega
  have hneg : ¬ ((i : Int) < 0) := by omega
  refine ⟨ws.set (i / 64) (w &&& ulong_not (ulong_bit (i % 64))), ?_, by simp, ?_⟩
  · simp only [bitmap_clear, hnot, hneg, if_false, I_ULONG_natCast (show i < 2 ^ 64 by omega),
      hwv, I_BIT_natCast (show i < 2 ^ 64 by omega)]
  · intro j
    rw [bit_at_set _ _ hw]
    by_cases hq : j / 64 = i / 64
    · rw [if_pos hq, Nat.testBit_and,
        testBit_ulong_not_bit (Nat.mod_lt i (by norm_num)) (Nat.mod_lt j (by norm_num)),
        bit_at_of_getElem? (hq ▸ hwv)]
      by_cases hb : j % 64 = i % 64
      · have : j = i := by omega
        simp [hb, this]
      · have : ¬ j = i := by intro e; subst e; exact hb rfl
        simp [hb, this, Bool.and_comm]
    · have : ¬ j = i := by intro e; subst e; exact hq rfl
      simp [hq, this]

theorem find?_range_some (p : Nat → Bool) (m b : Nat)
    (h : (List.range m).find? p = some b) : b < m ∧ p b = true ∧ ∀ c < b, p c = false := by
  induction m with
  | zero => simp at h
  | succ m ih =>
    rw [List.range_succ, List.find?_append] at h
    cases hm : (List.range m).find? p with
    | some b' =>
      rw [hm] at h
      simp at h
      subst h
      obtain ⟨h1, h2, h3⟩ := ih hm
      exact ⟨by omega, h2, h3⟩
    | none =>
      rw [hm] at h
      simp at h
      obtain ⟨hp, hb⟩ := h
      subst hb
      refine ⟨by omega, hp, ?_⟩
      intro c hc
      have := List.find?_eq_none.1 hm c (List.mem_range.2 hc)
      simpa using this

theorem builtin_ffsl_zero {w : Nat} (h : builtin_ffsl w = 0) :
    ∀ b < 64, w.testBit b = false := by
  unfold builtin_ffsl at h
  rw [sizeof_ulong_eq] at h
  cases hf : (List.range (8 * 8)).find? (fun k => w.testBit k) with
  | some k => rw [hf] at h; simp at h; omega
  | none =>
    intro b hb
    have := List.find?_eq_none.1 hf b (List.mem_range.2 (by omega))
    simpa using this

theorem builtin_ffsl_pos {w : Nat} (h : builtin_ffsl w ≠ 0) :
    ∃ b : Nat, b < 64 ∧ builtin_ffsl w = (b : Int) + 1 ∧ w.testBit b = true ∧
      ∀ c < b, w.testBit c = false := by
  unfold builtin_ffsl at h ⊢
  rw [sizeof_ulong_eq] at h ⊢
  cases hf : (List.range (8 * 8)).find? (fun k => w.testBit k) with
  | none => rw [hf] at h; simp at h
  | some k =>
    obtain ⟨h1, h2, h3⟩ := find?_range_some _ _ _ hf
    exact ⟨k, by omega, by simp, h2, h3⟩

theorem bitmap_ffs_loop_spec (ulongs : Int) (hu : ulongs ≤ INT_MAX) :
    ∀ (ws : List Nat) (i : Int), 0 ≤ i → i + (ws.length : Int) = ulongs →
      ∃ i' res, bitmap_ffs_loop ulongs ws i = some (i', res) ∧
        ((res = 0 ∧ ∀ j, j < ws.length → builtin_ffsl ((ws[j]?).getD 0) = 0) ∨
         (res ≠ 0 ∧ ∃ q : Nat, q < ws.length ∧ i' = i + (q : Int) + 1 ∧
            res = builtin_ffsl ((ws[q]?).getD 0) ∧
            ∀ j, j < q → builtin_ffsl ((ws[j]?).getD 0) = 0)) := by
  unfold INT_MAX at hu
  intro ws
  induction ws with
  | nil =>
    intro i _ hi
    have hnot : ¬ i < ulongs := by simp at hi; omega
    refine ⟨i, 0, ?_, Or.inl ⟨rfl, fun j hj => by simp at hj⟩⟩
    rw [bitmap_ffs_loop, if_neg hnot]
  | cons w rest ih =>
    intro i hi0 hi
    have hlen : ((w :: rest).length : Int) = (rest.length : Int) + 1 := by simp
    have hlt : i < ulongs := by omega
    have hwrap : wrap_int (i + 1) = i + 1 := wrap_int_of_range (by omega) (by omega)
    by_cases hz : builtin_ffsl w = 0
    · obtain ⟨i', res, hl, hcases⟩ := ih (i + 1) (by omega) (by omega)
      refine ⟨i', res, ?_, ?_⟩
      · rw [bitmap_ffs_loop, if_pos hlt, if_neg (by simpa using hz), hwrap]
        exact hl
      · rcases hcases with ⟨h1, h2⟩ | ⟨h1, q, hq, h3, h4, h5⟩
        · refine Or.inl ⟨h1, ?_⟩
          intro j hj
          cases j with
          | zero => simpa using hz
          | succ j =>
            have := h2 j (by simpa using hj)
            simpa using this
        · refine Or.inr ⟨h1, q + 1, by simpa using hq, by push_cast; omega, ?_, ?_⟩
          · simpa using h4
          · intro j hj
            cases j with
            | zero => simpa using hz
            | succ j =>
              have := h5 j (by omega)
              simpa using this
    · refine ⟨i + 1, builtin_ffsl w, ?_, Or.inr ⟨hz, 0, by simp, by simp, by simp, ?_⟩⟩
      · rw [bitmap_ffs_loop, if_pos hlt, if_pos hz, hwrap]
      · intro j hj
        omega

/-- On a bitmap whose word array has `NUM_ULONGS(elements)` words, `bitmap_ffs` returns the
lowest set bit when some bit below `elements` is set. -/
theorem bitmap_ffs_spec {ws : List Nat} {n : Nat} (hn : (n : Int) ≤ INT_MAX)
    (hlen : ws.length = NUM_ULONGS n) (hex : ∃ i, i < n ∧ bit_at ws i = true) :
    ∃ f, f < n ∧ bitmap_ffs { map := some ws, elements := n } = some (f : Int) ∧
      bit_at ws f = true ∧ ∀ j < f, bit_at ws j = false := by
  have hn' : n < 2 ^ 31 := by unfold INT_MAX at hn; omega
  have hnum : NUM_ULONGS n = (n + 63) / 64 := NUM_ULONGS_eq (by omega)
  have hul : wrap_int ((NUM_ULONGS (to_size_t (n : Int)) : Nat) : Int) = (ws.length : Int) := by
    rw [to_size_t_natCast (by omega), ← hlen]
    apply wrap_int_of_range <;> omega
  obtain ⟨i', res, hl, hcases⟩ :=
    bitmap_ffs_loop_spec (ws.length : Int) (by unfold INT_MAX; omega) ws 0 (by omega) (by omega)
  obtain ⟨i0, hi0, hbit0⟩ := hex
  have hword : ∀ j, builtin_ffsl ((ws[j / 64]?).getD 0) = 0 → bit_at ws j = false := by
    intro j hz
    rw [bit_at_eq]
    exact builtin_ffsl_zero hz _ (Nat.mod_lt j (by norm_num))
  rcases hcases with ⟨_, h3⟩ | ⟨h1, q, hq, h2, h4, h5⟩
  · exfalso
    have := hword i0 (h3 (i0 / 64) (by omega))
    rw [this] at hbit0
    exact Bool.noConfusion hbit0
  · obtain ⟨b, hb, hres, hbt, hbl⟩ := builtin_ffsl_pos (h4 ▸ h1)
    have hlow : ∀ j < q * 64 + b, bit_at ws j = false := by
      intro j hj
      by_cases hq : j / 64 < q
      · exact hword j (h5 (j / 64) hq)
      · have hq' : j / 64 = q := by omega
        rw [bit_at_eq, hq']
        exact hbl (j % 64) (by omega)
    have hf : bit_at ws (q * 64 + b) = true := by
      rw [bit_at_eq]
      have e1 : (q * 64 + b) / 64 = q := by omega
      have e2 : (q * 64 + b) % 64 = b := by omega
      rw [e1, e2]
      exact hbt
    have hle : q * 64 + b ≤ i0 := by
      by_contra hc
      rw [hlow i0 (by omega)] at hbit0
      exact Bool.noConfusion hbit0
    refine ⟨q * 64 + b, by omega, ?_, hf, hlow⟩
    have hres' : res = (b : Int) + 1 := by rw [h4]; exact hres
    have hi' : i' - 1 = (q : Int) := by omega
    have hw1 : wrap_int (i' - 1) = (q : Int) := by
      rw [hi']
      exact wrap_int_of_range (by omega) (by omega)
    have hb1 : ¬ ((b : Int) + 1 = 0) := by omega
    have hfn : (((q * 64 + b : Nat)) : Int) < (n : Int) := by omega
    have hval : (q : Int) * 8 * ((8 : Nat) : Int) + ((b : Int) + 1) - 1
        = ((q * 64 + b : Nat) : Int) := by
      push_cast
      omega
    unfold bitmap_ffs
    simp only [hul, hl, hres', hw1, sizeof_ulong_eq]
    rw [wrap_int_of_range (x := (q : Int) * 8) (by omega) (by omega)]
    rw [wrap_int_of_range (x := (q : Int) * 8 * ((8 : Nat) : Int)) (by omega) (by omega)]
    rw [wrap_int_of_range (x := (q : Int) * 8 * ((8 : Nat) : Int) + ((b : Int) + 1))
      (by omega) (by omega)]
    rw [wrap_int_of_range (by omega) (by omega)]
    rw [hval]
    simp only [ne_eq, hb1, not_false_eq_true, if_true, hfn]

/-! ## Key index lemmas -/

section index
variable {K : Type} [DecidableEq K]

theorem HASH_FIND_some {head : hash_index K} {k : K} {p : Nat}
    (h : HASH_FIND head k = some p) : (k, p) ∈ head := by
  induction head with
  | nil => simp [HASH_FIND] at h
  | cons e t ih =>
    obtain ⟨k', p'⟩ := e
    rw [HASH_FIND] at h
    by_cases hk : k' = k
    · rw [if_pos hk] at h
      simp at h
      subst hk; subst h
      exact List.mem_cons_self _ _
    · rw [if_neg hk] at h
      exact List.mem_cons_of_mem _ (ih h)

theorem HASH_FIND_none {head : hash_index K} {k : K} :
    HASH_FIND head k = none ↔ k ∉ head.map Prod.fst := by
  induction head with
  | nil => simp [HASH_FIND]
  | cons e t ih =>
    obtain ⟨k', p'⟩ := e
    rw [HASH_FIND]
    by_cases hk : k' = k
    · simp [hk]
    · rw [if_neg hk, ih]
      simp only [List.map_cons, List.mem_cons, not_or]
      constructor
      · intro h; exact ⟨fun e => hk e.symm, h⟩
      · intro h; exact h.2

theorem HASH_FIND_of_mem {head : hash_index K} {k : K} {p : Nat}
    (hnd : (head.map Prod.fst).Nodup) (h : (k, p) ∈ head) : HASH_FIND head k = some p := by
  induction head with
  | nil => simp at h
  | cons e t ih =>
    obtain ⟨k', p'⟩ := e
    rw [List.map_cons, List.nodup_cons] at hnd
    rw [HASH_FIND]
    rcases List.mem_cons.1 h with heq | hmem
    · simp at heq
      simp [heq.1, heq.2]
    · have hne : ¬ k' = k := by
        intro e
        apply hnd.1
        rw [e]
        exact List.mem_map.2 ⟨(k, p), hmem, rfl⟩
      rw [if_neg hne]
      exact ih hnd.2 hmem

theorem HASH_FIND_append {head : hash_index K} {k key : K} {p : Nat} :
    HASH_FIND (HASH_ADD head key p) k =
      match HASH_FIND head k with
      | some q => some q
      | none => if key = k then some p else none := by
  unfold HASH_ADD
  induction head with
  | nil => simp [HASH_FIND]
  | cons e t ih =>
    obtain ⟨k', p'⟩ := e
    rw [List.cons_append, HASH_FIND, HASH_FIND]
    by_cases hk : k' = k
    · simp [hk]
    · rw [if_neg hk, if_neg hk, ih]

end index

theorem HASH_DELETE_of_mem {K : Type} {head : hash_index K} {k : K} {p : Nat} (h : (k, p) ∈ head) :
    HASH_DELETE head p = some (head.filter (fun e => e.2 ≠ p)) := by
  unfold HASH_DELETE
  cases head with
  | nil => exact absurd h (List.not_mem_nil _)
  | cons e t => rfl

theorem bit_at_replicate_ones {m i : Nat} (h : i / 64 < m) :
    bit_at (List.replicate m (ULONG_MOD - 1)) i = true := by
  rw [bit_at_eq, List.getElem?_replicate, if_pos h, ULONG_MOD_eq]
  have e : (18446744073709551616 : Nat) - 1 = 2 ^ 64 - 1 := by norm_num
  simp only [Option.getD_some]
  rw [e, Nat.testBit_two_pow_sub_one]
  simp [Nat.mod_lt]

section store
variable {K V : Type} [DecidableEq K] [Inhabited K] [Inhabited V]

theorem init_inv {K V : Type} [Inhabited K] [Inhabited V] {C : Int} {m c : Bool}
    {db : RECORD_TYPE_db_t K V} (hC : C ≤ INT_MAX)
    (h : init_RECORD_TYPE C m c = (ING_STAT_OK, db)) :
    ∃ n : Nat, C = n ∧ db.head = [] ∧
      StoreInv n db (List.replicate n ⟨default, default⟩)
        (List.replicate (NUM_ULONGS n) (ULONG_MOD - 1)) := by
  unfold init_RECORD_TYPE at h
  by_cases h1 : C < 0 ∨ m = false
  · rw [if_pos h1] at h
    simp at h
  · rw [if_neg h1] at h
    have hC0 : 0 ≤ C := by
      by_contra hneg
      exact h1 (Or.inl (by omega))
    obtain ⟨n, rfl⟩ := Int.eq_ofNat_of_zero_le hC0
    have hn : n < 2 ^ 31 := by unfold INT_MAX at hC; omega
    cases c with
    | false => simp [bitmap_init] at h
    | true =>
      simp only [bitmap_init, if_true, ne_eq, one_ne_zero, not_false_eq_true, lt_self_iff_false,
        if_false, Prod.mk.injEq, true_and, to_size_t_natCast (show n < 2 ^ 64 by omega),
        Int.toNat_ofNat] at h
      subst h
      refine ⟨n, rfl, rfl, ?_⟩
      exact {
        cap := hC
        max_eq := rfl
        num_eq := rfl
        recs_eq := rfl
        recs_len := by simp
        map_eq := rfl
        map_len := by simp
        free_iff := by
          intro i hi
          have := bit_at_replicate_ones (word_index_lt (show n < 2 ^ 64 by omega) hi)
          simp [this]
        entry := by intro e he; simp at he
        keys_nodup := by simp
        slots_nodup := by simp }

theorem StoreInv.length_le {K V : Type} {n : Nat} {db : RECORD_TYPE_db_t K V} {rs ws}
    (inv : StoreInv n db rs ws) : db.head.length ≤ n := by
  have hsub : (db.head.map Prod.snd).toFinset ⊆ Finset.range n := by
    intro i hi
    rw [List.mem_toFinset, List.mem_map] at hi
    obtain ⟨e, he, rfl⟩ := hi
    exact Finset.mem_range.2 (inv.entry e he).1
  have := Finset.card_le_card hsub
  rw [List.toFinset_card_of_nodup inv.slots_nodup] at this
  simpa using this

theorem StoreInv.exists_free {K V : Type} {n : Nat} {db : RECORD_TYPE_db_t K V} {rs ws}
    (inv : StoreInv n db rs ws) (h : db.head.length < n) : ∃ i, i < n ∧ bit_at ws i = true := by
  by_contra hcon
  have hall : ∀ i, i < n → i ∈ db.head.map Prod.snd := by
    intro i hi
    apply (inv.free_iff i hi).1
    by_contra hb
    exact hcon ⟨i, hi, by simpa using hb⟩
  have hsub : Finset.range n ⊆ (db.head.map Prod.snd).toFinset := by
    intro i hi
    exact List.mem_toFinset.2 (hall i (Finset.mem_range.1 hi))
  have h1 := Finset.card_le_card hsub
  have h2 := List.toFinset_card_le (db.head.map Prod.snd)
  simp at h1 h2
  omega

theorem add_exists {K V : Type} [DecidableEq K] {db : RECORD_TYPE_db_t K V} {val : RECORD_TYPE K V}
    {p : Nat}
    (h : HASH_FIND db.head val.key = some p) :
    add_RECORD_TYPE db (some val) = some (ING_STAT_ALREADY_EXISTS, db) := by
  simp only [add_RECORD_TYPE, h]

theorem add_full {K V : Type} [DecidableEq K] {db : RECORD_TYPE_db_t K V} {val : RECORD_TYPE K V}
    (h : HASH_FIND db.head val.key = none) (hfull : db.rec_num ≥ db.max_rec_num) :
    add_RECORD_TYPE db (some val) = some (ING_STAT_FULL, db) := by
  simp only [add_RECORD_TYPE, h, hfull, if_true]

theorem add_ok {K V : Type} [DecidableEq K] {n : Nat} {db : RECORD_TYPE_db_t K V} {rs ws}
    (inv : StoreInv n db rs ws)
    {val : RECORD_TYPE K V} (h : HASH_FIND db.head val.key = none)
    (hroom : db.rec_num < db.max_rec_num) :
    ∃ f ws', f < n ∧ bitmap_ffs db.map_free = some (f : Int) ∧ bit_at ws f = true ∧
      (∀ j < f, bit_at ws j = false) ∧
      (∀ j, bit_at ws' j = (decide (j ≠ f) && bit_at ws j)) ∧
      add_RECORD_TYPE db (some val) = some (ING_STAT_OK,
        { max_rec_num := db.max_rec_num, rec_num := db.rec_num + 1,
          records := heap_ptr.live (rs.set f val), map_free := { map := some ws', elements := n },
          head := db.head ++ [(val.key, f)] }) ∧
      StoreInv n
        { max_rec_num := db.max_rec_num, rec_num := db.rec_num + 1,
          records := heap_ptr.live (rs.set f val), map_free := { map := some ws', elements := n },
          head := db.head ++ [(val.key, f)] } (rs.set f val) ws' := by
  have hcap := inv.cap
  have hlenle := inv.length_le
  have hlt : db.head.length < n := by
    have h1 := inv.max_eq
    have h2 := inv.num_eq
    omega
  obtain ⟨f, hf, hffs, hbit, hlow⟩ := bitmap_ffs_spec inv.cap inv.map_len (inv.exists_free hlt)
  obtain ⟨ws', hclr, hlen', hbits'⟩ := bitmap_clear_spec inv.cap inv.map_len hf
  have hfslot : f ∉ db.head.map Prod.snd := by
    intro hmem
    have := (inv.free_iff f hf).2 hmem
    rw [this] at hbit
    exact Bool.noConfusion hbit
  have hnotfull : ¬ db.rec_num ≥ db.max_rec_num := by omega
  have hnneg : ¬ ((f : Int) < 0) := by omega
  have hfr : f < rs.length := by rw [inv.recs_len]; exact hf
  have hwrap : wrap_int (db.rec_num + 1) = db.rec_num + 1 := by
    have h2 := inv.num_eq
    unfold INT_MAX at hcap
    apply wrap_int_of_range <;> omega
  refine ⟨f, ws', hf, by rw [inv.map_eq]; exact hffs, hbit, hlow, hbits', ?_, ?_⟩
  · simp only [add_RECORD_TYPE, h, hnotfull, if_false, inv.map_eq, hffs, hnneg, inv.recs_eq, hfr,
      if_true, hclr, hwrap, Int.toNat_ofNat, HASH_ADD]
  · exact {
      cap := inv.cap
      max_eq := inv.max_eq
      num_eq := by
        have h2 := inv.num_eq
        simp only [List.length_append, List.length_singleton]
        push_cast
        omega
      recs_eq := rfl
      recs_len := by simp [inv.recs_len]
      map_eq := rfl
      map_len := by rw [hlen', inv.map_len]
      free_iff := by
        intro i hi
        rw [hbits' i]
        simp only [List.map_append, List.map_cons, List.map_nil, List.mem_append,
          List.mem_singleton]
        by_cases e : i = f
        · subst e; simp
        · simp [e, inv.free_iff i hi]
      entry := by
        intro e he
        rcases List.mem_append.1 he with hold | hnew
        · obtain ⟨h1, r, h2, h3⟩ := inv.entry e hold
          have hne : f ≠ e.2 := by
            intro e'
            apply hfslot
            rw [e']
            exact List.mem_map.2 ⟨e, hold, rfl⟩
          refine ⟨h1, r, ?_, h3⟩
          rw [List.getElem?_set_ne hne]
          exact h2
        · simp at hnew
          subst hnew
          refine ⟨hf, val, ?_, rfl⟩
          simp [inv.recs_len, hf]
      keys_nodup := by
        rw [List.map_append, List.nodup_append]
        refine ⟨inv.keys_nodup, by simp, ?_⟩
        intro a ha hb
        simp at hb
        subst hb
        exact (HASH_FIND_none.1 h) ha
      slots_nodup := by
        rw [List.map_append, List.nodup_append]
        refine ⟨inv.slots_nodup, by simp, ?_⟩
        intro a ha hb
        simp at hb
        subst hb
        exact hfslot ha }

theorem filter_slot_length {K : Type} {head : hash_index K} {p : Nat} (hnd :
    (head.map Prod.snd).Nodup)
    (hmem : p ∈ head.map Prod.snd) :
    (head.filter (fun e => e.2 ≠ p)).length + 1 = head.length := by
  induction head with
  | nil => simp at hmem
  | cons e t ih =>
    rw [List.map_cons, List.nodup_cons] at hnd
    by_cases he : e.2 = p
    · have hnot : p ∉ t.map Prod.snd := he ▸ hnd.1
      have hall : t.filter (fun e => e.2 ≠ p) = t := by
        apply List.filter_eq_self.2
        intro a ha
        have : a.2 ≠ p := fun e' => hnot (e' ▸ List.mem_map.2 ⟨a, ha, rfl⟩)
        simpa using this
      rw [List.filter_cons_of_neg (by simpa using he), hall]
      simp
    · have hp : p ∈ t.map Prod.snd := by
        rw [List.map_cons, List.mem_cons] at hmem
        rcases hmem with h | h
        · exact absurd h.symm he
        · exact h
      rw [List.filter_cons_of_pos (by simpa using he)]
      simp only [List.length_cons]
      have := ih hnd.2 hp
      omega

theorem mem_filter_slot {K : Type} {head : hash_index K} {p i : Nat} :
    i ∈ (head.filter (fun e => e.2 ≠ p)).map Prod.snd ↔ i ∈ head.map Prod.snd ∧ i ≠ p := by
  simp only [List.mem_map, List.mem_filter]
  constructor
  · rintro ⟨e, ⟨he, hne⟩, rfl⟩
    exact ⟨⟨e, he, rfl⟩, by simpa using hne⟩
  · rintro ⟨⟨e, he, rfl⟩, hne⟩
    exact ⟨e, ⟨he, by simpa using hne⟩, rfl⟩

theorem del_notfound {K V : Type} [DecidableEq K] {db : RECORD_TYPE_db_t K V} {k : K}
    (h : HASH_FIND db.head k = none) :
    del_RECORD_TYPE db (some k) = some (ING_STAT_NOT_FOUND, db) := by
  simp only [del_RECORD_TYPE, h]

theorem del_ok {K V : Type} [DecidableEq K] {n : Nat} {db : RECORD_TYPE_db_t K V} {rs ws}
    (inv : StoreInv n db rs ws)
    {k : K} {p : Nat} (h : HASH_FIND db.head k = some p) :
    ∃ ws', p < n ∧ bit_at ws p = false ∧
      (∀ j, bit_at ws' j = (decide (j = p) || bit_at ws j)) ∧
      del_RECORD_TYPE db (some k) = some (ING_STAT_OK,
        { max_rec_num := db.max_rec_num, rec_num := db.rec_num - 1,
          records := heap_ptr.live rs, map_free := { map := some ws', elements := n },
          head := db.head.filter (fun e => e.2 ≠ p) }) ∧
      StoreInv n
        { max_rec_num := db.max_rec_num, rec_num := db.rec_num - 1,
          records := heap_ptr.live rs, map_free := { map := some ws', elements := n },
          head := db.head.filter (fun e => e.2 ≠ p) } rs ws' := by
  have hcap := inv.cap
  have hmem := HASH_FIND_some h
  have hp : p < n := (inv.entry _ hmem).1
  have hpslot : p ∈ db.head.map Prod.snd := List.mem_map.2 ⟨(k, p), hmem, rfl⟩
  obtain ⟨ws', hset, hlen', hbits'⟩ := bitmap_set_spec inv.cap inv.map_len hp
  have hflen := filter_slot_length inv.slots_nodup hpslot
  have hlenle := inv.length_le
  have hwrap : wrap_int (db.rec_num - 1) = db.rec_num - 1 := by
    have h2 := inv.num_eq
    unfold INT_MAX at hcap
    apply wrap_int_of_range <;> omega
  have hwp : wrap_int (p : Int) = (p : Int) := by
    unfold INT_MAX at hcap
    apply wrap_int_of_range <;> omega
  refine ⟨ws', hp, (inv.free_iff p hp).2 hpslot, hbits', ?_, ?_⟩
  · simp only [del_RECORD_TYPE, h, HASH_DELETE_of_mem hmem, inv.map_eq, hwp, hset, hwrap,
      inv.recs_eq.symm]
  · exact {
      cap := inv.cap
      max_eq := inv.max_eq
      num_eq := by
        have h2 := inv.num_eq
        show db.rec_num - 1 = ((db.head.filter (fun e => e.2 ≠ p)).length : Int)
        omega
      recs_eq := rfl
      recs_len := inv.recs_len
      map_eq := rfl
      map_len := by rw [hlen', inv.map_len]
      free_iff := by
        intro i hi
        rw [hbits' i]
        show _ ↔ i ∈ (db.head.filter (fun e => e.2 ≠ p)).map Prod.snd
        rw [mem_filter_slot]
        by_cases e : i = p
        · subst e; simp
        · simp [e, inv.free_iff i hi]
      entry := by
        intro e he
        exact inv.entry e (List.mem_of_mem_filter he)
      keys_nodup := inv.keys_nodup.sublist ((List.filter_sublist _).map Prod.fst)
      slots_nodup := inv.slots_nodup.sublist ((List.filter_sublist _).map Prod.snd) }

theorem add_total {K V : Type} [DecidableEq K] {n : Nat} {db : RECORD_TYPE_db_t K V} {rs ws}
    (inv : StoreInv n db rs ws)
    (xi_val : Option (RECORD_TYPE K V)) :
    ∃ st db' rs' ws', add_RECORD_TYPE db xi_val = some (st, db') ∧ StoreInv n db' rs' ws' := by
  cases xi_val with
  | none => exact ⟨_, db, rs, ws, rfl, inv⟩
  | some val =>
    cases hfind : HASH_FIND db.head val.key with
    | some p => exact ⟨_, db, rs, ws, add_exists hfind, inv⟩
    | none =>
      by_cases hfull : db.rec_num ≥ db.max_rec_num
      · exact ⟨_, db, rs, ws, add_full hfind hfull, inv⟩
      · obtain ⟨f, ws', _, _, _, _, _, hadd, hinv⟩ := add_ok inv hfind (by omega)
        exact ⟨_, _, _, _, hadd, hinv⟩

theorem del_total {K V : Type} [DecidableEq K] {n : Nat} {db : RECORD_TYPE_db_t K V} {rs ws}
    (inv : StoreInv n db rs ws)
    (xi_key : Option K) :
    ∃ st db' rs' ws', del_RECORD_TYPE db xi_key = some (st, db') ∧ StoreInv n db' rs' ws' := by
  cases xi_key with
  | none => exact ⟨_, db, rs, ws, rfl, inv⟩
  | some k =>
    cases hfind : HASH_FIND db.head k with
    | none => exact ⟨_, db, rs, ws, del_notfound hfind, inv⟩
    | some p =>
      obtain ⟨ws', _, _, _, hdel, hinv⟩ := del_ok inv hfind
      exact ⟨_, _, _, _, hdel, hinv⟩

theorem get_state {K V : Type} [DecidableEq K] (db : RECORD_TYPE_db_t K V) (xi_key : Option K) :
    (get_RECORD_TYPE db xi_key).2.2 = db := by
  cases xi_key with
  | none => rfl
  | some k =>
    cases h : HASH_FIND db.head k <;> simp only [get_RECORD_TYPE, h]

theorem reachable_inv {C : Int} {db : RECORD_TYPE_db_t K V} (h : Reachable C db) :
    ∃ (n : Nat) (rs : List (RECORD_TYPE K V)) (ws : List Nat), C = n ∧ StoreInv n db rs ws := by
  induction h with
  | init m c db hC h =>
    obtain ⟨n, hn, _, inv⟩ := init_inv hC.2 h
    exact ⟨n, _, _, hn, inv⟩
  | add db db' xi_val st _ h ih =>
    obtain ⟨n, rs, ws, hn, inv⟩ := ih
    obtain ⟨st1, db1, rs1, ws1, h1, inv1⟩ := add_total inv xi_val
    rw [h1] at h
    simp only [Option.some.injEq, Prod.mk.injEq] at h
    rw [← h.2]
    exact ⟨n, rs1, ws1, hn, inv1⟩
  | del db db' xi_key st _ h ih =>
    obtain ⟨n, rs, ws, hn, inv⟩ := ih
    obtain ⟨st1, db1, rs1, ws1, h1, inv1⟩ := del_total inv xi_key
    rw [h1] at h
    simp only [Option.some.injEq, Prod.mk.injEq] at h
    rw [← h.2]
    exact ⟨n, rs1, ws1, hn, inv1⟩
  | get db xi_key _ ih =>
    rw [get_state]
    exact ih

theorem get_found {K V : Type} [DecidableEq K] {db : RECORD_TYPE_db_t K V} {k : K} {p : Nat}
    (h : HASH_FIND db.head k = some p) :
    get_RECORD_TYPE db (some k) = (ING_STAT_OK, some p, db) := by
  simp only [get_RECORD_TYPE, h]

theorem get_notfound {K V : Type} [DecidableEq K] {db : RECORD_TYPE_db_t K V} {k : K}
    (h : HASH_FIND db.head k = none) :
    get_RECORD_TYPE db (some k) = (ING_STAT_NOT_FOUND, none, db) := by
  simp only [get_RECORD_TYPE, h]

theorem get_ok_iff {K V : Type} [DecidableEq K] {db : RECORD_TYPE_db_t K V} {k : K} {p : Nat} :
    get_RECORD_TYPE db (some k) = (ING_STAT_OK, some p, db) ↔ HASH_FIND db.head k = some p := by
  constructor
  · intro h
    cases hf : HASH_FIND db.head k with
    | none => rw [get_notfound hf] at h; simp at h
    | some q =>
      rw [get_found hf] at h
      simp only [Prod.mk.injEq, Option.some.injEq, true_and, and_true] at h
      rw [h]
  · exact get_found

theorem StoreInv.bitmap_get_eq {K V : Type} {n : Nat} {db : RECORD_TYPE_db_t K V} {rs ws}
    (inv : StoreInv n db rs ws) {i : Nat} (hi : i < n) :
    bitmap_get db.map_free (i : Int) = some (if bit_at ws i then 1 else 0) := by
  rw [inv.map_eq]
  exact bitmap_get_spec inv.cap inv.map_len hi

theorem StoreInv.bitmap_get_zero {K V : Type} {n : Nat} {db : RECORD_TYPE_db_t K V} {rs ws}
    (inv : StoreInv n db rs ws) {i : Nat} (hi : i < n) :
    bitmap_get db.map_free (i : Int) = some 0 ↔ bit_at ws i = false := by
  rw [inv.bitmap_get_eq hi]
  cases bit_at ws i <;> simp

theorem StoreInv.bitmap_get_one {K V : Type} {n : Nat} {db : RECORD_TYPE_db_t K V} {rs ws}
    (inv : StoreInv n db rs ws) {i : Nat} (hi : i < n) :
    bitmap_get db.map_free (i : Int) = some 1 ↔ bit_at ws i = true := by
  rw [inv.bitmap_get_eq hi]
  cases bit_at ws i <;> simp

theorem StoreInv.slot_eq {K V : Type} {n : Nat} {db : RECORD_TYPE_db_t K V} {rs ws}
    (inv : StoreInv n db rs ws) (i : Nat) : slot db i = rs[i]? := by
  simp only [slot, inv.recs_eq]

theorem StoreInv.find_iff_mem {K V : Type} [DecidableEq K] {n : Nat} {db : RECORD_TYPE_db_t K V}
    {rs ws}
    (inv : StoreInv n db rs ws) {k : K} {p : Nat} :
    HASH_FIND db.head k = some p ↔ (k, p) ∈ db.head :=
  ⟨HASH_FIND_some, HASH_FIND_of_mem inv.keys_nodup⟩

theorem StoreInv.occupied_iff {K V : Type} [DecidableEq K] {n : Nat} {db : RECORD_TYPE_db_t K V}
    {rs ws}
    (inv : StoreInv n db rs ws) (i : Nat) : occupied db i ↔ i ∈ db.head.map Prod.snd := by
  unfold occupied
  constructor
  · rintro ⟨k, hk⟩
    exact List.mem_map.2 ⟨(k, i), HASH_FIND_some (get_ok_iff.1 hk), rfl⟩
  · intro h
    obtain ⟨⟨k, p⟩, he, rfl⟩ := List.mem_map.1 h
    exact ⟨k, get_found (inv.find_iff_mem.2 he)⟩

theorem StoreInv.present_iff {K V : Type} [DecidableEq K] {n : Nat} {db : RECORD_TYPE_db_t K V}
    {rs ws}
    (inv : StoreInv n db rs ws) (k : K) : present db k ↔ ∃ p, HASH_FIND db.head k = some p := by
  unfold present
  constructor
  · rintro ⟨i, r, hi, hbit, hslot, hkey⟩
    have hi' : i < n := by have := inv.max_eq; omega
    have hmem := (inv.free_iff i hi').1 ((inv.bitmap_get_zero hi').1 hbit)
    obtain ⟨⟨k', p⟩, he, hp⟩ := List.mem_map.1 hmem
    simp only at hp
    subst hp
    obtain ⟨_, r', hr', hk'⟩ := inv.entry _ he
    rw [inv.slot_eq] at hslot
    simp only at hr' hk'
    rw [hslot] at hr'
    simp only [Option.some.injEq] at hr'
    subst hr'
    rw [hkey] at hk'
    subst hk'
    exact ⟨p, inv.find_iff_mem.2 he⟩
  · rintro ⟨p, hp⟩
    have he := HASH_FIND_some hp
    obtain ⟨hlt, r, hr, hk⟩ := inv.entry _ he
    refine ⟨p, r, by have := inv.max_eq; simp only at hlt; omega, ?_, ?_, hk⟩
    · exact (inv.bitmap_get_zero hlt).2
        ((inv.free_iff p hlt).2 (List.mem_map.2 ⟨(k, p), he, rfl⟩))
    · rw [inv.slot_eq]; exact hr

end store

theorem filter_range_mem_length {l : List Nat} {n : Nat} (hnd : l.Nodup)
    (hlt : ∀ x ∈ l, x < n) : ((List.range n).filter (fun i => decide (i ∈ l))).length = l.length := by
  apply List.Perm.length_eq
  rw [List.perm_ext_iff_of_nodup ((List.nodup_range n).filter _) hnd]
  intro a
  simp only [List.mem_filter, List.mem_range, decide_eq_true_eq]
  exact ⟨fun h => h.2, fun h => ⟨hlt a h, h⟩⟩

section store_counting
variable {K V : Type}

theorem StoreInv.zero_bits_eq {n : Nat} {db : RECORD_TYPE_db_t K V} {rs ws}
    (inv : StoreInv n db rs ws) : zero_bits db (n : Int) = db.head.length := by
  unfold zero_bits
  rw [Int.toNat_ofNat]
  have hcongr : (List.range n).filter
        (fun (i : Nat) => decide (bitmap_get db.map_free (i : Int) = some 0))
      = (List.range n).filter (fun (i : Nat) => decide (i ∈ db.head.map Prod.snd)) := by
    apply List.filter_congr
    intro x hx
    have hx' : x < n := List.mem_range.1 hx
    have h1 := inv.bitmap_get_zero hx'
    have h2 := inv.free_iff x hx'
    by_cases hm : x ∈ db.head.map Prod.snd
    · simp only [hm, decide_True, decide_eq_true_eq]
      exact h1.2 (h2.2 hm)
    · simp only [hm, decide_False, decide_eq_false_iff_not]
      exact fun hb => hm (h2.1 (h1.1 hb))
  rw [hcongr, filter_range_mem_length inv.slots_nodup]
  · simp
  · intro x hx
    obtain ⟨e, he, rfl⟩ := List.mem_map.1 hx
    exact (inv.entry e he).1

end store_counting

section store_more
variable {K V : Type} [DecidableEq K]

theorem StoreInv.full_all_slots {K V : Type} {n : Nat} {db : RECORD_TYPE_db_t K V} {rs ws}
    (inv : StoreInv n db rs ws) (hfull : db.head.length = n) :
    ∀ j, j < n → bit_at ws j = false := by
  have hsub : (db.head.map Prod.snd).toFinset ⊆ Finset.range n := by
    intro i hi
    rw [List.mem_toFinset, List.mem_map] at hi
    obtain ⟨e, he, rfl⟩ := hi
    exact Finset.mem_range.2 (inv.entry e he).1
  have hcard : (Finset.range n).card ≤ (db.head.map Prod.snd).toFinset.card := by
    rw [List.toFinset_card_of_nodup inv.slots_nodup]
    simp [hfull]
  have heq := Finset.eq_of_subset_of_card_le hsub hcard
  intro j hj
  apply (inv.free_iff j hj).2
  have : j ∈ (db.head.map Prod.snd).toFinset := by
    rw [heq]; exact Finset.mem_range.2 hj
  exact List.mem_toFinset.1 this

theorem add_ok_cases {db db' : RECORD_TYPE_db_t K V} {r : RECORD_TYPE K V}
    (hadd : add_RECORD_TYPE db (some r) = some (ING_STAT_OK, db')) :
    HASH_FIND db.head r.key = none ∧ db.rec_num < db.max_rec_num := by
  cases hfind : HASH_FIND db.head r.key with
  | some p =>
    rw [add_exists hfind] at hadd
    simp at hadd
  | none =>
    refine ⟨rfl, ?_⟩
    by_contra hfull
    rw [add_full hfind (by omega)] at hadd
    simp at hadd

theorem del_ok_cases {db db' : RECORD_TYPE_db_t K V} {k : K}
    (hdel : del_RECORD_TYPE db (some k) = some (ING_STAT_OK, db')) :
    ∃ p, HASH_FIND db.head k = some p := by
  cases hfind : HASH_FIND db.head k with
  | some p => exact ⟨p, rfl⟩
  | none =>
    rw [del_notfound hfind] at hdel
    simp at hdel

theorem StoreInv.words_unique {K V : Type} {n m : Nat} {db : RECORD_TYPE_db_t K V} {rs ws rs1 ws1}
    (inv : StoreInv n db rs ws) (inv1 : StoreInv m db rs1 ws1) :
    n = m ∧ rs = rs1 ∧ ws = ws1 := by
  have h1 := inv.map_eq
  have h2 := inv1.map_eq
  rw [h1] at h2
  have h3 := inv.recs_eq
  have h4 := inv1.recs_eq
  rw [h3] at h4
  simp only [bitmap_t.mk.injEq, Option.some.injEq, Nat.cast_inj] at h2
  simp only [heap_ptr.live.injEq] at h4
  exact ⟨h2.2, h4, h2.1⟩

end store_more

section store_frame
variable {K V : Type} [DecidableEq K]

theorem add_not_ok_unchanged {db db' : RECORD_TYPE_db_t K V}
    {xi_val : Option (RECORD_TYPE K V)} {st : ing_stat_t}
    (h : add_RECORD_TYPE db xi_val = some (st, db')) (hst : st ≠ ING_STAT_OK) :
    db' = db ∧ (st = ING_STAT_INVALID_ARGUMENT ∨ st = ING_STAT_ALREADY_EXISTS ∨
      st = ING_STAT_FULL) := by
  cases xi_val with
  | none =>
    simp only [add_RECORD_TYPE, Option.some.injEq, Prod.mk.injEq] at h
    exact ⟨h.2.symm, Or.inl h.1.symm⟩
  | some val =>
    cases hfind : HASH_FIND db.head val.key with
    | some p =>
      simp only [add_RECORD_TYPE, hfind, Option.some.injEq, Prod.mk.injEq] at h
      exact ⟨h.2.symm, Or.inr (Or.inl h.1.symm)⟩
    | none =>
      by_cases hfull : db.rec_num ≥ db.max_rec_num
      · simp only [add_RECORD_TYPE, hfind, hfull, if_true, Option.some.injEq,
          Prod.mk.injEq] at h
        exact ⟨h.2.symm, Or.inr (Or.inr h.1.symm)⟩
      · cases hffs : bitmap_ffs db.map_free with
        | none =>
          simp only [add_RECORD_TYPE, hfind, hfull, if_false, hffs] at h
          exact Option.noConfusion h
        | some ifree =>
          by_cases hneg : ifree < 0
          · simp only [add_RECORD_TYPE, hfind, hfull, if_false, hffs, hneg, if_true,
              Option.some.injEq, Prod.mk.injEq] at h
            exact ⟨h.2.symm, Or.inr (Or.inr h.1.symm)⟩
          · cases hrec : db.records with
            | null =>
              simp only [add_RECORD_TYPE, hfind, hfull, if_false, hffs, hneg, hrec] at h
              exact Option.noConfusion h
            | dangling =>
              simp only [add_RECORD_TYPE, hfind, hfull, if_false, hffs, hneg, hrec] at h
              exact Option.noConfusion h
            | live records =>
              by_cases hlen : ifree.toNat < records.length
              · cases hclr : bitmap_clear db.map_free ifree with
                | none =>
                  simp only [add_RECORD_TYPE, hfind, hfull, if_false, hffs, hneg, hrec, hlen,
                    if_true, hclr] at h
                  exact Option.noConfusion h
                | some res =>
                  obtain ⟨ret, map_free⟩ := res
                  simp only [add_RECORD_TYPE, hfind, hfull, if_false, hffs, hneg, hrec, hlen,
                    if_true, hclr, Option.some.injEq, Prod.mk.injEq] at h
                  exact absurd h.1.symm hst
              · simp only [add_RECORD_TYPE, hfind, hfull, if_false, hffs, hneg, hrec, hlen] at h
                exact Option.noConfusion h

theorem del_not_ok_unchanged {db db' : RECORD_TYPE_db_t K V}
    {xi_key : Option K} {st : ing_stat_t}
    (h : del_RECORD_TYPE db xi_key = some (st, db')) (hst : st ≠ ING_STAT_OK) :
    db' = db ∧ (st = ING_STAT_INVALID_ARGUMENT ∨ st = ING_STAT_NOT_FOUND) := by
  cases xi_key with
  | none =>
    simp only [del_RECORD_TYPE, Option.some.injEq, Prod.mk.injEq] at h
    exact ⟨h.2.symm, Or.inl h.1.symm⟩
  | some k =>
    cases hfind : HASH_FIND db.head k with
    | none =>
      rw [del_notfound hfind] at h
      simp only [Option.some.injEq, Prod.mk.injEq] at h
      exact ⟨h.2.symm, Or.inr h.1.symm⟩
    | some p =>
      cases hdel : HASH_DELETE db.head p with
      | none =>
        simp only [del_RECORD_TYPE, hfind, hdel] at h
        exact Option.noConfusion h
      | some head =>
        cases hset : bitmap_set db.map_free (wrap_int (p : Int)) with
        | none =>
          simp only [del_RECORD_TYPE, hfind, hdel, hset] at h
          exact Option.noConfusion h
        | some res =>
          obtain ⟨ret, map_free⟩ := res
          simp only [del_RECORD_TYPE, hfind, hdel, hset, Option.some.injEq,
            Prod.mk.injEq] at h
          exact absurd h.1.symm hst

theorem StoreInv.find_of_slot {n : Nat} {db : RECORD_TYPE_db_t K V} {rs ws}
    (inv : StoreInv n db rs ws) {j : Nat} {r : RECORD_TYPE K V} (hj : j < n)
    (hbit : bit_at ws j = false) (hslot : rs[j]? = some r) :
    HASH_FIND db.head r.key = some j := by
  have hmem := (inv.free_iff j hj).1 hbit
  obtain ⟨⟨k', p⟩, he, hp⟩ := List.mem_map.1 hmem
  simp only at hp
  subst hp
  obtain ⟨_, r', hr', hk'⟩ := inv.entry _ he
  simp only at hr' hk'
  rw [hslot] at hr'
  simp only [Option.some.injEq] at hr'
  subst hr'
  rw [hk']
  exact inv.find_iff_mem.2 he

theorem StoreInv.same_slot {K V : Type} {n : Nat} {db : RECORD_TYPE_db_t K V} {rs ws}
    (inv : StoreInv n db rs ws) {k k' : K} {p : Nat} (h1 : (k, p) ∈ db.head)
    (h2 : (k', p) ∈ db.head) : k = k' := by
  have := List.inj_on_of_nodup_map inv.slots_nodup h1 h2 rfl
  simpa using this

theorem StoreInv.filter_slot_eq {n : Nat} {db : RECORD_TYPE_db_t K V} {rs ws}
    (inv : StoreInv n db rs ws) {k : K} {p : Nat} (hmem : (k, p) ∈ db.head) :
    db.head.filter (fun e => decide (e.2 ≠ p)) = db.head.filter (fun e => decide (e ≠ (k, p))) := by
  apply List.filter_congr
  intro e he
  obtain ⟨k1, p1⟩ := e
  by_cases hp : p1 = p
  · subst hp
    have := inv.same_slot he hmem
    subst this
    simp
  · have : (k1, p1) ≠ (k, p) := by
      intro e'
      simp only [Prod.mk.injEq] at e'
      exact hp e'.2
    simp [hp, this]

theorem add_list_ok {n : Nat} (recs : List (RECORD_TYPE K V)) :
    ∀ {db : RECORD_TYPE_db_t K V} {rs ws}, StoreInv n db rs ws →
      (∀ r ∈ recs, r.key ∉ db.head.map Prod.fst) → (recs.map (fun r => r.key)).Nodup →
      db.head.length + recs.length ≤ n →
      ∃ db1 rs1 ws1, add_list db recs = some (List.replicate recs.length ING_STAT_OK, db1) ∧
        StoreInv n db1 rs1 ws1 ∧ db1.head.length = db.head.length + recs.length ∧
        db1.head.map Prod.fst = db.head.map Prod.fst ++ recs.map (fun r => r.key) := by
  induction recs with
  | nil =>
    intro db rs ws inv _ _ _
    exact ⟨db, rs, ws, rfl, inv, rfl, by simp⟩
  | cons r rest ih =>
    intro db rs ws inv hdisj hnd hroom
    rw [List.map_cons, List.nodup_cons] at hnd
    simp only [List.length_cons] at hroom
    have hfind : HASH_FIND db.head r.key = none :=
      HASH_FIND_none.2 (hdisj r (List.mem_cons_self _ _))
    have hr : db.rec_num < db.max_rec_num := by
      have h1 := inv.num_eq
      have h2 := inv.max_eq
      omega
    obtain ⟨f, ws', _, _, _, _, _, hadd, inv'⟩ := add_ok inv hfind hr
    have hdisj' : ∀ r' ∈ rest, r'.key ∉
        (db.head ++ [(r.key, f)]).map Prod.fst := by
      intro r' hr' hmem
      rw [List.map_append, List.mem_append] at hmem
      rcases hmem with hm | hm
      · exact hdisj r' (List.mem_cons_of_mem _ hr') hm
      · simp only [List.map_cons, List.map_nil, List.mem_singleton] at hm
        apply hnd.1
        rw [← hm]
        exact List.mem_map.2 ⟨r', hr', rfl⟩
    obtain ⟨db1, rs1, ws1, hlist, inv1, hlen1, hkeys1⟩ := ih inv' hdisj' hnd.2 (by
      simp only [List.length_append, List.length_singleton]
      omega)
    refine ⟨db1, rs1, ws1, ?_, inv1, ?_, ?_⟩
    · simp only [add_list, hadd, hlist, List.length_cons, List.replicate_succ]
    · have hl : db1.head.length = (db.head ++ [(r.key, f)]).length + rest.length := hlen1
      rw [hl]
      simp only [List.length_append, List.length_singleton, List.length_cons, List.length_nil]
      omega
    · have hk : db1.head.map Prod.fst
          = (db.head ++ [(r.key, f)]).map Prod.fst ++ rest.map (fun r => r.key) := hkeys1
      rw [hk]
      simp

end store_frame

/-! ## The scenario states are reachable -/

theorem int_range_three : INT_MIN ≤ (3 : Int) ∧ (3 : Int) ≤ INT_MAX := by
  unfold INT_MIN INT_MAX
  constructor <;> norm_num

theorem scenario0_reachable : Reachable 3 scenario0 :=
  Reachable.init true true scenario0 int_range_three rfl

theorem scenario1_reachable : Reachable 3 scenario1 :=
  Reachable.add scenario0 scenario1 (some ⟨1, 10⟩) ING_STAT_OK scenario0_reachable (by decide)

theorem scenario2_reachable : Reachable 3 scenario2 :=
  Reachable.add scenario1 scenario2 (some ⟨2, 20⟩) ING_STAT_OK scenario1_reachable (by decide)

theorem scenario3_reachable : Reachable 3 scenario3 :=
  Reachable.add scenario2 scenario3 (some ⟨3, 30⟩) ING_STAT_OK scenario2_reachable (by decide)

theorem scenario3d_reachable : Reachable 3 scenario3d :=
  Reachable.del scenario3 scenario3d (some 2) ING_STAT_OK scenario3_reachable (by decide)

theorem scenario4_reachable : Reachable 3 scenario4 :=
  Reachable.add scenario3d scenario4 (some ⟨4, 40⟩) ING_STAT_OK scenario3d_reachable (by decide)

/-! ## The claims -/

section claims
variable {K V : Type} [DecidableEq K] [Inhabited K] [Inhabited V]

/-- C1: in every store state reachable from a successful `init(C)` by `add`, `delete(key)`
and `get` calls, for every slot index `i` in `[0, C)`: slot `i` is occupied if and only if
free-map bit `i` is 0, if and only if the index contains the entry mapping the key of
`slots[i]` to slot `i`; and no two occupied slots hold the same key. -/
theorem C1_occupied_iff_free_bit_iff_index_entry (C : Int) (db : RECORD_TYPE_db_t K V)
    (h : Reachable C db) :
    (∀ i : Nat, (i : Int) < C →
      (occupied db i ↔ bitmap_get db.map_free (i : Int) = some 0) ∧
      (bitmap_get db.map_free (i : Int) = some 0 ↔
        ∃ r, slot db i = some r ∧ (r.key, i) ∈ db.head)) ∧
    (∀ (i j : Nat) (ri rj : RECORD_TYPE K V), occupied db i → occupied db j →
      slot db i = some ri → slot db j = some rj → ri.key = rj.key → i = j) := by
  obtain ⟨n, rs, ws, rfl, inv⟩ := reachable_inv h
  have hentry : ∀ i, i ∈ db.head.map Prod.snd →
      ∃ r, slot db i = some r ∧ (r.key, i) ∈ db.head := by
    intro i hi
    obtain ⟨⟨k, p⟩, he, rfl⟩ := List.mem_map.1 hi
    obtain ⟨_, r, hr, hk⟩ := inv.entry _ he
    simp only at hr hk
    exact ⟨r, by rw [inv.slot_eq]; exact hr, by rw [hk]; exact he⟩
  constructor
  · intro i hi
    have hi' : i < n := by omega
    constructor
    · rw [inv.occupied_iff, inv.bitmap_get_zero hi']
      exact (inv.free_iff i hi').symm
    · rw [inv.bitmap_get_zero hi', inv.free_iff i hi']
      constructor
      · exact hentry i
      · rintro ⟨r, _, hmem⟩
        exact List.mem_map.2 ⟨_, hmem, rfl⟩
  · intro i j ri rj hoi hoj hsi hsj hkey
    obtain ⟨r1, h1, m1⟩ := hentry i ((inv.occupied_iff i).1 hoi)
    obtain ⟨r2, h2, m2⟩ := hentry j ((inv.occupied_iff j).1 hoj)
    rw [hsi] at h1
    rw [hsj] at h2
    simp only [Option.some.injEq] at h1 h2
    subst h1 h2
    rw [hkey] at m1
    have e1 := inv.find_iff_mem.2 m1
    have e2 := inv.find_iff_mem.2 m2
    rw [e1] at e2
    simpa using e2

/-- C1 on the store of capacity 3 holding keys 1, 3, 4. -/
theorem C1_occupied_iff_free_bit_iff_index_entry_witness :
    Reachable 3 scenario4 ∧
    ((∀ i : Nat, (i : Int) < 3 →
      (occupied scenario4 i ↔ bitmap_get scenario4.map_free (i : Int) = some 0) ∧
      (bitmap_get scenario4.map_free (i : Int) = some 0 ↔
        ∃ r, slot scenario4 i = some r ∧ (r.key, i) ∈ scenario4.head)) ∧
    (∀ (i j : Nat) (ri rj : RECORD_TYPE Nat Nat), occupied scenario4 i → occupied scenario4 j →
      slot scenario4 i = some ri → slot scenario4 j = some rj → ri.key = rj.key → i = j)) :=
  ⟨scenario4_reachable, C1_occupied_iff_free_bit_iff_index_entry 3 scenario4 scenario4_reachable⟩

/-- C2: in every store state reachable from a successful `init(C)`, `size()` equals the
number of zero bits of the free map among the indices `[0, C)`, equals the number of
entries of the key index, and `0 <= rec_num <= max_rec_num`. -/
theorem C2_size_eq_zero_bits_eq_index_entries (C : Int) (db : RECORD_TYPE_db_t K V)
    (h : Reachable C db) :
    size_RECORD_TYPE db = (zero_bits db C : Int) ∧
    size_RECORD_TYPE db = (db.head.length : Int) ∧
    0 ≤ db.rec_num ∧ db.rec_num ≤ db.max_rec_num ∧ db.max_rec_num = C := by
  obtain ⟨n, rs, ws, rfl, inv⟩ := reachable_inv h
  have h1 := inv.num_eq
  have h2 := inv.max_eq
  have h3 := inv.length_le
  refine ⟨?_, h1, by omega, by omega, h2⟩
  rw [inv.zero_bits_eq]
  exact h1

/-- C2 on the store of capacity 3 holding keys 1, 3 after a deletion. -/
theorem C2_size_eq_zero_bits_eq_index_entries_witness :
    Reachable 3 scenario3d ∧
    (size_RECORD_TYPE scenario3d = (zero_bits scenario3d 3 : Int) ∧
    size_RECORD_TYPE scenario3d = (scenario3d.head.length : Int) ∧
    0 ≤ scenario3d.rec_num ∧ scenario3d.rec_num ≤ scenario3d.max_rec_num ∧
    scenario3d.max_rec_num = 3) :=
  ⟨scenario3d_reachable, C2_size_eq_zero_bits_eq_index_entries 3 scenario3d scenario3d_reachable⟩

/-- C3: for every reachable store state and every record `r`, `add(r)` returns; it returns
AlreadyExists if and only if a record with the key of `r` is present, Full if and only if
the key is absent and `count == capacity`, and OK otherwise. -/
theorem C3_add_status (C : Int) (db : RECORD_TYPE_db_t K V) (h : Reachable C db)
    (r : RECORD_TYPE K V) :
    ∃ st db', add_RECORD_TYPE db (some r) = some (st, db') ∧
      (st = ING_STAT_ALREADY_EXISTS ↔ present db r.key) ∧
      (st = ING_STAT_FULL ↔ (¬ present db r.key ∧ size_RECORD_TYPE db = db.max_rec_num)) ∧
      (st ≠ ING_STAT_ALREADY_EXISTS → st ≠ ING_STAT_FULL → st = ING_STAT_OK) := by
  obtain ⟨n, rs, ws, rfl, inv⟩ := reachable_inv h
  have hle : db.rec_num ≤ db.max_rec_num := by
    have h1 := inv.num_eq
    have h2 := inv.max_eq
    have h3 := inv.length_le
    omega
  cases hfind : HASH_FIND db.head r.key with
  | some p =>
    have hp : present db r.key := (inv.present_iff _).2 ⟨p, hfind⟩
    refine ⟨_, db, add_exists hfind, ?_, ?_, ?_⟩
    · simp [hp]
    · simp [hp]
    · intro h1; exact absurd rfl h1
  | none =>
    have hp : ¬ present db r.key := by
      intro hp
      obtain ⟨p, hp⟩ := (inv.present_iff _).1 hp
      rw [hfind] at hp
      exact Option.noConfusion hp
    by_cases hfull : db.rec_num ≥ db.max_rec_num
    · refine ⟨_, db, add_full hfind hfull, ?_, ?_, ?_⟩
      · simp [hp]
      · simp only [hp, not_false_eq_true, true_and, true_iff, size_RECORD_TYPE]
        omega
      · intro _ h2; exact absurd rfl h2
    · obtain ⟨f, ws', _, _, _, _, _, hadd, _⟩ := add_ok inv hfind (by omega)
      refine ⟨_, _, hadd, ?_, ?_, ?_⟩
      · simp [hp]
      · simp only [hp, not_false_eq_true, true_and, size_RECORD_TYPE]
        constructor
        · intro h1; exact ing_stat_t.noConfusion h1
        · intro h1; omega
      · intro _ _; rfl

/-- C3 on the full store holding keys 1, 2, 3, for a record with the new key 4. -/
theorem C3_add_status_witness :
    Reachable 3 scenario3 ∧
    ∃ st db', add_RECORD_TYPE scenario3 (some ⟨4, 40⟩) = some (st, db') ∧
      (st = ING_STAT_ALREADY_EXISTS ↔ present scenario3 4) ∧
      (st = ING_STAT_FULL ↔
        (¬ present scenario3 4 ∧ size_RECORD_TYPE scenario3 = scenario3.max_rec_num)) ∧
      (st ≠ ING_STAT_ALREADY_EXISTS → st ≠ ING_STAT_FULL → st = ING_STAT_OK) :=
  ⟨scenario3_reachable, C3_add_status 3 scenario3 scenario3_reachable ⟨4, 40⟩⟩

/-- C4: whenever `add` returns a status other than OK, the status is InvalidArgument,
AlreadyExists or Full and the whole store state (slots, free map, key index, count) is
unchanged. -/
theorem C4_add_failure_leaves_store_unchanged {K V : Type} [DecidableEq K]
    (db db' : RECORD_TYPE_db_t K V)
    (xi_val : Option (RECORD_TYPE K V)) (st : ing_stat_t)
    (h : add_RECORD_TYPE db xi_val = some (st, db')) (hst : st ≠ ING_STAT_OK) :
    db' = db ∧ (st = ING_STAT_INVALID_ARGUMENT ∨ st = ING_STAT_ALREADY_EXISTS ∨
      st = ING_STAT_FULL) :=
  add_not_ok_unchanged h hst

/-- C4 on the full store holding keys 1, 2, 3: `add` of key 4 fails with Full. -/
theorem C4_add_failure_leaves_store_unchanged_witness :
    add_RECORD_TYPE scenario3 (some ⟨4, 40⟩) = some (ING_STAT_FULL, scenario3) ∧
    (scenario3 = scenario3 ∧ (ING_STAT_FULL = ING_STAT_INVALID_ARGUMENT ∨
      ING_STAT_FULL = ING_STAT_ALREADY_EXISTS ∨ ING_STAT_FULL = ING_STAT_FULL)) :=
  ⟨by decide, C4_add_failure_leaves_store_unchanged scenario3 scenario3 (some ⟨4, 40⟩)
    ING_STAT_FULL (by decide) (by decide)⟩

/-- C5: for every reachable store state in which `add(r)` returns OK, the record is copied
into slot `f`, the value of `bitmap_ffs` on the free map before the call and the
lowest-index free slot; free bit `f` becomes 0 and no other bit changes, no other slot
changes, the index gains exactly the entry `key(r) -> f`, and the count increases by
exactly 1. In particular, if the state results from deleting the record held in slot `i`
of a full store, the new record occupies slot `i`. -/
theorem C5_add_ok_takes_lowest_free_slot (C : Int) (db db' : RECORD_TYPE_db_t K V)
    (h : Reachable C db) (r : RECORD_TYPE K V)
    (hadd : add_RECORD_TYPE db (some r) = some (ING_STAT_OK, db')) :
    ∃ f : Nat, (f : Int) < C ∧ bitmap_ffs db.map_free = some (f : Int) ∧
      bitmap_get db.map_free (f : Int) = some 1 ∧
      (∀ j : Nat, j < f → bitmap_get db.map_free (j : Int) = some 0) ∧
      slot db' f = some r ∧
      (∀ j : Nat, j ≠ f → slot db' j = slot db j) ∧
      bitmap_get db'.map_free (f : Int) = some 0 ∧
      (∀ j : Nat, j ≠ f → (j : Int) < C →
        bitmap_get db'.map_free (j : Int) = bitmap_get db.map_free (j : Int)) ∧
      db'.head = HASH_ADD db.head r.key f ∧
      size_RECORD_TYPE db' = size_RECORD_TYPE db + 1 ∧
      db'.max_rec_num = db.max_rec_num ∧
      get_RECORD_TYPE db' (some r.key) = (ING_STAT_OK, some f, db') ∧
      (∀ (db0 : RECORD_TYPE_db_t K V) (k : K) (i : Nat), Reachable C db0 →
        size_RECORD_TYPE db0 = db0.max_rec_num →
        get_RECORD_TYPE db0 (some k) = (ING_STAT_OK, some i, db0) →
        del_RECORD_TYPE db0 (some k) = some (ING_STAT_OK, db) → f = i) := by
  obtain ⟨n, rs, ws, rfl, inv⟩ := reachable_inv h
  obtain ⟨hfind, hroom⟩ := add_ok_cases hadd
  obtain ⟨f, ws', hf, hffs, hbit, hlow, hbits', hadd', inv'⟩ := add_ok inv hfind hroom
  rw [hadd'] at hadd
  simp only [Option.some.injEq, Prod.mk.injEq, true_and] at hadd
  subst hadd
  have hfr : f < rs.length := by rw [inv.recs_len]; exact hf
  refine ⟨f, by omega, hffs, (inv.bitmap_get_one hf).2 hbit, ?_, ?_, ?_, ?_, ?_, rfl, rfl, rfl,
    ?_, ?_⟩
  · intro j hj
    exact (inv.bitmap_get_zero (by omega)).2 (hlow j hj)
  · rw [inv'.slot_eq]
    simp [hfr]
  · intro j hj
    rw [inv'.slot_eq, inv.slot_eq, List.getElem?_set_ne (fun e => hj e.symm)]
  · apply (inv'.bitmap_get_zero hf).2
    rw [hbits']
    simp
  · intro j hj hjc
    have hj' : j < n := by omega
    rw [inv'.bitmap_get_eq hj', inv.bitmap_get_eq hj', hbits']
    simp [hj]
  · apply get_found
    apply inv'.find_iff_mem.2
    simp
  · intro db0 k i h0 hfull hget hdel
    obtain ⟨n0, rs0, ws0, hn0, inv0⟩ := reachable_inv h0
    have hn : n0 = n := by omega
    subst hn
    have hfind0 := get_ok_iff.1 hget
    obtain ⟨ws1, hi, _, hbits1, hdel', inv1⟩ := del_ok inv0 hfind0
    rw [hdel'] at hdel
    simp only [Option.some.injEq, Prod.mk.injEq, true_and] at hdel
    rw [hdel] at inv1
    obtain ⟨_, _, hws⟩ := inv.words_unique inv1
    have hlen0 : db0.head.length = n0 := by
      have h1 := inv0.num_eq
      have h2 := inv0.max_eq
      simp only [size_RECORD_TYPE] at hfull
      omega
    have hall := inv0.full_all_slots hlen0
    by_contra hne
    rw [hws, hbits1 f, hall f hf] at hbit
    simp [hne] at hbit

/-- C5 on the scenario of the specification: capacity 3, keys 1, 2, 3 added, `delete(2)`,
then `add` of key 4, which lands in slot 1, the slot vacated by key 2. -/
theorem C5_add_ok_takes_lowest_free_slot_witness :
    get_RECORD_TYPE scenario3 (some 2) = (ING_STAT_OK, some 1, scenario3) ∧
    del_RECORD_TYPE scenario3 (some 2) = some (ING_STAT_OK, scenario3d) ∧
    add_RECORD_TYPE scenario3d (some ⟨4, 40⟩) = some (ING_STAT_OK, scenario4) ∧
    get_RECORD_TYPE scenario4 (some 4) = (ING_STAT_OK, some 1, scenario4) ∧
    ∃ f : Nat, (f : Int) < 3 ∧ bitmap_ffs scenario3d.map_free = some (f : Int) ∧
      bitmap_get scenario3d.map_free (f : Int) = some 1 ∧
      (∀ j : Nat, j < f → bitmap_get scenario3d.map_free (j : Int) = some 0) ∧
      slot scenario4 f = some ⟨4, 40⟩ ∧
      (∀ j : Nat, j ≠ f → slot scenario4 j = slot scenario3d j) ∧
      bitmap_get scenario4.map_free (f : Int) = some 0 ∧
      (∀ j : Nat, j ≠ f → (j : Int) < 3 →
        bitmap_get scenario4.map_free (j : Int) = bitmap_get scenario3d.map_free (j : Int)) ∧
      scenario4.head = HASH_ADD scenario3d.head 4 f ∧
      size_RECORD_TYPE scenario4 = size_RECORD_TYPE scenario3d + 1 ∧
      scenario4.max_rec_num = scenario3d.max_rec_num ∧
      get_RECORD_TYPE scenario4 (some 4) = (ING_STAT_OK, some f, scenario4) ∧
      (∀ (db0 : RECORD_TYPE_db_t Nat Nat) (k : Nat) (i : Nat), Reachable 3 db0 →
        size_RECORD_TYPE db0 = db0.max_rec_num →
        get_RECORD_TYPE db0 (some k) = (ING_STAT_OK, some i, db0) →
        del_RECORD_TYPE db0 (some k) = some (ING_STAT_OK, scenario3d) → f = i) :=
  ⟨by decide, by decide, by decide, by decide,
    C5_add_ok_takes_lowest_free_slot 3 scenario3d scenario4 scenario3d_reachable ⟨4, 40⟩
      (by decide)⟩

/-- C6: round trip: for every reachable store state and record `r`, if `add(r)` returns OK
then `get(r.key)` immediately afterwards returns OK with a reference to a slot whose
contents, key included, equal `r`. -/
theorem C6_add_then_get_round_trip (C : Int) (db db' : RECORD_TYPE_db_t K V)
    (h : Reachable C db) (r : RECORD_TYPE K V)
    (hadd : add_RECORD_TYPE db (some r) = some (ING_STAT_OK, db')) :
    ∃ i : Nat, get_RECORD_TYPE db' (some r.key) = (ING_STAT_OK, some i, db') ∧
      slot db' i = some r := by
  obtain ⟨n, rs, ws, rfl, inv⟩ := reachable_inv h
  obtain ⟨hfind, hroom⟩ := add_ok_cases hadd
  obtain ⟨f, ws', hf, _, _, _, _, hadd', inv'⟩ := add_ok inv hfind hroom
  rw [hadd'] at hadd
  simp only [Option.some.injEq, Prod.mk.injEq, true_and] at hadd
  subst hadd
  have hfr : f < rs.length := by rw [inv.recs_len]; exact hf
  refine ⟨f, ?_, ?_⟩
  · apply get_found
    apply inv'.find_iff_mem.2
    simp
  · rw [inv'.slot_eq]
    simp [hfr]

/-- C6 on the store holding keys 1, 2: `add` of `{3, 30}` and `get(3)`. -/
theorem C6_add_then_get_round_trip_witness :
    add_RECORD_TYPE scenario2 (some ⟨3, 30⟩) = some (ING_STAT_OK, scenario3) ∧
    ∃ i : Nat, get_RECORD_TYPE scenario3 (some 3) = (ING_STAT_OK, some i, scenario3) ∧
      slot scenario3 i = some ⟨3, 30⟩ :=
  ⟨by decide, C6_add_then_get_round_trip 3 scenario2 scenario3 scenario2_reachable ⟨3, 30⟩
    (by decide)⟩

/-- C7: for every reachable store state and key `k`: if no record with key `k` is present,
`delete(k)` returns NotFound and leaves the store unchanged; otherwise it returns OK,
removes exactly the index entry for `k`, sets the free bit of exactly the slot that held
`k`, leaves the slot array alone, decrements the count by exactly 1, and a subsequent
`get(k)` fails with NotFound. -/
theorem C7_delete_by_key (C : Int) (db : RECORD_TYPE_db_t K V) (h : Reachable C db) (k : K) :
    (¬ present db k → del_RECORD_TYPE db (some k) = some (ING_STAT_NOT_FOUND, db)) ∧
    (present db k → ∃ (p : Nat) (db' : RECORD_TYPE_db_t K V),
      get_RECORD_TYPE db (some k) = (ING_STAT_OK, some p, db) ∧
      del_RECORD_TYPE db (some k) = some (ING_STAT_OK, db') ∧
      (k, p) ∈ db.head ∧
      db'.head = db.head.filter (fun e => decide (e ≠ (k, p))) ∧
      db'.head.length + 1 = db.head.length ∧
      bitmap_get db.map_free (p : Int) = some 0 ∧
      bitmap_get db'.map_free (p : Int) = some 1 ∧
      (∀ j : Nat, j ≠ p → (j : Int) < C →
        bitmap_get db'.map_free (j : Int) = bitmap_get db.map_free (j : Int)) ∧
      db'.records = db.records ∧
      db'.max_rec_num = db.max_rec_num ∧
      size_RECORD_TYPE db' = size_RECORD_TYPE db - 1 ∧
      get_RECORD_TYPE db' (some k) = (ING_STAT_NOT_FOUND, none, db')) := by
  obtain ⟨n, rs, ws, rfl, inv⟩ := reachable_inv h
  constructor
  · intro hp
    apply del_notfound
    cases hfind : HASH_FIND db.head k with
    | none => rfl
    | some p => exact absurd ((inv.present_iff k).2 ⟨p, hfind⟩) hp
  · intro hp
    obtain ⟨p, hfind⟩ := (inv.present_iff k).1 hp
    have hmem := HASH_FIND_some hfind
    obtain ⟨ws', hpn, hbit, hbits', hdel, inv'⟩ := del_ok inv hfind
    have hpslot : p ∈ db.head.map Prod.snd := List.mem_map.2 ⟨(k, p), hmem, rfl⟩
    refine ⟨p, _, get_found hfind, hdel, hmem, inv.filter_slot_eq hmem,
      filter_slot_length inv.slots_nodup hpslot, (inv.bitmap_get_zero hpn).2 hbit, ?_, ?_,
      inv.recs_eq.symm, rfl, rfl, ?_⟩
    · apply (inv'.bitmap_get_one hpn).2
      rw [hbits']
      simp
    · intro j hj hjc
      have hj' : j < n := by omega
      rw [inv'.bitmap_get_eq hj', inv.bitmap_get_eq hj', hbits']
      simp [hj]
    · apply get_notfound
      apply HASH_FIND_none.2
      intro hk
      obtain ⟨⟨k1, q⟩, he, hk1⟩ := List.mem_map.1 hk
      simp only at hk1
      subst hk1
      have he' : (k1, q) ∈ db.head.filter (fun e => decide (e.2 ≠ p)) := he
      rw [List.mem_filter] at he'
      have hq : q ≠ p := by simpa using he'.2
      have e1 := inv.find_iff_mem.2 he'.1
      rw [hfind] at e1
      simp only [Option.some.injEq] at e1
      exact hq e1.symm

/-- C7 on the full store holding keys 1, 2, 3, for the present key 2. -/
theorem C7_delete_by_key_witness :
    Reachable 3 scenario3 ∧
    ((¬ present scenario3 2 →
      del_RECORD_TYPE scenario3 (some 2) = some (ING_STAT_NOT_FOUND, scenario3)) ∧
    (present scenario3 2 → ∃ (p : Nat) (db' : RECORD_TYPE_db_t Nat Nat),
      get_RECORD_TYPE scenario3 (some 2) = (ING_STAT_OK, some p, scenario3) ∧
      del_RECORD_TYPE scenario3 (some 2) = some (ING_STAT_OK, db') ∧
      (2, p) ∈ scenario3.head ∧
      db'.head = scenario3.head.filter (fun e => decide (e ≠ (2, p))) ∧
      db'.head.length + 1 = scenario3.head.length ∧
      bitmap_get scenario3.map_free (p : Int) = some 0 ∧
      bitmap_get db'.map_free (p : Int) = some 1 ∧
      (∀ j : Nat, j ≠ p → (j : Int) < 3 →
        bitmap_get db'.map_free (j : Int) = bitmap_get scenario3.map_free (j : Int)) ∧
      db'.records = scenario3.records ∧
      db'.max_rec_num = scenario3.max_rec_num ∧
      size_RECORD_TYPE db' = size_RECORD_TYPE scenario3 - 1 ∧
      get_RECORD_TYPE db' (some 2) = (ING_STAT_NOT_FOUND, none, db'))) :=
  ⟨scenario3_reachable, C7_delete_by_key 3 scenario3 scenario3_reachable 2⟩

/-- C8: capacity law: for every capacity `C` for which `init` succeeds and every list of
`C` records with pairwise distinct keys, adding them one after another to the fresh store
succeeds `C` times, after which `size() == C`, and a further `add` of a record with a new
key fails with Full. -/
theorem C8_capacity_law (C : Int) (malloc_ok calloc_ok : Bool) (db0 : RECORD_TYPE_db_t K V)
    (recs : List (RECORD_TYPE K V)) (hC : INT_MIN ≤ C ∧ C ≤ INT_MAX)
    (hinit : init_RECORD_TYPE C malloc_ok calloc_ok = (ING_STAT_OK, db0))
    (hlen : (recs.length : Int) = C) (hnd : (recs.map (fun r => r.key)).Nodup) :
    ∃ db1, add_list db0 recs = some (List.replicate recs.length ING_STAT_OK, db1) ∧
      size_RECORD_TYPE db1 = C ∧
      ∀ r : RECORD_TYPE K V, r.key ∉ recs.map (fun r => r.key) →
        add_RECORD_TYPE db1 (some r) = some (ING_STAT_FULL, db1) := by
  obtain ⟨n, hn, hhead, inv⟩ := init_inv hC.2 hinit
  subst hn
  have hlen' : recs.length = n := by omega
  obtain ⟨db1, rs1, ws1, hlist, inv1, hlen1, hkeys1⟩ :=
    add_list_ok recs inv (by intro r _; simp [hhead]) hnd (by simp [hhead, hlen'])
  have hnum := inv1.num_eq
  have hmax := inv1.max_eq
  rw [hhead] at hlen1 hkeys1
  simp only [List.length_nil, Nat.zero_add, List.map_nil, List.nil_append] at hlen1 hkeys1
  refine ⟨db1, hlist, ?_, ?_⟩
  · simp only [size_RECORD_TYPE]
    omega
  · intro r hr
    apply add_full
    · apply HASH_FIND_none.2
      rw [hkeys1]
      exact hr
    · omega

/-- C8 on capacity 3 with the records of keys 1, 2, 3. -/
theorem C8_capacity_law_witness :
    init_RECORD_TYPE 3 true true = (ING_STAT_OK, scenario0) ∧
    ∃ db1, add_list scenario0 [⟨1, 10⟩, ⟨2, 20⟩, ⟨3, 30⟩]
        = some (List.replicate 3 ING_STAT_OK, db1) ∧
      size_RECORD_TYPE db1 = 3 ∧
      ∀ r : RECORD_TYPE Nat Nat,
        r.key ∉ ([⟨1, 10⟩, ⟨2, 20⟩, ⟨3, 30⟩] : List (RECORD_TYPE Nat Nat)).map (fun r => r.key) →
        add_RECORD_TYPE db1 (some r) = some (ING_STAT_FULL, db1) :=
  ⟨rfl, C8_capacity_law 3 true true scenario0 [⟨1, 10⟩, ⟨2, 20⟩, ⟨3, 30⟩] int_range_three rfl
    (by decide) (by decide)⟩

/-- C9: for every reachable store state and key `k`: `get(k)` returns OK with a reference
to the unique occupied slot whose key equals `k` if such a slot exists, and otherwise
returns NotFound with the output reference set to NULL; in both cases the store state is
unchanged. -/
theorem C9_get_by_key (C : Int) (db : RECORD_TYPE_db_t K V) (h : Reachable C db) (k : K) :
    (get_RECORD_TYPE db (some k)).2.2 = db ∧
    (present db k → ∃ (i : Nat) (r : RECORD_TYPE K V),
      get_RECORD_TYPE db (some k) = (ING_STAT_OK, some i, db) ∧
      (i : Int) < C ∧ bitmap_get db.map_free (i : Int) = some 0 ∧
      slot db i = some r ∧ r.key = k ∧
      ∀ (j : Nat) (r' : RECORD_TYPE K V), (j : Int) < C →
        bitmap_get db.map_free (j : Int) = some 0 → slot db j = some r' → r'.key = k → j = i) ∧
    (¬ present db k → get_RECORD_TYPE db (some k) = (ING_STAT_NOT_FOUND, none, db)) := by
  obtain ⟨n, rs, ws, rfl, inv⟩ := reachable_inv h
  refine ⟨get_state db (some k), ?_, ?_⟩
  · intro hp
    obtain ⟨p, hfind⟩ := (inv.present_iff k).1 hp
    have hmem := HASH_FIND_some hfind
    obtain ⟨hpn, r, hr, hk⟩ := inv.entry _ hmem
    simp only at hpn hr hk
    have hpslot : p ∈ db.head.map Prod.snd := List.mem_map.2 ⟨(k, p), hmem, rfl⟩
    refine ⟨p, r, get_found hfind, by omega,
      (inv.bitmap_get_zero hpn).2 ((inv.free_iff p hpn).2 hpslot),
      by rw [inv.slot_eq]; exact hr, hk, ?_⟩
    intro j r' hj hbit hslot hkey
    have hj' : j < n := by omega
    rw [inv.slot_eq] at hslot
    have := inv.find_of_slot hj' ((inv.bitmap_get_zero hj').1 hbit) hslot
    rw [hkey, hfind] at this
    simp only [Option.some.injEq] at this
    exact this.symm
  · intro hp
    apply get_notfound
    cases hfind : HASH_FIND db.head k with
    | none => rfl
    | some p => exact absurd ((inv.present_iff k).2 ⟨p, hfind⟩) hp

/-- C9 on the store holding keys 1, 3, 4, for the key 4. -/
theorem C9_get_by_key_witness :
    Reachable 3 scenario4 ∧
    ((get_RECORD_TYPE scenario4 (some 4)).2.2 = scenario4 ∧
    (present scenario4 4 → ∃ (i : Nat) (r : RECORD_TYPE Nat Nat),
      get_RECORD_TYPE scenario4 (some 4) = (ING_STAT_OK, some i, scenario4) ∧
      (i : Int) < 3 ∧ bitmap_get scenario4.map_free (i : Int) = some 0 ∧
      slot scenario4 i = some r ∧ r.key = 4 ∧
      ∀ (j : Nat) (r' : RECORD_TYPE Nat Nat), (j : Int) < 3 →
        bitmap_get scenario4.map_free (j : Int) = some 0 → slot scenario4 j = some r' →
        r'.key = 4 → j = i) ∧
    (¬ present scenario4 4 →
      get_RECORD_TYPE scenario4 (some 4) = (ING_STAT_NOT_FOUND, none, scenario4))) :=
  ⟨scenario4_reachable, C9_get_by_key 3 scenario4 scenario4_reachable 4⟩

/-- C10: pointer stability: for every reachable store state, every present key `k'` and
every `add(r)` or `delete(k)` with a key different from `k'`, the slot that `get(k')`
returns and the record stored in that slot are the same after the call as before it. -/
theorem C10_pointer_stability (C : Int) (db : RECORD_TYPE_db_t K V) (h : Reachable C db)
    (k' : K) (i : Nat) (hget : get_RECORD_TYPE db (some k') = (ING_STAT_OK, some i, db)) :
    (∀ (r : RECORD_TYPE K V) (st : ing_stat_t) (db' : RECORD_TYPE_db_t K V), r.key ≠ k' →
      add_RECORD_TYPE db (some r) = some (st, db') →
      get_RECORD_TYPE db' (some k') = (ING_STAT_OK, some i, db') ∧ slot db' i = slot db i) ∧
    (∀ (k : K) (st : ing_stat_t) (db' : RECORD_TYPE_db_t K V), k ≠ k' →
      del_RECORD_TYPE db (some k) = some (st, db') →
      get_RECORD_TYPE db' (some k') = (ING_STAT_OK, some i, db') ∧ slot db' i = slot db i) := by
  obtain ⟨n, rs, ws, rfl, inv⟩ := reachable_inv h
  have hfind' := get_ok_iff.1 hget
  have hmem' := HASH_FIND_some hfind'
  have hislot : i ∈ db.head.map Prod.snd := List.mem_map.2 ⟨(k', i), hmem', rfl⟩
  constructor
  · intro r st db' hne hadd
    by_cases hst : st = ING_STAT_OK
    · subst hst
      obtain ⟨hfind, hroom⟩ := add_ok_cases hadd
      obtain ⟨f, ws', hf, _, hbit, _, _, hadd', inv'⟩ := add_ok inv hfind hroom
      rw [hadd'] at hadd
      simp only [Option.some.injEq, Prod.mk.injEq, true_and] at hadd
      subst hadd
      have hif : f ≠ i := by
        intro e
        subst e
        have := (inv.free_iff f hf).2 hislot
        rw [this] at hbit
        exact Bool.noConfusion hbit
      constructor
      · apply get_found
        apply inv'.find_iff_mem.2
        exact List.mem_append_left _ hmem'
      · rw [inv'.slot_eq, inv.slot_eq, List.getElem?_set_ne hif]
    · obtain ⟨e, _⟩ := add_not_ok_unchanged hadd hst
      subst e
      exact ⟨hget, rfl⟩
  · intro k st db' hne hdel
    by_cases hst : st = ING_STAT_OK
    · subst hst
      obtain ⟨p, hfind⟩ := del_ok_cases hdel
      have hmem := HASH_FIND_some hfind
      obtain ⟨ws', _, _, _, hdel', inv'⟩ := del_ok inv hfind
      rw [hdel'] at hdel
      simp only [Option.some.injEq, Prod.mk.injEq, true_and] at hdel
      subst hdel
      have hip : i ≠ p := by
        intro e
        subst e
        exact hne (inv.same_slot hmem hmem')
      constructor
      · apply get_found
        apply inv'.find_iff_mem.2
        show (k', i) ∈ db.head.filter (fun e => decide (e.2 ≠ p))
        rw [List.mem_filter]
        exact ⟨hmem', by simpa using hip⟩
      · rw [inv'.slot_eq, inv.slot_eq]
    · obtain ⟨e, _⟩ := del_not_ok_unchanged hdel hst
      subst e
      exact ⟨hget, rfl⟩

/-- C10 on the full store holding keys 1, 2, 3, for the key 3 held in slot 2. -/
theorem C10_pointer_stability_witness :
    Reachable 3 scenario3 ∧
    get_RECORD_TYPE scenario3 (some 3) = (ING_STAT_OK, some 2, scenario3) ∧
    ((∀ (r : RECORD_TYPE Nat Nat) (st : ing_stat_t) (db' : RECORD_TYPE_db_t Nat Nat),
      r.key ≠ 3 → add_RECORD_TYPE scenario3 (some r) = some (st, db') →
      get_RECORD_TYPE db' (some 3) = (ING_STAT_OK, some 2, db') ∧
        slot db' 2 = slot scenario3 2) ∧
    (∀ (k : Nat) (st : ing_stat_t) (db' : RECORD_TYPE_db_t Nat Nat), k ≠ 3 →
      del_RECORD_TYPE scenario3 (some k) = some (st, db') →
      get_RECORD_TYPE db' (some 3) = (ING_STAT_OK, some 2, db') ∧
        slot db' 2 = slot scenario3 2)) :=
  ⟨scenario3_reachable, by decide,
    C10_pointer_stability 3 scenario3 scenario3_reachable 3 2 (by decide)⟩

end claims

/-! ## Deletion by reference -/

theorem del_val_eq_del {K V : Type} [DecidableEq K] {db : RECORD_TYPE_db_t K V} {k : K}
    {p : Nat} (h : HASH_FIND db.head k = some p) :
    del_val_RECORD_TYPE db (some p) = del_RECORD_TYPE db (some k) := by
  simp only [del_val_RECORD_TYPE, del_RECORD_TYPE, h]

/-- On a store with an empty index `del_val` with a non-`NULL` reference has no result. -/
theorem del_val_empty_index {K V : Type} [DecidableEq K] (db : RECORD_TYPE_db_t K V)
    (p : Nat) (h : db.head = []) : del_val_RECORD_TYPE db (some p) = none := by
  simp [del_val_RECORD_TYPE, h, HASH_DELETE]

section claims_del_val
variable {K V : Type} [DecidableEq K] [Inhabited K] [Inhabited V]

/-- C11: for every reachable store state and every reference that denotes an occupied slot
holding key `k` (a slot below the capacity with free bit 0 whose record has key `k`),
`del_val` returns OK and produces exactly the same resulting store state as `delete(k)`. -/
theorem C11_del_val_same_as_delete_by_key (C : Int) (db : RECORD_TYPE_db_t K V)
    (h : Reachable C db) (k : K) (p : Nat) (r : RECORD_TYPE K V) (hp : (p : Int) < C)
    (hbit : bitmap_get db.map_free (p : Int) = some 0) (hslot : slot db p = some r)
    (hkey : r.key = k) :
    del_val_RECORD_TYPE db (some p) = del_RECORD_TYPE db (some k) ∧
    ∃ db', del_val_RECORD_TYPE db (some p) = some (ING_STAT_OK, db') := by
  obtain ⟨n, rs, ws, rfl, inv⟩ := reachable_inv h
  have hp' : p < n := by omega
  rw [inv.slot_eq] at hslot
  have hfind := inv.find_of_slot hp' ((inv.bitmap_get_zero hp').1 hbit) hslot
  rw [hkey] at hfind
  obtain ⟨ws', _, _, _, hdel, _⟩ := del_ok inv hfind
  refine ⟨del_val_eq_del hfind, ?_⟩
  rw [del_val_eq_del hfind]
  exact ⟨_, hdel⟩

/-- C11 on the full store holding keys 1, 2, 3: the reference to slot 1, which holds key 2. -/
theorem C11_del_val_same_as_delete_by_key_witness :
    Reachable 3 scenario3 ∧ bitmap_get scenario3.map_free 1 = some 0 ∧
    slot scenario3 1 = some ⟨2, 20⟩ ∧
    (del_val_RECORD_TYPE scenario3 (some 1) = del_RECORD_TYPE scenario3 (some 2) ∧
      ∃ db', del_val_RECORD_TYPE scenario3 (some 1) = some (ING_STAT_OK, db')) :=
  ⟨scenario3_reachable, by decide, by decide,
    C11_del_val_same_as_delete_by_key 3 scenario3 scenario3_reachable 2 1 ⟨2, 20⟩ (by decide)
      (by decide) (by decide) rfl⟩

end claims_del_val

section traversal
variable {K : Type}

theorem hh_next_spec (e : K × Nat) (rest : hash_index K) :
    ∀ pre : hash_index K, ((pre ++ e :: rest).map Prod.snd).Nodup →
      hh_next (pre ++ e :: rest) e.2 = HASH_head rest := by
  intro pre
  induction pre with
  | nil =>
    intro _
    simp only [List.nil_append, hh_next, if_true]
  | cons a pre ih =>
    intro hnd
    rw [List.cons_append, List.map_cons, List.nodup_cons] at hnd
    have hne : ¬ a.2 = e.2 := by
      intro heq
      apply hnd.1
      rw [heq]
      exact List.mem_map.2 ⟨e, by simp, rfl⟩
    rw [List.cons_append, hh_next, if_neg hne]
    exact ih hnd.2

theorem HASH_head_cons (e : K × Nat) (rest : hash_index K) :
    HASH_head (e :: rest) = some e.2 := rfl

theorem next_or_null_tail (pre l : hash_index K) (hnd : ((pre ++ l).map Prod.snd).Nodup) :
    next_or_null (pre ++ l) (HASH_head l) = HASH_head l.tail := by
  cases l with
  | nil => rfl
  | cons e rest =>
    simp only [HASH_head, next_or_null, List.tail_cons]
    exact hh_next_spec e rest pre hnd

theorem IC_FOREACH_loop_none (head : hash_index K) (fuel : Nat) (tmp : Option Nat) :
    IC_FOREACH_loop head fuel none tmp = some [] := by
  cases fuel <;> rfl

theorem IC_FOREACH_loop_spec :
    ∀ (l pre : hash_index K) (fuel : Nat), ((pre ++ l).map Prod.snd).Nodup → l.length ≤ fuel →
      IC_FOREACH_loop (pre ++ l) fuel (HASH_head l) (HASH_head l.tail)
        = some (l.map Prod.snd) := by
  intro l
  induction l with
  | nil =>
    intro pre fuel _ _
    exact IC_FOREACH_loop_none _ _ _
  | cons e rest ih =>
    intro pre fuel hnd hlen
    cases fuel with
    | zero => simp at hlen
    | succ fuel =>
      have hsplit : pre ++ e :: rest = (pre ++ [e]) ++ rest := by simp
      have hnext := next_or_null_tail (pre ++ [e]) rest (hsplit ▸ hnd)
      have hrec := ih (pre ++ [e]) fuel (hsplit ▸ hnd) (by simpa using hlen)
      rw [← hsplit] at hnext hrec
      rw [HASH_head_cons, List.tail_cons]
      simp only [IC_FOREACH_loop, hnext, hrec, List.map_cons]

theorem IC_FOREACH_LIMIT_loop_none (head : hash_index K) (LIMIT : Int) (fuel : Nat)
    (tmp : Option Nat) (ic_cnt : Int) :
    IC_FOREACH_LIMIT_loop head LIMIT fuel none tmp ic_cnt = some ([], none) := by
  cases fuel <;> rfl

theorem IC_FOREACH_LIMIT_loop_spec (LIMIT : Int) (hL : LIMIT ≤ INT_MAX) :
    ∀ (l pre : hash_index K) (fuel : Nat) (ic_cnt : Int),
      ((pre ++ l).map Prod.snd).Nodup → l.length ≤ fuel → INT_MIN ≤ ic_cnt →
      IC_FOREACH_LIMIT_loop (pre ++ l) LIMIT fuel (HASH_head l) (HASH_head l.tail) ic_cnt
        = some ((l.map Prod.snd).take (LIMIT - ic_cnt).toNat,
            HASH_head (l.drop (LIMIT - ic_cnt).toNat)) := by
  unfold INT_MAX at hL
  intro l
  induction l with
  | nil =>
    intro pre fuel ic_cnt _ _ _
    rw [HASH_head, IC_FOREACH_LIMIT_loop_none]
    simp [HASH_head]
  | cons e rest ih =>
    intro pre fuel ic_cnt hnd hlen hic
    unfold INT_MIN at hic
    cases fuel with
    | zero => simp at hlen
    | succ fuel =>
      by_cases hlt : ic_cnt < LIMIT
      · have hsplit : pre ++ e :: rest = (pre ++ [e]) ++ rest := by simp
        have hwrap : wrap_int (ic_cnt + 1) = ic_cnt + 1 :=
          wrap_int_of_range (by omega) (by omega)
        have hnext := next_or_null_tail (pre ++ [e]) rest (hsplit ▸ hnd)
        have hrec := ih (pre ++ [e]) fuel (ic_cnt + 1) (hsplit ▸ hnd) (by simpa using hlen)
          (by unfold INT_MIN; omega)
        rw [← hsplit] at hnext hrec
        have hk : (LIMIT - ic_cnt).toNat = (LIMIT - (ic_cnt + 1)).toNat + 1 := by omega
        rw [HASH_head_cons, List.tail_cons]
        simp only [IC_FOREACH_LIMIT_loop, if_pos hlt, hwrap, hnext,
          hrec, hk, List.map_cons, List.take_succ_cons, List.drop_succ_cons]
      · have hk : (LIMIT - ic_cnt).toNat = 0 := by omega
        rw [HASH_head_cons, List.tail_cons]
        simp only [IC_FOREACH_LIMIT_loop, if_neg hlt, hk, List.take_zero, List.drop_zero,
          HASH_head_cons]

theorem IC_FOREACH_FROM_WITH_LIMIT_loop_none (head : hash_index K) (LIMIT : Int) (fuel : Nat)
    (tmp FROM : Option Nat) (ic_cnt : Int) :
    IC_FOREACH_FROM_WITH_LIMIT_loop head LIMIT fuel none tmp FROM ic_cnt = some ([], FROM) := by
  cases fuel <;> rfl

theorem IC_FOREACH_FROM_WITH_LIMIT_loop_spec (LIMIT ic_cnt : Int) (hlt : ic_cnt < LIMIT) :
    ∀ (l pre : hash_index K) (fuel : Nat) (FROM : Option Nat),
      ((pre ++ l).map Prod.snd).Nodup → l.length ≤ fuel →
      IC_FOREACH_FROM_WITH_LIMIT_loop (pre ++ l) LIMIT fuel (HASH_head l) (HASH_head l.tail)
          FROM ic_cnt
        = some (l.map Prod.snd, if l.isEmpty then FROM else none) := by
  intro l
  induction l with
  | nil =>
    intro pre fuel FROM _ _
    rw [HASH_head, IC_FOREACH_FROM_WITH_LIMIT_loop_none]
    simp
  | cons e rest ih =>
    intro pre fuel FROM hnd hlen
    cases fuel with
    | zero => simp at hlen
    | succ fuel =>
      have hsplit : pre ++ e :: rest = (pre ++ [e]) ++ rest := by simp
      have hnext := next_or_null_tail (pre ++ [e]) rest (hsplit ▸ hnd)
      have hrec := ih (pre ++ [e]) fuel (HASH_head rest) (hsplit ▸ hnd) (by simpa using hlen)
      rw [← hsplit] at hnext hrec
      have hlast : (if rest.isEmpty then HASH_head rest else none) = (none : Option Nat) := by
        cases rest <;> simp [HASH_head]
      rw [HASH_head_cons, List.tail_cons]
      simp only [IC_FOREACH_FROM_WITH_LIMIT_loop, if_pos hlt, hnext,
        hrec, hlast, List.map_cons, List.isEmpty_cons, Bool.false_eq_true, if_false]

end traversal

section traversal_store
variable {K V : Type}

theorem IC_FOREACH_eq {db : RECORD_TYPE_db_t K V} {fuel : Nat}
    (hnd : (db.head.map Prod.snd).Nodup) (hfuel : db.head.length ≤ fuel) :
    IC_FOREACH db fuel = some (db.head.map Prod.snd) := by
  unfold IC_FOREACH
  have hnext := next_or_null_tail [] db.head hnd
  have hloop := IC_FOREACH_loop_spec db.head [] fuel hnd hfuel
  rw [List.nil_append] at hnext hloop
  rw [hnext]
  exact hloop

theorem IC_FOREACH_LIMIT_eq {db : RECORD_TYPE_db_t K V} {fuel : Nat} {LIMIT : Int}
    (hL : LIMIT ≤ INT_MAX) (hnd : (db.head.map Prod.snd).Nodup)
    (hfuel : db.head.length ≤ fuel) :
    IC_FOREACH_LIMIT db LIMIT fuel
      = some ((db.head.map Prod.snd).take LIMIT.toNat, HASH_head (db.head.drop LIMIT.toNat)) := by
  unfold IC_FOREACH_LIMIT
  have hnext := next_or_null_tail [] db.head hnd
  have hloop := IC_FOREACH_LIMIT_loop_spec LIMIT hL db.head [] fuel 0 hnd hfuel
    (by unfold INT_MIN; omega)
  rw [List.nil_append] at hnext hloop
  rw [hnext, hloop, Int.sub_zero]

theorem IC_FOREACH_FROM_WITH_LIMIT_eq {db : RECORD_TYPE_db_t K V} {fuel : Nat} {LIMIT : Int}
    {pre rest : hash_index K} {e : K × Nat} (hL : 0 < LIMIT)
    (hhead : db.head = pre ++ e :: rest) (hnd : (db.head.map Prod.snd).Nodup)
    (hfuel : rest.length < fuel) :
    IC_FOREACH_FROM_WITH_LIMIT db (some e.2) LIMIT fuel
      = some ((e :: rest).map Prod.snd, none) := by
  unfold IC_FOREACH_FROM_WITH_LIMIT
  rw [hhead] at hnd ⊢
  have hnext : next_or_null (pre ++ e :: rest) (some e.2) = HASH_head rest :=
    hh_next_spec e rest pre hnd
  rw [hnext]
  have := IC_FOREACH_FROM_WITH_LIMIT_loop_spec LIMIT 0 hL (e :: rest) pre fuel (some e.2) hnd
    (by simpa using hfuel)
  simpa [HASH_head_cons] using this

end traversal_store

theorem int_range_four : INT_MIN ≤ (4 : Int) ∧ (4 : Int) ≤ INT_MAX := by
  unfold INT_MIN INT_MAX
  constructor <;> norm_num

theorem pagination_store_reachable : Reachable 4 pagination_store :=
  Reachable.add pagination3 pagination_store (some ⟨4, 40⟩) ING_STAT_OK
    (Reachable.add pagination2 pagination3 (some ⟨3, 30⟩) ING_STAT_OK
      (Reachable.add pagination1 pagination2 (some ⟨2, 20⟩) ING_STAT_OK
        (Reachable.add pagination0 pagination1 (some ⟨1, 10⟩) ING_STAT_OK
          (Reachable.init true true pagination0 int_range_four rfl) (by decide))
        (by decide))
      (by decide))
    (by decide)

section claims_traversal
variable {K V : Type} [DecidableEq K] [Inhabited K] [Inhabited V]

/-- C13: for every reachable store state, the full traversal `IC_FOREACH` ends (within
`size()` iterations) and visits every occupied slot exactly once and no free slot: the
visited references are pairwise distinct, a slot is visited if and only if it is
occupied, every visited slot has free bit 0, and the number of visits equals `size()`. -/
theorem C13_full_traversal_visits_occupied_slots_once (C : Int) (db : RECORD_TYPE_db_t K V)
    (h : Reachable C db) (fuel : Nat) (hfuel : size_RECORD_TYPE db ≤ (fuel : Int)) :
    ∃ visited : List Nat, IC_FOREACH db fuel = some visited ∧ visited.Nodup ∧
      (∀ i : Nat, i ∈ visited ↔ occupied db i) ∧
      (∀ i : Nat, i ∈ visited → (i : Int) < C ∧ bitmap_get db.map_free (i : Int) = some 0) ∧
      (visited.length : Int) = size_RECORD_TYPE db := by
  obtain ⟨n, rs, ws, rfl, inv⟩ := reachable_inv h
  have hnum := inv.num_eq
  simp only [size_RECORD_TYPE] at hfuel ⊢
  refine ⟨db.head.map Prod.snd, IC_FOREACH_eq inv.slots_nodup (by omega), inv.slots_nodup,
    fun i => (inv.occupied_iff i).symm, ?_, by simp [hnum]⟩
  intro i hi
  obtain ⟨e, he, rfl⟩ := List.mem_map.1 hi
  have hlt := (inv.entry e he).1
  exact ⟨by omega, (inv.bitmap_get_zero hlt).2 ((inv.free_iff _ hlt).2 hi)⟩

/-- C13 on the store of capacity 3 holding keys 1, 3, 4. -/
theorem C13_full_traversal_visits_occupied_slots_once_witness :
    Reachable 3 scenario4 ∧ size_RECORD_TYPE scenario4 ≤ ((3 : Nat) : Int) ∧
    ∃ visited : List Nat, IC_FOREACH scenario4 3 = some visited ∧ visited.Nodup ∧
      (∀ i : Nat, i ∈ visited ↔ occupied scenario4 i) ∧
      (∀ i : Nat, i ∈ visited →
        (i : Int) < 3 ∧ bitmap_get scenario4.map_free (i : Int) = some 0) ∧
      (visited.length : Int) = size_RECORD_TYPE scenario4 :=
  ⟨scenario4_reachable, by decide,
    C13_full_traversal_visits_occupied_slots_once 3 scenario4 scenario4_reachable 3
      (by decide)⟩

/-- C14: for every reachable store state and every limit `N >= 0`, the bounded traversal
from the beginning `IC_FOREACH_LIMIT` visits exactly `min(N, size())` elements, which are
the first `min(N, size())` elements of the full traversal in the same order. -/
theorem C14_limited_traversal_is_initial_segment (C : Int) (db : RECORD_TYPE_db_t K V)
    (h : Reachable C db) (N : Int) (fuel : Nat) (hN : 0 ≤ N ∧ N ≤ INT_MAX)
    (hfuel : size_RECORD_TYPE db ≤ (fuel : Int)) :
    ∃ (full visited : List Nat) (last : Option Nat), IC_FOREACH db fuel = some full ∧
      IC_FOREACH_LIMIT db N fuel = some (visited, last) ∧
      visited = full.take N.toNat ∧
      (visited.length : Int) = min N (size_RECORD_TYPE db) ∧
      (visited.length : Int) ≤ N := by
  obtain ⟨n, rs, ws, rfl, inv⟩ := reachable_inv h
  have hnum := inv.num_eq
  simp only [size_RECORD_TYPE] at hfuel ⊢
  refine ⟨db.head.map Prod.snd, _, _, IC_FOREACH_eq inv.slots_nodup (by omega),
    IC_FOREACH_LIMIT_eq hN.2 inv.slots_nodup (by omega), rfl, ?_, ?_⟩
  · rw [List.length_take, List.length_map, hnum]
    omega
  · rw [List.length_take, List.length_map]
    omega

/-- C14 on the store of capacity 4 holding keys 1, 2, 3, 4, with the limit 2. -/
theorem C14_limited_traversal_is_initial_segment_witness :
    Reachable 4 pagination_store ∧
    ∃ (full visited : List Nat) (last : Option Nat), IC_FOREACH pagination_store 4 = some full ∧
      IC_FOREACH_LIMIT pagination_store 2 4 = some (visited, last) ∧
      visited = full.take (2 : Int).toNat ∧
      (visited.length : Int) = min 2 (size_RECORD_TYPE pagination_store) ∧
      (visited.length : Int) ≤ 2 :=
  ⟨pagination_store_reachable,
    C14_limited_traversal_is_initial_segment 4 pagination_store pagination_store_reachable 2 4
      ⟨by decide, by unfold INT_MAX; norm_num⟩ (by decide)⟩

/-- C15 at the failing input: on the store holding keys 1, 2, 3 in the slots 0, 1, 2,
`IC_FOREACH_FROM_WITH_LIMIT` from the reference to slot 0 with the limit 1 visits three
elements. -/
theorem C15_from_with_limit_visits_more_than_limit :
    IC_FOREACH_FROM_WITH_LIMIT scenario3 (some 0) 1 3 = some ([0, 1, 2], none) := by
  decide

/-- C16 fails on the store holding keys 1, 2, 3, 4 in the slots 0, 1, 2, 3: the first page
is the slots 0, 1; resuming from the last yielded reference, slot 1, visits slot 1 again. -/
theorem C16_pagination_counterexample :
    IC_FOREACH_LIMIT pagination_store 2 4 = some ([0, 1], some 2) ∧
    IC_FOREACH_FROM_WITH_LIMIT pagination_store (some 1) 2 4 = some ([1, 2, 3], none) ∧
    ¬ ([0, 1] ++ [1, 2, 3] : List Nat).Nodup := by
  decide

/-- C16 as amended: for a store holding exactly four records, `IC_FOREACH_LIMIT` with a
limit of 2 visits the first two records of the traversal and leaves `ELEM` at the third;
`IC_FOREACH_FROM_WITH_LIMIT` with a limit of 2 started from that value of `ELEM` visits the
other two; across the two calls every occupied slot is visited exactly once. -/
theorem C16_pagination_resumed_from_ELEM (C : Int) (db : RECORD_TYPE_db_t K V)
    (h : Reachable C db) (fuel : Nat) (hsize : size_RECORD_TYPE db = 4) (hfuel : 4 ≤ fuel) :
    ∃ a b c d : Nat, IC_FOREACH db fuel = some [a, b, c, d] ∧
      IC_FOREACH_LIMIT db 2 fuel = some ([a, b], some c) ∧
      IC_FOREACH_FROM_WITH_LIMIT db (some c) 2 fuel = some ([c, d], none) ∧
      ([a, b] ++ [c, d]).Nodup ∧ ∀ i : Nat, occupied db i ↔ i ∈ [a, b] ++ [c, d] := by
  obtain ⟨n, rs, ws, rfl, inv⟩ := reachable_inv h
  have hnum := inv.num_eq
  simp only [size_RECORD_TYPE] at hsize
  have hlen : db.head.length = 4 := by omega
  have hnd := inv.slots_nodup
  have hocc := inv.occupied_iff
  obtain ⟨e1, e2, e3, e4, hhead⟩ : ∃ e1 e2 e3 e4, db.head = [e1, e2, e3, e4] := by
    match hm : db.head, hlen with
    | [e1, e2, e3, e4], _ => exact ⟨e1, e2, e3, e4, rfl⟩
  have hfull := IC_FOREACH_eq hnd (by omega : db.head.length ≤ fuel)
  have h2 : (2 : Int) ≤ INT_MAX := by unfold INT_MAX; norm_num
  have hlim := @IC_FOREACH_LIMIT_eq K V db fuel 2 h2 hnd (by omega : db.head.length ≤ fuel)
  have hfrom := @IC_FOREACH_FROM_WITH_LIMIT_eq K V db fuel 2 [e1, e2] [e4] e3 (by norm_num)
    (by rw [hhead]; rfl) hnd (by simp only [List.length_singleton]; omega)
  rw [hhead] at hfull hlim hnd hocc
  refine ⟨e1.2, e2.2, e3.2, e4.2, hfull, ?_, hfrom, hnd, ?_⟩
  · rw [hlim]
    rfl
  · intro i
    rw [hocc i]
    rfl

/-- C16 as amended on the store holding keys 1, 2, 3, 4. -/
theorem C16_pagination_resumed_from_ELEM_witness :
    Reachable 4 pagination_store ∧ size_RECORD_TYPE pagination_store = 4 ∧
    ∃ a b c d : Nat, IC_FOREACH pagination_store 4 = some [a, b, c, d] ∧
      IC_FOREACH_LIMIT pagination_store 2 4 = some ([a, b], some c) ∧
      IC_FOREACH_FROM_WITH_LIMIT pagination_store (some c) 2 4 = some ([c, d], none) ∧
      ([a, b] ++ [c, d]).Nodup ∧
      ∀ i : Nat, occupied pagination_store i ↔ i ∈ [a, b] ++ [c, d] :=
  ⟨pagination_store_reachable, by decide,
    C16_pagination_resumed_from_ELEM 4 pagination_store pagination_store_reachable 4
      (by decide) (by decide)⟩

end claims_traversal

/-! ## Bitmap: find first set on every content -/

theorem wrap_int_add_wrap (a c : Int) : wrap_int (wrap_int a + c) = wrap_int (a + c) := by
  unfold wrap_int
  omega

theorem bit_at_out_of_words {ws : List Nat} {j : Nat} (h : ws.length ≤ j / 64) :
    bit_at ws j = false := by
  rw [bit_at_eq, List.getElem?_eq_none h]
  simp

/-- The value of `bitmap_ffs` on a bitmap whose word array has `NUM_ULONGS(elements)` words:
with `f` the lowest set bit of the word array, `f` if `f < elements` and -1 otherwise; with
no bit set in the word array, the outcome of the comparison of `elements + 1`, computed in
`int`, with `elements`. -/
theorem bitmap_ffs_eval {ws : List Nat} {n : Nat} (hn : (n : Int) ≤ INT_MAX)
    (hlen : ws.length = NUM_ULONGS n) :
    (∃ f : Nat, f < 64 * ws.length ∧ bit_at ws f = true ∧ (∀ j < f, bit_at ws j = false) ∧
      bitmap_ffs { map := some ws, elements := n }
        = some (if (f : Int) < (n : Int) then (f : Int) else -1)) ∨
    ((∀ j, bit_at ws j = false) ∧
      bitmap_ffs { map := some ws, elements := n }
        = some (if wrap_int ((n : Int) + 1) < (n : Int) then wrap_int ((n : Int) + 1) else -1)) := by
  have hn' : n < 2 ^ 31 := by unfold INT_MAX at hn; omega
  have hnum : NUM_ULONGS n = (n + 63) / 64 := NUM_ULONGS_eq (by omega)
  have hul : wrap_int ((NUM_ULONGS (to_size_t (n : Int)) : Nat) : Int) = (ws.length : Int) := by
    rw [to_size_t_natCast (by omega), ← hlen]
    apply wrap_int_of_range <;> omega
  obtain ⟨i', res, hl, hcases⟩ :=
    bitmap_ffs_loop_spec (ws.length : Int) (by unfold INT_MAX; omega) ws 0 (by omega) (by omega)
  have hword : ∀ j, builtin_ffsl ((ws[j / 64]?).getD 0) = 0 → bit_at ws j = false := by
    intro j hz
    rw [bit_at_eq]
    exact builtin_ffsl_zero hz _ (Nat.mod_lt j (by norm_num))
  rcases hcases with ⟨h0, h3⟩ | ⟨h1, q, hq, h2, h4, h5⟩
  · right
    refine ⟨?_, ?_⟩
    · intro j
      by_cases hj : j / 64 < ws.length
      · exact hword j (h3 (j / 64) hj)
      · exact bit_at_out_of_words (by omega)
    · subst h0
      unfold bitmap_ffs
      simp only [hul, hl, ne_eq, not_true_eq_false, if_false]
  · left
    obtain ⟨b, hb, hres, hbt, hbl⟩ := builtin_ffsl_pos (h4 ▸ h1)
    have hlow : ∀ j < q * 64 + b, bit_at ws j = false := by
      intro j hj
      by_cases hq : j / 64 < q
      · exact hword j (h5 (j / 64) hq)
      · have hq' : j / 64 = q := by omega
        rw [bit_at_eq, hq']
        exact hbl (j % 64) (by omega)
    have hf : bit_at ws (q * 64 + b) = true := by
      rw [bit_at_eq]
      have e1 : (q * 64 + b) / 64 = q := by omega
      have e2 : (q * 64 + b) % 64 = b := by omega
      rw [e1, e2]
      exact hbt
    refine ⟨q * 64 + b, by omega, hf, hlow, ?_⟩
    have hres' : res = (b : Int) + 1 := by rw [h4]; exact hres
    have hi' : i' - 1 = (q : Int) := by omega
    have hw1 : wrap_int (i' - 1) = (q : Int) := by
      rw [hi']
      exact wrap_int_of_range (by omega) (by omega)
    have hb1 : ¬ ((b : Int) + 1 = 0) := by omega
    have hval : wrap_int ((q : Int) * 8 * ((8 : Nat) : Int) + ((b : Int) + 1) + -1)
        = ((q * 64 + b : Nat) : Int) := by
      rw [wrap_int_of_range (by omega) (by omega)]
      push_cast
      omega
    unfold bitmap_ffs
    simp only [hul, hl, hres', hw1, sizeof_ulong_eq]
    rw [wrap_int_of_range (x := (q : Int) * 8) (by omega) (by omega)]
    rw [wrap_int_of_range (x := (q : Int) * 8 * ((8 : Nat) : Int)) (by omega) (by omega)]
    rw [Int.sub_eq_add_neg, wrap_int_add_wrap, hval]
    simp only [ne_eq, hb1, not_false_eq_true, if_true]

/-- When no bit below `elements` is set and `elements < INT_MAX`, `bitmap_ffs` returns -1. -/
theorem bitmap_ffs_not_found {ws : List Nat} {n : Nat} (hn : (n : Int) < INT_MAX)
    (hlen : ws.length = NUM_ULONGS n) (hnone : ∀ i, i < n → bit_at ws i = false) :
    bitmap_ffs { map := some ws, elements := n } = some (-1) := by
  have hn' : (n : Int) < 2 ^ 31 - 1 := by unfold INT_MAX at hn; exact hn
  rcases bitmap_ffs_eval (Int.le_of_lt hn) hlen with ⟨f, _, hf, _, hres⟩ | ⟨_, hres⟩
  · have hge : ¬ (f : Int) < (n : Int) := by
      intro hlt
      rw [hnone f (by omega)] at hf
      exact Bool.noConfusion hf
    rw [hres, if_neg hge]
  · have hw : wrap_int ((n : Int) + 1) = (n : Int) + 1 :=
      wrap_int_of_range (by omega) (by omega)
    rw [hres, hw, if_neg (by omega)]

/-- With `elements = INT_MAX` and no bit set in the word array, `bitmap_ffs` returns
`INT_MIN`: the `int` sum `elements + 1` wraps and compares below `elements`. -/
theorem bitmap_ffs_overflow {ws : List Nat} {n : Nat} (hn : (n : Int) = INT_MAX)
    (hlen : ws.length = NUM_ULONGS n) (hnone : ∀ j, bit_at ws j = false) :
    bitmap_ffs { map := some ws, elements := n } = some INT_MIN := by
  have hn' : (n : Int) = 2 ^ 31 - 1 := by unfold INT_MAX at hn; exact hn
  rcases bitmap_ffs_eval (Int.le_of_eq hn) hlen with ⟨f, _, hf, _, _⟩ | ⟨_, hres⟩
  · rw [hnone f] at hf
    exact Bool.noConfusion hf
  · have hw : wrap_int ((n : Int) + 1) = INT_MIN := by
      unfold wrap_int INT_MIN
      omega
    rw [hres, hw, if_pos (by unfold INT_MIN; omega)]

/-- For `elements < INT_MAX`, `bitmap_ffs` returns the lowest set bit below `elements`, and
-1 if and only if no bit below `elements` is set. -/
theorem bitmap_ffs_correct {ws : List Nat} {n : Nat} (hn : (n : Int) < INT_MAX)
    (hlen : ws.length = NUM_ULONGS n) :
    ∃ r : Int, bitmap_ffs { map := some ws, elements := n } = some r ∧
      ((∃ i, i < n ∧ bit_at ws i = true) →
        ∃ f : Nat, r = (f : Int) ∧ f < n ∧ bit_at ws f = true ∧ ∀ j < f, bit_at ws j = false) ∧
      (r = -1 ↔ ∀ i, i < n → bit_at ws i = false) := by
  by_cases hex : ∃ i, i < n ∧ bit_at ws i = true
  · obtain ⟨f, hf, hffs, hbit, hlow⟩ := bitmap_ffs_spec (Int.le_of_lt hn) hlen hex
    refine ⟨f, hffs, fun _ => ⟨f, rfl, hf, hbit, hlow⟩, ?_⟩
    constructor
    · intro h; omega
    · intro hall
      rw [hall f hf] at hbit
      exact Bool.noConfusion hbit
  · have hall : ∀ i, i < n → bit_at ws i = false := by
      intro i hi
      by_contra hb
      exact hex ⟨i, hi, by simpa using hb⟩
    exact ⟨-1, bitmap_ffs_not_found hn hlen hall, fun h => absurd h hex, fun _ => hall, fun _ => rfl⟩

theorem bit_at_replicate_zero (m j : Nat) : bit_at (List.replicate m 0) j = false := by
  rw [bit_at_eq, List.getElem?_replicate]
  by_cases h : j / 64 < m
  · simp [h]
  · simp [h]

theorem bitmap_init_cleared (n : Nat) (hn : n < 2 ^ 64) :
    bitmap_init (n : Int) 0 true
      = (0, { map := some (List.replicate (NUM_ULONGS n) 0), elements := (n : Int) }) := by
  simp [bitmap_init, to_size_t_natCast hn]

theorem bitmap_init_set_all (n : Nat) (hn : n < 2 ^ 64) (set_all : Int) (hs : set_all ≠ 0) :
    bitmap_init (n : Int) set_all true
      = (0, { map := some (List.replicate (NUM_ULONGS n) (ULONG_MOD - 1)),
              elements := (n : Int) }) := by
  simp [bitmap_init, to_size_t_natCast hn, hs]

/-- A bitmap initialised with `set_all` zero: every bit below `elements` reads 0, and for
`elements < INT_MAX` `bitmap_ffs` returns -1. -/
theorem bitmap_init_cleared_fresh (n : Nat) (hn : (n : Int) ≤ INT_MAX) :
    (∀ i, i < n → bitmap_get (bitmap_init (n : Int) 0 true).2 i = some 0) ∧
    ((n : Int) < INT_MAX → bitmap_ffs (bitmap_init (n : Int) 0 true).2 = some (-1)) := by
  have hn' : n < 2 ^ 31 := by unfold INT_MAX at hn; omega
  rw [bitmap_init_cleared n (by omega)]
  refine ⟨?_, ?_⟩
  · intro i hi
    rw [bitmap_get_spec hn (by simp) hi, bit_at_replicate_zero]
    rfl
  · intro hlt
    exact bitmap_ffs_not_found hlt (by simp) (fun i _ => bit_at_replicate_zero _ i)

/-- A bitmap initialised with `set_all` nonzero: every bit below `elements` reads 1, and
`bitmap_ffs` returns 0 when `elements > 0` and -1 when `elements = 0`. -/
theorem bitmap_init_set_all_fresh (n : Nat) (hn : (n : Int) ≤ INT_MAX) (set_all : Int)
    (hs : set_all ≠ 0) :
    (∀ i, i < n → bitmap_get (bitmap_init (n : Int) set_all true).2 i = some 1) ∧
    bitmap_ffs (bitmap_init (n : Int) set_all true).2 = some (if n = 0 then -1 else 0) := by
  have hn' : n < 2 ^ 31 := by unfold INT_MAX at hn; omega
  have hnum : NUM_ULONGS n = (n + 63) / 64 := NUM_ULONGS_eq (by omega)
  have hbit : ∀ i, i < n → bit_at (List.replicate (NUM_ULONGS n) (ULONG_MOD - 1)) i = true := by
    intro i hi
    exact bit_at_replicate_ones (word_index_lt (by omega) hi)
  rw [bitmap_init_set_all n (by omega) set_all hs]
  refine ⟨?_, ?_⟩
  · intro i hi
    rw [bitmap_get_spec hn (by simp) hi, hbit i hi]
    rfl
  · by_cases h0 : n = 0
    · subst h0
      rw [if_pos rfl]
      exact bitmap_ffs_not_found (by unfold INT_MAX; norm_num) (by simp)
        (fun i hi => absurd hi (Nat.not_lt_zero i))
    · rw [if_neg h0]
      obtain ⟨f, _, hffs, _, hlow⟩ :=
        bitmap_ffs_spec hn (List.length_replicate _ _) ⟨0, by omega, hbit 0 (by omega)⟩
      have hf0 : f = 0 := by
        by_contra hne
        have := hlow 0 (by omega)
        rw [hbit 0 (by omega)] at this
        exact Bool.noConfusion this
      rw [hffs, hf0]
      rfl

theorem bitmap_ffs_init_cleared_overflow (n : Nat) (hn : (n : Int) = INT_MAX) :
    bitmap_ffs (bitmap_init (n : Int) 0 true).2 = some INT_MIN := by
  have hn' : n < 2 ^ 31 := by unfold INT_MAX at hn; omega
  rw [bitmap_init_cleared n (by omega)]
  exact bitmap_ffs_overflow hn (List.length_replicate _ _) (fun j => bit_at_replicate_zero _ j)

theorem bitmap_out_of_range {ws : List Nat} {e idx : Int} (h : idx ≥ e) :
    bitmap_set { map := some ws, elements := e } idx
        = some (-1, { map := some ws, elements := e }) ∧
    bitmap_clear { map := some ws, elements := e } idx
        = (if idx < 0 then bitmap_clear { map := some ws, elements := e } (-1)
           else some (-1, { map := some ws, elements := e })) ∧
    bitmap_get { map := some ws, elements := e } idx = some (-1) := by
  refine ⟨?_, ?_, ?_⟩
  · simp only [bitmap_set, h, if_true]
  · by_cases hneg : idx < 0
    · simp only [bitmap_clear, hneg, if_true, show ((-1 : Int) < 0) from by decide]
    · simp only [bitmap_clear, hneg, if_false, h, if_true]
  · simp only [bitmap_get, h, if_true]

theorem bitmap_clear_negative {ws : List Nat} {n : Nat} {idx : Int} (hn : (n : Int) ≤ INT_MAX)
    (hlen : ws.length = NUM_ULONGS n) (hneg : idx < 0) :
    bitmap_clear { map := some ws, elements := n } idx
      = some (0, { map := some (List.replicate ws.length 0), elements := n }) := by
  have hn' : n < 2 ^ 31 := by unfold INT_MAX at hn; omega
  have hnum : NUM_ULONGS n = (n + 63) / 64 := NUM_ULONGS_eq (by omega)
  have hbytes : NUM_BYTES (to_size_t (n : Int)) = ws.length * 8 := by
    rw [to_size_t_natCast (by omega), NUM_BYTES, ← hlen, sizeof_ulong_eq, ULONG_MOD_eq]
    exact Nat.mod_eq_of_lt (by omega)
  have h1 : ws.length * 8 / 8 = ws.length := by omega
  have h2 : ws.length * 8 % 8 = 0 := by omega
  simp only [bitmap_clear, hneg, if_true, hbytes, sizeof_ulong_eq, h1, h2, le_refl, and_self,
    List.drop_length, List.append_nil]

section claims_bitmap

/-- C17 (code defect): for a bitmap with `elements = INT_MAX = 2147483647` whose 33554432
words are all zero, no bit is set, and `bitmap_ffs` returns -2147483648 instead of the
not-found value -1: the sum `bmp->elements + 1`, computed in `int`, is the smallest `int`
and so compares below `bmp->elements`. -/
theorem C17_ffs_not_found_at_INT_MAX_returns_INT_MIN :
    bitmap_ffs { map := some (List.replicate 33554432 0), elements := 2147483647 }
      = some (-2147483648) := by
  have h := @bitmap_ffs_overflow (List.replicate 33554432 0) 2147483647
    (by unfold INT_MAX; norm_num)
    (by rw [List.length_replicate, NUM_ULONGS_eq (by norm_num)])
    (fun j => bit_at_replicate_zero _ j)
  unfold INT_MIN at h
  exact_mod_cast h

/-- C18 (code defect): after `bitmap_init` with `num_of_elements = INT_MAX = 2147483647`
and `set_all` zero (allocation succeeding), `bitmap_ffs` returns -2147483648 instead of
the not-found value -1. -/
theorem C18_fresh_cleared_bitmap_at_INT_MAX_ffs_returns_INT_MIN :
    bitmap_ffs (bitmap_init 2147483647 0 true).2 = some (-2147483648) := by
  have h := bitmap_ffs_init_cleared_overflow 2147483647 (by unfold INT_MAX; norm_num)
  unfold INT_MIN at h
  exact_mod_cast h

/-- C19: on an initialised bitmap of `n` bits, for `i < n`, `bitmap_set` and `bitmap_clear`
return 0; `bitmap_get` at `i` returns 1 after the set and 0 after the clear; `bitmap_get`
returns 0 or 1; and for every `j < n` other than `i`, `bitmap_get` at `j` returns after the
set and after the clear what it returned before. -/
theorem C19_set_clear_get {ws : List Nat} {n i : Nat} (hn : (n : Int) ≤ INT_MAX)
    (hlen : ws.length = NUM_ULONGS n) (hi : i < n) :
    ∃ s c : List Nat,
      bitmap_set { map := some ws, elements := n } i
        = some (0, { map := some s, elements := n }) ∧
      bitmap_clear { map := some ws, elements := n } i
        = some (0, { map := some c, elements := n }) ∧
      s.length = ws.length ∧ c.length = ws.length ∧
      bitmap_get { map := some s, elements := n } i = some 1 ∧
      bitmap_get { map := some c, elements := n } i = some 0 ∧
      (bitmap_get { map := some ws, elements := n } i = some 0 ∨
        bitmap_get { map := some ws, elements := n } i = some 1) ∧
      ∀ j : Nat, j < n → j ≠ i →
        bitmap_get { map := some s, elements := n } j
          = bitmap_get { map := some ws, elements := n } j ∧
        bitmap_get { map := some c, elements := n } j
          = bitmap_get { map := some ws, elements := n } j := by
  obtain ⟨s, hs, hsl, hsb⟩ := bitmap_set_spec hn hlen hi
  obtain ⟨c, hc, hcl, hcb⟩ := bitmap_clear_spec hn hlen hi
  refine ⟨s, c, hs, hc, hsl, hcl, ?_, ?_, ?_, ?_⟩
  · rw [bitmap_get_spec hn (hsl.trans hlen) hi, hsb i]
    simp
  · rw [bitmap_get_spec hn (hcl.trans hlen) hi, hcb i]
    simp
  · rw [bitmap_get_spec hn hlen hi]
    cases bit_at ws i
    · left; rfl
    · right; rfl
  · intro j hj hne
    rw [bitmap_get_spec hn (hsl.trans hlen) hj, bitmap_get_spec hn (hcl.trans hlen) hj,
      bitmap_get_spec hn hlen hj, hsb j, hcb j]
    simp [hne]

theorem C19_set_clear_get_witness :
    ∃ s c : List Nat,
      bitmap_set { map := some [36], elements := ((10 : Nat) : Int) } ((2 : Nat) : Int)
        = some (0, { map := some s, elements := ((10 : Nat) : Int) }) ∧
      bitmap_clear { map := some [36], elements := ((10 : Nat) : Int) } ((2 : Nat) : Int)
        = some (0, { map := some c, elements := ((10 : Nat) : Int) }) ∧
      s.length = [36].length ∧ c.length = [36].length ∧
      bitmap_get { map := some s, elements := ((10 : Nat) : Int) } ((2 : Nat) : Int) = some 1 ∧
      bitmap_get { map := some c, elements := ((10 : Nat) : Int) } ((2 : Nat) : Int) = some 0 ∧
      (bitmap_get { map := some [36], elements := ((10 : Nat) : Int) } ((2 : Nat) : Int) = some 0 ∨
        bitmap_get { map := some [36], elements := ((10 : Nat) : Int) } ((2 : Nat) : Int)
          = some 1) ∧
      ∀ j : Nat, j < 10 → j ≠ 2 →
        bitmap_get { map := some s, elements := ((10 : Nat) : Int) } j
          = bitmap_get { map := some [36], elements := ((10 : Nat) : Int) } j ∧
        bitmap_get { map := some c, elements := ((10 : Nat) : Int) } j
          = bitmap_get { map := some [36], elements := ((10 : Nat) : Int) } j :=
  @C19_set_clear_get [36] 10 2 (by decide) (by decide) (by decide)

/-- C20 (counterexample): on the bitmap of 10 bits with word 0, `bitmap_set` with index -1
returns 0 and changes the word (to `2 ^ 63`); on the resulting bitmap `bitmap_get` with
index -1 returns 1; and on the bitmap of 10 bits with word 36, `bitmap_clear` with index -1
returns 0 and changes the word to 0. -/
theorem C20_negative_index_counterexample :
    bitmap_set { map := some [0], elements := 10 } (-1)
      = some (0, { map := some [9223372036854775808], elements := 10 }) ∧
    bitmap_get { map := some [9223372036854775808], elements := 10 } (-1) = some 1 ∧
    bitmap_clear { map := some [36], elements := 10 } (-1)
      = some (0, { map := some [0], elements := 10 }) := by
  decide

/-- C20 (amended): on an initialised bitmap of `n` bits, for every index `i ≥ n` each of
`bitmap_set`, `bitmap_clear` and `bitmap_get` returns -1 and the bitmap is unchanged; for
every index `k < 0`, `bitmap_clear` returns 0 and leaves every word zero. -/
theorem C20_index_out_of_range {ws : List Nat} {n : Nat} (i k : Int)
    (hn : (n : Int) ≤ INT_MAX) (hlen : ws.length = NUM_ULONGS n)
    (hi : i ≥ (n : Int)) (hk : k < 0) :
    bitmap_set { map := some ws, elements := n } i
      = some (-1, { map := some ws, elements := n }) ∧
    bitmap_clear { map := some ws, elements := n } i
      = some (-1, { map := some ws, elements := n }) ∧
    bitmap_get { map := some ws, elements := n } i = some (-1) ∧
    bitmap_clear { map := some ws, elements := n } k
      = some (0, { map := some (List.replicate ws.length 0), elements := n }) := by
  obtain ⟨h1, h2, h3⟩ := @bitmap_out_of_range ws (n : Int) i hi
  have hneg : ¬ i < 0 := by omega
  rw [if_neg hneg] at h2
  exact ⟨h1, h2, h3, bitmap_clear_negative hn hlen hk⟩

theorem C20_index_out_of_range_witness :
    bitmap_set { map := some [36], elements := ((10 : Nat) : Int) } 10
      = some (-1, { map := some [36], elements := ((10 : Nat) : Int) }) ∧
    bitmap_clear { map := some [36], elements := ((10 : Nat) : Int) } 10
      = some (-1, { map := some [36], elements := ((10 : Nat) : Int) }) ∧
    bitmap_get { map := some [36], elements := ((10 : Nat) : Int) } 10 = some (-1) ∧
    bitmap_clear { map := some [36], elements := ((10 : Nat) : Int) } (-1)
      = some (0, { map := some (List.replicate [36].length 0),
                   elements := ((10 : Nat) : Int) }) :=
  @C20_index_out_of_range [36] 10 10 (-1) (by decide) (by decide) (by decide) (by decide)

end claims_bitmap

/-! ## Bitmap: the upper limit and clearing the whole bitmap -/

/-- After `bitmap_clear` with a negative index on a bitmap of `n` bits every bit below `n`
reads 0, and for `n < INT_MAX` `bitmap_ffs` returns -1. -/
theorem bitmap_clear_all_spec {ws : List Nat} {n : Nat} {idx : Int} (hn : (n : Int) ≤ INT_MAX)
    (hlen : ws.length = NUM_ULONGS n) (hneg : idx < 0) :
    ∃ bmp, bitmap_clear { map := some ws, elements := n } idx = some (0, bmp) ∧
      (∀ i, i < n → bitmap_get bmp i = some 0) ∧
      ((n : Int) < INT_MAX → bitmap_ffs bmp = some (-1)) := by
  refine ⟨_, bitmap_clear_negative hn hlen hneg, ?_, ?_⟩
  · intro i hi
    rw [bitmap_get_spec hn (by simpa using hlen) hi, bit_at_replicate_zero]
    rfl
  · intro hlt
    exact bitmap_ffs_not_found hlt (by simpa using hlen) (fun i _ => bit_at_replicate_zero _ i)

section claims_bitmap_limits

/-- C21: for a bitmap with a non-`NULL` map and `elements = e ≥ 0`, and every index
`idx ≥ e`, each of `bitmap_set`, `bitmap_clear` and `bitmap_get` returns -1 and leaves the
bitmap as it was. No word of the map is accessed: the result is the same whatever the
word array `ws` is, also for an array without any word, where an access of a word has no
result. -/
theorem C21_index_above_upper_limit (ws : List Nat) (e idx : Int) (he : 0 ≤ e)
    (h : idx ≥ e) :
    bitmap_set { map := some ws, elements := e } idx
      = some (-1, { map := some ws, elements := e }) ∧
    bitmap_clear { map := some ws, elements := e } idx
      = some (-1, { map := some ws, elements := e }) ∧
    bitmap_get { map := some ws, elements := e } idx = some (-1) := by
  obtain ⟨h1, h2, h3⟩ := @bitmap_out_of_range ws e idx h
  have hneg : ¬ idx < 0 := by omega
  rw [if_neg hneg] at h2
  exact ⟨h1, h2, h3⟩

theorem C21_index_above_upper_limit_witness :
    bitmap_set { map := some [], elements := 10 } 12
      = some (-1, { map := some [], elements := 10 }) ∧
    bitmap_clear { map := some [], elements := 10 } 12
      = some (-1, { map := some [], elements := 10 }) ∧
    bitmap_get { map := some [], elements := 10 } 12 = some (-1) :=
  C21_index_above_upper_limit [] 10 12 (by decide) (by decide)

/-- C22 (code defect): on the bitmap with `elements = INT_MAX = 2147483647` and all bits
set, `bitmap_clear` with index -1 returns 0 and leaves every word zero, and `bitmap_ffs`
on the result returns -2147483648 instead of the not-found value -1. -/
theorem C22_clear_all_at_INT_MAX_then_ffs_returns_INT_MIN :
    ∃ bmp,
      bitmap_clear { map := some (List.replicate 33554432 18446744073709551615),
                     elements := 2147483647 } (-1) = some (0, bmp) ∧
      bmp = { map := some (List.replicate 33554432 0), elements := 2147483647 } ∧
      bitmap_ffs bmp = some (-2147483648) := by
  have hlen : ∀ w : Nat, (List.replicate 33554432 w).length = NUM_ULONGS 2147483647 := by
    intro w
    rw [List.length_replicate, NUM_ULONGS_eq (by norm_num)]
  have h1 := @bitmap_clear_negative (List.replicate 33554432 18446744073709551615)
    2147483647 (-1) (by unfold INT_MAX; norm_num) (hlen _) (by decide)
  rw [List.length_replicate] at h1
  have h2 := @bitmap_ffs_overflow (List.replicate 33554432 0) 2147483647
    (by unfold INT_MAX; norm_num) (hlen _) (fun j => bit_at_replicate_zero _ j)
  unfold INT_MIN at h2
  refine ⟨_, ?_, rfl, ?_⟩
  · exact_mod_cast h1
  · exact_mod_cast h2

end claims_bitmap_limits

/-! ## Bitmap: the bits above `elements` in the last word -/

theorem bitmap_calls_upper_bits {n : Nat} (hn : (n : Int) ≤ INT_MAX) :
    ∀ (calls : List bitmap_call) (b : Bool) (ws : List Nat), ws.length = NUM_ULONGS n →
      (∀ c ∈ calls, bitmap_call.in_range (n : Int) c) →
      (∀ j, n ≤ j → j < 64 * NUM_ULONGS n → bit_at ws j = b) →
      ∃ ws', bitmap_calls { map := some ws, elements := n } calls
          = some { map := some ws', elements := n } ∧
        ws'.length = NUM_ULONGS n ∧
        ∀ j, n ≤ j → j < 64 * NUM_ULONGS n →
          bit_at ws' j = (b && !(calls.any bitmap_call.clears_all)) := by
  intro calls
  induction calls with
  | nil =>
    intro b ws hlen _ hb
    exact ⟨ws, rfl, hlen, fun j h1 h2 => by simp [hb j h1 h2]⟩
  | cons c rest ih =>
    intro b ws hlen hin hb
    have hrest : ∀ c' ∈ rest, bitmap_call.in_range (n : Int) c' :=
      fun c' hc' => hin c' (List.mem_cons_of_mem _ hc')
    have hc := hin c (List.mem_cons_self _ _)
    cases c with
    | set idx =>
      obtain ⟨h0, h1⟩ : 0 ≤ idx ∧ idx < (n : Int) := hc
      obtain ⟨i, rfl⟩ := Int.eq_ofNat_of_zero_le h0
      have hi : i < n := by omega
      obtain ⟨ws1, hs, hl1, hbits⟩ := bitmap_set_spec hn hlen hi
      obtain ⟨ws', hrun, hl', hb'⟩ := ih b ws1 (hl1.trans hlen) hrest (by
        intro j hj1 hj2
        rw [hbits j, hb j hj1 hj2]
        have : ¬ j = i := by omega
        simp [this])
      refine ⟨ws', ?_, hl', ?_⟩
      · simp only [bitmap_calls, hs]
        exact hrun
      · intro j hj1 hj2
        rw [hb' j hj1 hj2]
        simp [bitmap_call.clears_all]
    | clear idx =>
      have h1 : idx < (n : Int) := hc
      by_cases hneg : idx < 0
      · have hs := @bitmap_clear_negative ws n idx hn hlen hneg
        obtain ⟨ws', hrun, hl', hb'⟩ := ih false (List.replicate ws.length 0)
          (by simpa using hlen) hrest (fun j _ _ => bit_at_replicate_zero _ j)
        refine ⟨ws', ?_, hl', ?_⟩
        · simp only [bitmap_calls, hs]
          exact hrun
        · intro j hj1 hj2
          rw [hb' j hj1 hj2]
          simp [bitmap_call.clears_all, hneg]
      · obtain ⟨i, rfl⟩ := Int.eq_ofNat_of_zero_le (not_lt.mp hneg)
        have hi : i < n := by omega
        obtain ⟨ws1, hs, hl1, hbits⟩ := bitmap_clear_spec hn hlen hi
        obtain ⟨ws', hrun, hl', hb'⟩ := ih b ws1 (hl1.trans hlen) hrest (by
          intro j hj1 hj2
          rw [hbits j, hb j hj1 hj2]
          have : ¬ j = i := by omega
          simp [this])
        refine ⟨ws', ?_, hl', ?_⟩
        · simp only [bitmap_calls, hs]
          exact hrun
        · intro j hj1 hj2
          rw [hb' j hj1 hj2]
          simp [bitmap_call.clears_all, hneg]

section claims_upper_bits

/-- C23 (counterexample): after `bitmap_init` with 10 elements and `set_all` nonzero, and
no further call, bit 10 of the word is 1. -/
theorem C23_init_set_all_sets_upper_bits :
    bitmap_calls (bitmap_init 10 1 true).2 []
      = some { map := some [18446744073709551615], elements := 10 } ∧
    bit_at [18446744073709551615] 10 = true := by
  decide

/-- C23 (amended): after `bitmap_init` of `n` bits with the value `set_all` and any
sequence of calls of `bitmap_set` and `bitmap_clear` that are in range (`bitmap_clear`
with a negative index included), every bit at an index `j ≥ n` of the word array is 1 when
`set_all` is nonzero and no call cleared the whole bitmap, and 0 otherwise. -/
theorem C23_upper_bits_after_calls (n : Nat) (set_all : Int) (calls : List bitmap_call)
    (hn : (n : Int) ≤ INT_MAX) (hcalls : ∀ c ∈ calls, bitmap_call.in_range (n : Int) c) :
    ∃ ws, bitmap_calls (bitmap_init (n : Int) set_all true).2 calls
        = some { map := some ws, elements := n } ∧
      ws.length = NUM_ULONGS n ∧
      ∀ j, n ≤ j → j < 64 * NUM_ULONGS n →
        bit_at ws j = (decide (set_all ≠ 0) && !(calls.any bitmap_call.clears_all)) := by
  have hn' : n < 2 ^ 31 := by unfold INT_MAX at hn; omega
  by_cases hs : set_all = 0
  · subst hs
    rw [bitmap_init_cleared n (by omega)]
    obtain ⟨ws, h1, h2, h3⟩ := bitmap_calls_upper_bits hn calls false
      (List.replicate (NUM_ULONGS n) 0) (by simp) hcalls
      (fun j _ _ => bit_at_replicate_zero _ j)
    exact ⟨ws, h1, h2, fun j hj1 hj2 => by rw [h3 j hj1 hj2]; simp⟩
  · rw [bitmap_init_set_all n (by omega) set_all hs]
    obtain ⟨ws, h1, h2, h3⟩ := bitmap_calls_upper_bits hn calls true
      (List.replicate (NUM_ULONGS n) (ULONG_MOD - 1)) (by simp) hcalls
      (fun j _ hj => bit_at_replicate_ones (by omega))
    exact ⟨ws, h1, h2, fun j hj1 hj2 => by rw [h3 j hj1 hj2]; simp [hs]⟩

theorem C23_upper_bits_after_calls_witness :
    ∃ ws, bitmap_calls (bitmap_init ((10 : Nat) : Int) 1 true).2
          [bitmap_call.clear 5, bitmap_call.set 3]
        = some { map := some ws, elements := ((10 : Nat) : Int) } ∧
      ws.length = NUM_ULONGS 10 ∧
      ∀ j, 10 ≤ j → j < 64 * NUM_ULONGS 10 →
        bit_at ws j = (decide ((1 : Int) ≠ 0) &&
          !([bitmap_call.clear 5, bitmap_call.set 3].any bitmap_call.clears_all)) :=
  C23_upper_bits_after_calls 10 1 [bitmap_call.clear 5, bitmap_call.set 3] (by decide)
    (by simp [bitmap_call.in_range])

end claims_upper_bits

/-! ## Store: init, destroy and the handle that is not initialised -/

section store_lifecycle

theorem init_ok_eq {K V : Type} [Inhabited K] [Inhabited V] (n : Nat) (hn : (n : Int) ≤ INT_MAX) :
    (init_RECORD_TYPE (n : Int) true true : ing_stat_t × RECORD_TYPE_db_t K V)
      = (ING_STAT_OK,
          { max_rec_num := n, rec_num := 0,
            records := heap_ptr.live (List.replicate n ⟨default, default⟩),
            map_free := { map := some (List.replicate (NUM_ULONGS n) (ULONG_MOD - 1)),
                          elements := n },
            head := [] }) := by
  have hn' : n < 2 ^ 31 := by unfold INT_MAX at hn; omega
  have h1 : ¬ (((n : Int) < 0) ∨ true = false) := by
    intro h
    rcases h with h | h
    · omega
    · exact Bool.noConfusion h
  unfold init_RECORD_TYPE
  rw [if_neg h1]
  simp only [bitmap_init_set_all n (by omega) 1 (by decide), lt_self_iff_false, if_false,
    Int.toNat_ofNat]

theorem init_malloc_failed {K V : Type} [Inhabited K] [Inhabited V] (m : Int) (calloc_ok : Bool) :
    (init_RECORD_TYPE m false calloc_ok : ing_stat_t × RECORD_TYPE_db_t K V).1
      = ING_STAT_OUTOFMEMORY := by
  unfold init_RECORD_TYPE
  rw [if_pos (Or.inr rfl)]

theorem init_negative {K V : Type} [Inhabited K] [Inhabited V] (m : Int) (malloc_ok calloc_ok : Bool) (hm : m < 0) :
    (init_RECORD_TYPE m malloc_ok calloc_ok : ing_stat_t × RECORD_TYPE_db_t K V).1
      = ING_STAT_OUTOFMEMORY := by
  unfold init_RECORD_TYPE
  rw [if_pos (Or.inl hm)]

theorem init_calloc_failed {K V : Type} [Inhabited K] [Inhabited V] (m : Int) (hm : 0 ≤ m) :
    (init_RECORD_TYPE m true false : ing_stat_t × RECORD_TYPE_db_t K V)
      = (ING_STAT_SYSTEM_ERROR,
          { max_rec_num := m, rec_num := 0, records := heap_ptr.dangling,
            map_free := { map := none, elements := m }, head := [] }) := by
  have h1 : ¬ ((m < 0) ∨ true = false) := by
    intro h
    rcases h with h | h
    · omega
    · exact Bool.noConfusion h
  unfold init_RECORD_TYPE
  rw [if_neg h1]
  simp [bitmap_init]

theorem init_never_invalid_argument {K V : Type} [Inhabited K] [Inhabited V] (m : Int) (malloc_ok calloc_ok : Bool) :
    (init_RECORD_TYPE m malloc_ok calloc_ok : ing_stat_t × RECORD_TYPE_db_t K V).1
      ≠ ING_STAT_INVALID_ARGUMENT := by
  unfold init_RECORD_TYPE
  by_cases h1 : m < 0 ∨ malloc_ok = false
  · rw [if_pos h1]
    simp
  · rw [if_neg h1]
    by_cases h2 : (bitmap_init m 1 calloc_ok).1 < 0
    · simp only [h2, if_true]
      simp
    · simp only [h2, if_false]
      simp

/-- On a store without index entries and without a bitmap, `add` returns
`ING_STAT_FULL`, `del` and `get` return `ING_STAT_NOT_FOUND`, the store is not changed, and
`del_val` has no result. -/
theorem not_initialised_ops {K V : Type} [DecidableEq K] (db : RECORD_TYPE_db_t K V) (hhead : db.head = [])
    (hmap : db.map_free = { map := none, elements := 0 })
    (v : RECORD_TYPE K V) (k : K) (p : Nat) :
    add_RECORD_TYPE db (some v) = some (ING_STAT_FULL, db) ∧
    del_RECORD_TYPE db (some k) = some (ING_STAT_NOT_FOUND, db) ∧
    get_RECORD_TYPE db (some k) = (ING_STAT_NOT_FOUND, none, db) ∧
    del_val_RECORD_TYPE db (some p) = none := by
  refine ⟨?_, ?_, ?_, ?_⟩
  · by_cases hfull : db.rec_num ≥ db.max_rec_num
    · simp only [add_RECORD_TYPE, hhead, HASH_FIND, hfull, if_true]
    · simp [add_RECORD_TYPE, hhead, HASH_FIND, hfull, hmap, bitmap_ffs]
  · simp only [del_RECORD_TYPE, hhead, HASH_FIND]
  · simp only [get_RECORD_TYPE, hhead, HASH_FIND]
  · simp [del_val_RECORD_TYPE, hhead, HASH_DELETE]

theorem destroy_result {K V : Type} (db0 db : RECORD_TYPE_db_t K V) (st : ing_stat_t)
    (h : destroy_RECORD_TYPE db0 = some (st, db)) :
    st = ING_STAT_OK ∧
    db = { max_rec_num := db0.max_rec_num, rec_num := 0, records := heap_ptr.null,
           map_free := { map := none, elements := 0 }, head := [] } := by
  unfold destroy_RECORD_TYPE at h
  cases hr : db0.records with
  | dangling =>
    rw [hr] at h
    exact Option.noConfusion h
  | null =>
    rw [hr] at h
    simp only [Option.some.injEq, Prod.mk.injEq] at h
    exact ⟨h.1.symm, h.2.symm⟩
  | live block =>
    rw [hr] at h
    simp only [Option.some.injEq, Prod.mk.injEq] at h
    exact ⟨h.1.symm, h.2.symm⟩

/-- For a store whose slot array pointer is not dangling, `destroy` returns
`ING_STAT_OK`, and a second `destroy` returns `ING_STAT_OK` and leaves the store of the
first; `bitmap_destroy` on the destroyed bitmap returns 0 and leaves it. -/
theorem destroy_twice {K V : Type} (db : RECORD_TYPE_db_t K V) (h : db.records ≠ heap_ptr.dangling) :
    ∃ d, destroy_RECORD_TYPE db = some (ING_STAT_OK, d) ∧
      destroy_RECORD_TYPE d = some (ING_STAT_OK, d) ∧
      d = { max_rec_num := db.max_rec_num, rec_num := 0, records := heap_ptr.null,
            map_free := { map := none, elements := 0 }, head := [] } ∧
      bitmap_destroy d.map_free = (0, d.map_free) := by
  refine ⟨_, ?_, ?_, rfl, rfl⟩
  · unfold destroy_RECORD_TYPE
    cases hr : db.records with
    | dangling => exact absurd hr h
    | null => rfl
    | live block => rfl
  · rfl

end store_lifecycle

section claims_lifecycle

/-- C24: for every capacity `n ≥ 0` (an `int`), `init` with both allocations succeeding
returns `ING_STAT_OK` and leaves a store whose `size` is 0, whose index has no entry, in
which `get` of every key returns `ING_STAT_NOT_FOUND`, and whose free bit is 1 for every
slot below `n`; `size` of every store returns its `rec_num`. -/
theorem C24_fresh_store {K V : Type} [DecidableEq K] [Inhabited K] [Inhabited V]
    (n : Nat) (hn : (n : Int) ≤ INT_MAX) :
    ∃ db : RECORD_TYPE_db_t K V,
      init_RECORD_TYPE (n : Int) true true = (ING_STAT_OK, db) ∧
      size_RECORD_TYPE db = 0 ∧ db.head = [] ∧
      (∀ k : K, get_RECORD_TYPE db (some k) = (ING_STAT_NOT_FOUND, none, db)) ∧
      (∀ i : Nat, i < n → bitmap_get db.map_free (i : Int) = some 1) ∧
      (∀ d : RECORD_TYPE_db_t K V, size_RECORD_TYPE d = d.rec_num) := by
  have hn' : n < 2 ^ 31 := by unfold INT_MAX at hn; omega
  refine ⟨_, init_ok_eq n hn, rfl, rfl, fun k => get_notfound rfl, ?_, fun d => rfl⟩
  intro i hi
  have h := (bitmap_init_set_all_fresh n hn 1 (by decide)).1 i hi
  rw [bitmap_init_set_all n (by omega) 1 (by decide)] at h
  exact h

theorem C24_fresh_store_witness :
    ∃ db : RECORD_TYPE_db_t Nat Nat,
      init_RECORD_TYPE ((3 : Nat) : Int) true true = (ING_STAT_OK, db) ∧
      size_RECORD_TYPE db = 0 ∧ db.head = [] ∧
      (∀ k : Nat, get_RECORD_TYPE db (some k) = (ING_STAT_NOT_FOUND, none, db)) ∧
      (∀ i : Nat, i < 3 → bitmap_get db.map_free (i : Int) = some 1) ∧
      (∀ d : RECORD_TYPE_db_t Nat Nat, size_RECORD_TYPE d = d.rec_num) :=
  C24_fresh_store 3 (by decide)

/-- C25 (counterexample): `init` with capacity 0 and both allocations succeeding returns
`ING_STAT_OK`, and `init` with capacity -1 returns `ING_STAT_OUTOFMEMORY`. -/
theorem C25_init_nonpositive_capacity_counterexample :
    (init_RECORD_TYPE 0 true true : ing_stat_t × RECORD_TYPE_db_t Nat Nat).1 = ING_STAT_OK ∧
    (init_RECORD_TYPE (-1) true true : ing_stat_t × RECORD_TYPE_db_t Nat Nat).1
      = ING_STAT_OUTOFMEMORY := by
  decide

/-- C25 (amended): `init` does not return `ING_STAT_INVALID_ARGUMENT` for a capacity
`≤ 0`: for a negative capacity `m` it returns `ING_STAT_OUTOFMEMORY`; for the capacity 0
it returns `ING_STAT_OK` when both allocations succeed, and whatever the allocations do
its status is not `ING_STAT_INVALID_ARGUMENT`. -/
theorem C25_init_nonpositive_capacity {K V : Type} [Inhabited K] [Inhabited V] (m : Int)
    (malloc_ok calloc_ok : Bool) (hm : m < 0) :
    (init_RECORD_TYPE m malloc_ok calloc_ok : ing_stat_t × RECORD_TYPE_db_t K V).1
      = ING_STAT_OUTOFMEMORY ∧
    (init_RECORD_TYPE 0 true true : ing_stat_t × RECORD_TYPE_db_t K V).1 = ING_STAT_OK ∧
    (init_RECORD_TYPE 0 malloc_ok calloc_ok : ing_stat_t × RECORD_TYPE_db_t K V).1
      ≠ ING_STAT_INVALID_ARGUMENT := by
  refine ⟨init_negative m malloc_ok calloc_ok hm, ?_, init_never_invalid_argument 0 _ _⟩
  have h := @init_ok_eq K V _ _ 0 (by decide)
  rw [show (((0 : Nat) : Int)) = 0 from rfl] at h
  rw [h]

theorem C25_init_nonpositive_capacity_witness :
    (init_RECORD_TYPE (-2) true false : ing_stat_t × RECORD_TYPE_db_t Nat Nat).1
      = ING_STAT_OUTOFMEMORY ∧
    (init_RECORD_TYPE 0 true true : ing_stat_t × RECORD_TYPE_db_t Nat Nat).1 = ING_STAT_OK ∧
    (init_RECORD_TYPE 0 true false : ing_stat_t × RECORD_TYPE_db_t Nat Nat).1
      ≠ ING_STAT_INVALID_ARGUMENT :=
  C25_init_nonpositive_capacity (-2) true false (by decide)

/-- C26 (counterexample): `init` with capacity 3, the `malloc` of the slot array
succeeding and the `calloc` of the bitmap failing, returns `ING_STAT_SYSTEM_ERROR`, while
with the `malloc` failing it returns `ING_STAT_OUTOFMEMORY`. -/
theorem C26_bitmap_allocation_failure_counterexample :
    (init_RECORD_TYPE 3 true false : ing_stat_t × RECORD_TYPE_db_t Nat Nat).1
      = ING_STAT_SYSTEM_ERROR ∧
    (init_RECORD_TYPE 3 false true : ing_stat_t × RECORD_TYPE_db_t Nat Nat).1
      = ING_STAT_OUTOFMEMORY := by
  decide

/-- C26 (amended): for a capacity `m ≥ 0`, `init` returns `ING_STAT_OUTOFMEMORY` when the
slot array cannot be allocated, and `ING_STAT_SYSTEM_ERROR` when the slot array is
allocated and the bitmap cannot be. -/
theorem C26_allocation_failure_status {K V : Type} [Inhabited K] [Inhabited V] (m : Int)
    (calloc_ok : Bool) (hm : 0 ≤ m) :
    (init_RECORD_TYPE m false calloc_ok : ing_stat_t × RECORD_TYPE_db_t K V).1
      = ING_STAT_OUTOFMEMORY ∧
    (init_RECORD_TYPE m true false : ing_stat_t × RECORD_TYPE_db_t K V).1
      = ING_STAT_SYSTEM_ERROR := by
  refine ⟨init_malloc_failed m calloc_ok, ?_⟩
  rw [init_calloc_failed m hm]

theorem C26_allocation_failure_status_witness :
    (init_RECORD_TYPE 5 false true : ing_stat_t × RECORD_TYPE_db_t Nat Nat).1
      = ING_STAT_OUTOFMEMORY ∧
    (init_RECORD_TYPE 5 true false : ing_stat_t × RECORD_TYPE_db_t Nat Nat).1
      = ING_STAT_SYSTEM_ERROR :=
  C26_allocation_failure_status 5 true (by decide)

/-- C27 (counterexample): `destroy` of the store holding keys 1, 2, 3 returns
`ING_STAT_OK`; on the destroyed store `add` of a record with key 5 returns
`ING_STAT_FULL`, and `del` and `get` of key 1 return `ING_STAT_NOT_FOUND`. -/
theorem C27_destroyed_store_counterexample :
    destroy_RECORD_TYPE scenario3 = some (ING_STAT_OK, destroyed_store) ∧
    add_RECORD_TYPE destroyed_store (some ⟨5, 50⟩) = some (ING_STAT_FULL, destroyed_store) ∧
    del_RECORD_TYPE destroyed_store (some 1) = some (ING_STAT_NOT_FOUND, destroyed_store) ∧
    get_RECORD_TYPE destroyed_store (some 1) = (ING_STAT_NOT_FOUND, none, destroyed_store) := by
  decide

/-- C27 (amended): on a store that is zeroed and not initialised, or that `destroy` has
left, with non-`NULL` arguments `add` returns `ING_STAT_FULL`, `del` and `get` return
`ING_STAT_NOT_FOUND`, each leaving the store as it is, and `del_val` has no result. -/
theorem C27_not_initialised_store {K V : Type} [DecidableEq K]
    (db0 db : RECORD_TYPE_db_t K V) (st : ing_stat_t)
    (v : RECORD_TYPE K V) (k : K) (p : Nat)
    (h : db = zeroed_db K V ∨ destroy_RECORD_TYPE db0 = some (st, db)) :
    add_RECORD_TYPE db (some v) = some (ING_STAT_FULL, db) ∧
    del_RECORD_TYPE db (some k) = some (ING_STAT_NOT_FOUND, db) ∧
    get_RECORD_TYPE db (some k) = (ING_STAT_NOT_FOUND, none, db) ∧
    del_val_RECORD_TYPE db (some p) = none := by
  rcases h with h | h
  · subst h
    exact not_initialised_ops _ rfl rfl v k p
  · obtain ⟨_, hdb⟩ := destroy_result db0 db st h
    subst hdb
    exact not_initialised_ops _ rfl rfl v k p

theorem C27_not_initialised_store_witness :
    add_RECORD_TYPE destroyed_store (some ⟨1, 11⟩) = some (ING_STAT_FULL, destroyed_store) ∧
    del_RECORD_TYPE destroyed_store (some 2) = some (ING_STAT_NOT_FOUND, destroyed_store) ∧
    get_RECORD_TYPE destroyed_store (some 2) = (ING_STAT_NOT_FOUND, none, destroyed_store) ∧
    del_val_RECORD_TYPE destroyed_store (some 0) = none :=
  C27_not_initialised_store scenario3 destroyed_store ING_STAT_OK ⟨1, 11⟩ 2 0
    (Or.inr (by decide))

/-- C28 (code defect): `init` with capacity 3, the `malloc` of the slot array succeeding
and the `calloc` of the bitmap failing, returns `ING_STAT_SYSTEM_ERROR` and leaves
`db->records` pointing at the slot array it has freed; `destroy` of that store frees the
slot array a second time and has no result. -/
theorem C28_destroy_after_failed_init :
    (init_RECORD_TYPE 3 true false : ing_stat_t × RECORD_TYPE_db_t Nat Nat)
      = (ING_STAT_SYSTEM_ERROR, failed_init_store) ∧
    failed_init_store.records = heap_ptr.dangling ∧
    destroy_RECORD_TYPE failed_init_store = none := by
  decide

end claims_lifecycle

/-! ## Strings -/

theorem strlen_append_nul (a r : List Nat) (ha : ∀ x ∈ a, x ≠ 0) :
    strlen (a ++ 0 :: r) = some a.length := by
  induction a with
  | nil => simp [strlen]
  | cons c a ih =>
    have hc : c ≠ 0 := ha c (List.mem_cons_self _ _)
    have ih' := ih (fun x hx => ha x (List.mem_cons_of_mem _ hx))
    simp [strlen, hc, ih']

theorem strlen_some : ∀ (s : List Nat) (l : Nat), strlen s = some l →
    ∃ a r, s = a ++ 0 :: r ∧ (∀ x ∈ a, x ≠ 0) ∧ a.length = l := by
  intro s
  induction s with
  | nil =>
    intro l h
    simp [strlen] at h
  | cons c s ih =>
    intro l h
    by_cases hc : c = 0
    · subst hc
      simp only [strlen, if_true, Option.some.injEq] at h
      exact ⟨[], s, rfl, by simp, by simpa using h⟩
    · simp only [strlen, hc, if_false] at h
      cases hs : strlen s with
      | none =>
        rw [hs] at h
        exact Option.noConfusion h
      | some n =>
        rw [hs] at h
        simp only [Option.some.injEq] at h
        obtain ⟨a, r, h1, h2, h3⟩ := ih n hs
        refine ⟨c :: a, r, by rw [h1]; rfl, ?_, by simp [h3, h]⟩
        intro x hx
        rcases List.mem_cons.1 hx with hx | hx
        · rw [hx]; exact hc
        · exact h2 x hx

theorem c_str_append_nul (a r : List Nat) (ha : ∀ x ∈ a, x ≠ 0) :
    c_str (a ++ 0 :: r) = a := by
  induction a with
  | nil => simp [c_str]
  | cons c a ih =>
    have hc : c ≠ 0 := ha c (List.mem_cons_self _ _)
    have ih' := ih (fun x hx => ha x (List.mem_cons_of_mem _ hx))
    unfold c_str at ih' ⊢
    simp [List.takeWhile, hc]
    simpa using ih'

/-- The result of `strcat_safe` on a buffer `a ++ 0 :: r` holding the string `a` and a
source `b ++ 0 :: r2` holding the string `b`, `to_len` being the size of the buffer. -/
theorem strcat_safe_spec (a r b r2 : List Nat) (ha : ∀ x ∈ a, x ≠ 0) (hb : ∀ x ∈ b, x ≠ 0)
    (hmax : (a ++ 0 :: r).length < ULONG_MOD) :
    strcat_safe (some (a ++ 0 :: r)) (some (b ++ 0 :: r2)) (a ++ 0 :: r).length
      = if a.length + b.length < (a ++ 0 :: r).length then
          some (true, some ((a ++ b) ++ 0 :: r.drop b.length))
        else some (false, some (a ++ 0 :: r)) := by
  have hlen : (a ++ 0 :: r).length = a.length + (r.length + 1) := by simp
  have hsub : (((a ++ 0 :: r).length : Nat) : Int) - (a.length : Int)
      = ((r.length + 1 : Nat) : Int) := by
    rw [hlen]
    push_cast
    omega
  have hsz : to_size_t (((r.length + 1 : Nat) : Int)) = r.length + 1 :=
    to_size_t_natCast (by rw [ULONG_MOD_eq] at hmax; omega)
  simp only [strcat_safe, strlen_append_nul a r ha, strlen_append_nul b r2 hb, hsub, hsz]
  by_cases hfit : b.length < r.length + 1
  · have h1 : a.length + b.length < (a ++ 0 :: r).length := by omega
    have h2 : b.length + 1 ≤ (b ++ 0 :: r2).length ∧
        a.length + (b.length + 1) ≤ (a ++ 0 :: r).length := by
      constructor
      · simp
      · omega
    have h3 : (b ++ 0 :: r2).take (b.length + 1) = b ++ [0] := by
      rw [List.take_append_eq_append_take]
      simp
    have h4 : (a ++ 0 :: r).take a.length = a := by
      rw [List.take_append_eq_append_take]
      simp
    have h5 : (a ++ 0 :: r).drop (a.length + (b.length + 1)) = r.drop b.length := by
      rw [List.drop_append_eq_append_drop]
      simp
    simp only [gt_iff_lt, hfit, if_true, h1, strcat, strlen_append_nul a r ha,
      strlen_append_nul b r2 hb, memmove, h2, and_self, h3, h4, h5]
    simp
  · have h1 : ¬ a.length + b.length < (a ++ 0 :: r).length := by omega
    simp only [gt_iff_lt, hfit, if_false, h1]

section claims_strings

/-- When `to_len` is the size of the buffer `t`, which holds a NUL-terminated string of
length `lt`, and `f` holds a NUL-terminated string of length `lf`: if `lt + lf < to_len`,
`strcat_safe` returns non-`NULL` and the buffer, still of `to_len` bytes, holds the old
string followed by the string of `f`; otherwise it returns `NULL` and the buffer is
unchanged. -/
theorem strcat_safe_in_buffer (t f : List Nat) (to_len lt lf : Nat)
    (hsize : t.length = to_len) (hmax : to_len < ULONG_MOD)
    (ht : strlen t = some lt) (hf : strlen f = some lf) :
    (lt + lf < to_len →
      ∃ t', strcat_safe (some t) (some f) to_len = some (true, some t') ∧
        t'.length = to_len ∧ c_str t' = c_str t ++ c_str f) ∧
    (¬ lt + lf < to_len → strcat_safe (some t) (some f) to_len = some (false, some t)) := by
  obtain ⟨a, r, rfl, ha, rfl⟩ := strlen_some t lt ht
  obtain ⟨b, r2, rfl, hb, rfl⟩ := strlen_some f lf hf
  subst hsize
  have hspec := strcat_safe_spec a r b r2 ha hb hmax
  have hab : ∀ x ∈ a ++ b, x ≠ 0 := by
    intro x hx
    rcases List.mem_append.1 hx with hx | hx
    · exact ha x hx
    · exact hb x hx
  refine ⟨?_, ?_⟩
  · intro hfit
    rw [if_pos hfit] at hspec
    refine ⟨_, hspec, ?_, ?_⟩
    · simp only [List.length_append, List.length_cons, List.length_drop] at hfit ⊢
      omega
    · rw [c_str_append_nul _ _ hab, c_str_append_nul a r ha, c_str_append_nul b r2 hb]
  · intro hfit
    rw [if_neg hfit] at hspec
    exact hspec

theorem strcat_safe_in_buffer_example :
    (1 + 2 < 4 →
      ∃ t', strcat_safe (some [97, 0, 0, 0]) (some [98, 99, 0]) 4 = some (true, some t') ∧
        t'.length = 4 ∧ c_str t' = c_str [97, 0, 0, 0] ++ c_str [98, 99, 0]) ∧
    (¬ 1 + 2 < 4 →
      strcat_safe (some [97, 0, 0, 0]) (some [98, 99, 0]) 4
        = some (false, some [97, 0, 0, 0])) :=
  strcat_safe_in_buffer [97, 0, 0, 0] [98, 99, 0] 4 1 2 (by decide) (by decide) (by decide)
    (by decide)

/-- C29 (code defect): with `to` holding `abc` (in a buffer of 8 bytes), `from` holding
`wxyz` and `to_len = 2`, the concatenation does not fit in `to_len` bytes (`3 + 4 < 2` is
false, and `strlen(from) = 4` is bigger than `to_len`), and `strcat_safe` returns
non-`NULL` and leaves `abcwxyz` in `to`: the `size_t` difference `to_len - strlen(to)`
wraps to a value above `strlen(from)`. -/
theorem C29_strcat_safe_to_len_below_strlen_concatenates :
    strlen [97, 98, 99, 0, 0, 0, 0, 0] = some 3 ∧ strlen [119, 120, 121, 122, 0] = some 4 ∧
    ¬ 3 + 4 < 2 ∧
    to_size_t ((2 : Int) - 3) = 18446744073709551615 ∧
    strcat_safe (some [97, 98, 99, 0, 0, 0, 0, 0]) (some [119, 120, 121, 122, 0]) 2
      = some (true, some [97, 98, 99, 119, 120, 121, 122, 0]) := by
  decide

/-- When `to_len` is below the length of the string in `to` (so not the size of a buffer
that holds it), the `size_t` subtraction wraps and `strcat_safe` concatenates. -/
theorem strcat_safe_to_len_below_strlen :
    strcat_safe (some [97, 98, 99, 0, 0, 0]) (some [120, 0]) 2
      = some (true, some [97, 98, 99, 120, 0, 0]) := by
  decide

/-- With the placeholder `%s` of two bytes, `str_replace` of `a%sb` by `XYZ` in a buffer of
8 bytes returns 0 and leaves `aXYZb`. -/
theorem str_replace_two_byte_placeholder :
    str_replace (some [97, 37, 115, 98, 0, 0, 0, 0]) 8 (some [37, 115, 0]) (some [88, 89, 90, 0])
      = some (0, some [97, 88, 89, 90, 98, 0, 0, 0]) := by
  decide

/-- With a placeholder of three bytes at the end of a string that fills its buffer, the
first `memmove` of `str_replace` reads past the end of the buffer: no result. -/
theorem str_replace_three_byte_placeholder :
    str_replace (some [97, 98, 99, 100, 0]) 5 (some [98, 99, 100, 0]) (some [120, 121, 122, 0])
      = none := by
  decide

/-- C30 (code defect): `str_replace` of the placeholder `%` in the string `a%b` (buffer of
4 bytes) by the empty string returns 0 and leaves the string `abb`, not `ab`: the first
`memmove` moves `strlen(p_ph) - 1 = 1` byte, the `b`, and not the NUL after it. -/
theorem C30_str_replace_one_byte_placeholder :
    str_replace (some [97, 37, 98, 0]) 4 (some [37, 0]) (some [0])
      = some (0, some [97, 98, 98, 0]) ∧
    c_str [97, 98, 98, 0] = [97, 98, 98] ∧
    c_str [97, 98, 98, 0] ≠ [97] ++ [] ++ [98] := by
  decide

end claims_strings

/-! ## Traversal from an element -/

section traversal_from
variable {K : Type}

theorem IC_FOREACH_FROM_loop_none (head : hash_index K) (fuel : Nat) (tmp FROM : Option Nat) :
    IC_FOREACH_FROM_loop head fuel none tmp FROM = some ([], FROM) := by
  cases fuel <;> rfl

theorem IC_FOREACH_FROM_loop_spec :
    ∀ (l pre : hash_index K) (fuel : Nat) (FROM : Option Nat),
      ((pre ++ l).map Prod.snd).Nodup → l.length ≤ fuel →
      IC_FOREACH_FROM_loop (pre ++ l) fuel (HASH_head l) (HASH_head l.tail) FROM
        = some (l.map Prod.snd, if l.isEmpty then FROM else none) := by
  intro l
  induction l with
  | nil =>
    intro pre fuel FROM _ _
    rw [HASH_head, IC_FOREACH_FROM_loop_none]
    simp
  | cons e rest ih =>
    intro pre fuel FROM hnd hlen
    cases fuel with
    | zero => simp at hlen
    | succ fuel =>
      have hsplit : pre ++ e :: rest = (pre ++ [e]) ++ rest := by simp
      have hnext := next_or_null_tail (pre ++ [e]) rest (hsplit ▸ hnd)
      have hrec := ih (pre ++ [e]) fuel (HASH_head rest) (hsplit ▸ hnd) (by simpa using hlen)
      rw [← hsplit] at hnext hrec
      have hlast : (if rest.isEmpty then HASH_head rest else none) = (none : Option Nat) := by
        cases rest <;> simp [HASH_head]
      rw [HASH_head_cons, List.tail_cons]
      simp only [IC_FOREACH_FROM_loop, hnext, hrec, hlast, List.map_cons, List.isEmpty_cons,
        Bool.false_eq_true, if_false]

theorem IC_FOREACH_FROM_cursor_loop_none (head : hash_index K) (fuel : Nat)
    (tmp FROM : Option Nat) :
    IC_FOREACH_FROM_cursor_loop head fuel none tmp FROM = some [] := by
  cases fuel <;> rfl

theorem IC_FOREACH_FROM_cursor_loop_spec :
    ∀ (l pre : hash_index K) (fuel : Nat) (e : K × Nat),
      ((pre ++ e :: l).map Prod.snd).Nodup → l.length < fuel →
      IC_FOREACH_FROM_cursor_loop (pre ++ e :: l) fuel (some e.2) (HASH_head l) (some e.2)
        = some ((e :: l).map (fun x => some x.2)) := by
  intro l
  induction l with
  | nil =>
    intro pre fuel e _ hlen
    cases fuel with
    | zero => simp at hlen
    | succ fuel =>
      simp only [IC_FOREACH_FROM_cursor_loop, HASH_head, IC_FOREACH_FROM_cursor_loop_none,
        List.map_cons, List.map_nil]
  | cons e2 rest ih =>
    intro pre fuel e hnd hlen
    cases fuel with
    | zero => simp at hlen
    | succ fuel =>
      have hsplit : pre ++ e :: e2 :: rest = (pre ++ [e]) ++ e2 :: rest := by simp
      have hnext : next_or_null (pre ++ e :: e2 :: rest) (some e2.2) = HASH_head rest := by
        rw [hsplit]
        exact hh_next_spec e2 rest (pre ++ [e]) (hsplit ▸ hnd)
      have hrec := ih (pre ++ [e]) fuel e2 (hsplit ▸ hnd) (by simpa using hlen)
      rw [← hsplit] at hrec
      rw [HASH_head_cons]
      simp only [IC_FOREACH_FROM_cursor_loop, hnext, hrec, List.map_cons]

theorem IC_FOREACH_FROM_eq {V : Type} {db : RECORD_TYPE_db_t K V} {fuel : Nat}
    {pre rest : hash_index K} {e : K × Nat}
    (hhead : db.head = pre ++ e :: rest) (hnd : (db.head.map Prod.snd).Nodup)
    (hfuel : rest.length < fuel) :
    IC_FOREACH_FROM db (some e.2) fuel = some ((e :: rest).map Prod.snd, none) ∧
    IC_FOREACH_FROM_cursor db (some e.2) fuel = some ((e :: rest).map (fun x => some x.2)) := by
  unfold IC_FOREACH_FROM IC_FOREACH_FROM_cursor
  rw [hhead] at hnd ⊢
  have hnext : next_or_null (pre ++ e :: rest) (some e.2) = HASH_head rest :=
    hh_next_spec e rest pre hnd
  rw [hnext]
  refine ⟨?_, IC_FOREACH_FROM_cursor_loop_spec rest pre fuel e hnd hfuel⟩
  have := IC_FOREACH_FROM_loop_spec (e :: rest) pre fuel (some e.2) hnd (by simpa using hfuel)
  simpa [HASH_head_cons] using this

theorem IC_FOREACH_FROM_null {V : Type} (db : RECORD_TYPE_db_t K V) (fuel : Nat) :
    IC_FOREACH_FROM db none fuel = some ([], none) ∧
    IC_FOREACH_FROM_cursor db none fuel = some [] := by
  unfold IC_FOREACH_FROM IC_FOREACH_FROM_cursor
  exact ⟨IC_FOREACH_FROM_loop_none _ _ _ _, IC_FOREACH_FROM_cursor_loop_none _ _ _ _⟩

end traversal_from

section claims_traversal_from

/-- C31: for every reachable store state and every occupied slot `p`, with `pre ++ p ::
suf` the full traversal (`p` not in `pre`), `IC_FOREACH_FROM` from the reference `p` ends
within `size()` iterations and visits `p` first and then the elements of `suf` in order;
in every iteration `FROM` is the element visited, and `FROM` is `NULL` when the loop has
ended; with `FROM == NULL` nothing is visited. -/
theorem C31_traversal_from_is_suffix {K V : Type} [DecidableEq K] [Inhabited K] [Inhabited V]
    (C : Int) (db : RECORD_TYPE_db_t K V) (h : Reachable C db) (p fuel : Nat)
    (hocc : occupied db p) (hfuel : size_RECORD_TYPE db ≤ (fuel : Int)) :
    ∃ pre suf : List Nat, IC_FOREACH db fuel = some (pre ++ p :: suf) ∧ p ∉ pre ∧
      IC_FOREACH_FROM db (some p) fuel = some (p :: suf, none) ∧
      IC_FOREACH_FROM_cursor db (some p) fuel = some ((p :: suf).map some) ∧
      IC_FOREACH_FROM db none fuel = some ([], none) := by
  obtain ⟨n, rs, ws, rfl, inv⟩ := reachable_inv h
  have hnum := inv.num_eq
  simp only [size_RECORD_TYPE] at hfuel
  have hnd := inv.slots_nodup
  have hmem := (inv.occupied_iff p).1 hocc
  obtain ⟨e, he, rfl⟩ := List.mem_map.1 hmem
  obtain ⟨pre, rest, hhead⟩ := List.append_of_mem he
  have hlen : db.head.length = pre.length + (rest.length + 1) := by
    rw [hhead]
    simp
  obtain ⟨h1, h2⟩ := @IC_FOREACH_FROM_eq K V db fuel pre rest e hhead hnd (by omega)
  have hfull := IC_FOREACH_eq hnd (by omega : db.head.length ≤ fuel)
  refine ⟨pre.map Prod.snd, rest.map Prod.snd, ?_, ?_, h1, ?_, (IC_FOREACH_FROM_null db fuel).1⟩
  · rw [hfull, hhead]
    simp
  · rw [hhead] at hnd
    simp only [List.map_append, List.map_cons] at hnd
    intro hin
    have := (List.nodup_append.1 hnd).2.2
    exact this hin (List.mem_cons_self _ _)
  · rw [h2]
    simp

/-- C31 on the store of capacity 3 holding keys 1, 3, 4 (slots 0, 2, 1), from slot 2. -/
theorem C31_traversal_from_is_suffix_witness :
    ∃ pre suf : List Nat, IC_FOREACH scenario4 3 = some (pre ++ 2 :: suf) ∧ 2 ∉ pre ∧
      IC_FOREACH_FROM scenario4 (some 2) 3 = some (2 :: suf, none) ∧
      IC_FOREACH_FROM_cursor scenario4 (some 2) 3 = some ((2 :: suf).map some) ∧
      IC_FOREACH_FROM scenario4 none 3 = some ([], none) :=
  C31_traversal_from_is_suffix 3 scenario4 scenario4_reachable 2 3 ⟨3, by decide⟩ (by decide)

end claims_traversal_from

/-! ## The macros of bitmap.h -/

theorem ceil_div_eq (a b : Nat) (ha : a < ULONG_MOD) (hb : 0 < b) :
    ceil_div a b = (a + b - 1) / b := by
  rw [ULONG_MOD_eq] at ha
  have hdm := Nat.div_add_mod a b
  have hmod := Nat.mod_lt a hb
  have hcomm : a / b * b = b * (a / b) := Nat.mul_comm _ _
  unfold ceil_div
  by_cases hz : a / b * b = a
  · rw [if_pos hz]
    symm
    apply Nat.div_eq_of_lt_le
    · rw [hz]; omega
    · rw [Nat.add_mul, hz]; omega
  · rw [if_neg hz]
    have hmpos : 0 < a % b := by
      rcases Nat.eq_zero_or_pos (a % b) with h0 | h0
      · exfalso; apply hz; omega
      · exact h0
    have hb2 : 2 ≤ b := by omega
    have hq : a / b ≤ a / 2 := Nat.div_le_div_left hb2 (by norm_num)
    have hsmall : a / b + 1 < 18446744073709551616 := by omega
    rw [ULONG_MOD_eq, Nat.mod_eq_of_lt hsmall]
    symm
    apply Nat.div_eq_of_lt_le
    · rw [Nat.add_mul]; omega
    · rw [Nat.add_mul, Nat.add_mul]; omega

theorem ceil_div_le_iff (a b q : Nat) (ha : a < ULONG_MOD) (hb : 0 < b) :
    ceil_div a b ≤ q ↔ a ≤ q * b := by
  rw [ceil_div_eq a b ha hb, ← Nat.lt_succ_iff, Nat.div_lt_iff_lt_mul hb, Nat.succ_mul]
  omega

section claims_macros

/-- C32: with `w = 8*sizeof(unsigned long)`: for unsigned `a` and `b > 0`, `ceil_div(a, b)`
is the ceiling of `a/b`, the least `q` with `a ≤ q * b`; `NUM_ULONGS(C)` is the ceiling of
`C / w`; for an index `idx` with `0 ≤ idx < C`, `I_ULONG(idx)` is `idx / w` and is below
`NUM_ULONGS(C)`, `I_BIT(idx)` is `idx mod w` and is below `w`; and on a bitmap of `C` bits
with `NUM_ULONGS(C)` words `bitmap_set`, `bitmap_clear` and `bitmap_get` at `idx` return 0,
0 and a bit: no access is outside the word array. -/
theorem C32_word_array_indexing (a b C idx : Nat) (ws : List Nat) (ha : a < ULONG_MOD)
    (hb : 0 < b) (hC : (C : Int) ≤ INT_MAX) (hidx : idx < C)
    (hlen : ws.length = NUM_ULONGS C) :
    ceil_div a b = (a + b - 1) / b ∧ (∀ q, ceil_div a b ≤ q ↔ a ≤ q * b) ∧
    NUM_ULONGS C = (C + 8 * sizeof_ulong - 1) / (8 * sizeof_ulong) ∧
    I_ULONG (idx : Int) = idx / (8 * sizeof_ulong) ∧ I_ULONG (idx : Int) < NUM_ULONGS C ∧
    I_BIT (idx : Int) = idx % (8 * sizeof_ulong) ∧ I_BIT (idx : Int) < 8 * sizeof_ulong ∧
    (∃ s, bitmap_set { map := some ws, elements := C } (idx : Int) = some (0, s)) ∧
    (∃ c, bitmap_clear { map := some ws, elements := C } (idx : Int) = some (0, c)) ∧
    (bitmap_get { map := some ws, elements := C } (idx : Int) = some 0 ∨
      bitmap_get { map := some ws, elements := C } (idx : Int) = some 1) := by
  have hC' : C < 2 ^ 31 := by unfold INT_MAX at hC; omega
  have hCu : C < ULONG_MOD := by rw [ULONG_MOD_eq]; omega
  have hw : 8 * sizeof_ulong = 64 := by rw [sizeof_ulong_eq]
  have hnum : NUM_ULONGS C = (C + 63) / 64 := NUM_ULONGS_eq (by omega)
  have hiu : I_ULONG (idx : Int) = idx / 64 := I_ULONG_natCast (by omega)
  have hib : I_BIT (idx : Int) = idx % 64 := I_BIT_natCast (by omega)
  obtain ⟨s, hs, _, _⟩ := bitmap_set_spec hC hlen hidx
  obtain ⟨c, hc, _, _⟩ := bitmap_clear_spec hC hlen hidx
  have hg := bitmap_get_spec hC hlen hidx
  refine ⟨ceil_div_eq a b ha hb, fun q => ceil_div_le_iff a b q ha hb, ?_, ?_, ?_, ?_, ?_,
    ⟨_, hs⟩, ⟨_, hc⟩, ?_⟩
  · rw [hw, hnum]
    omega
  · rw [hw, hiu]
  · rw [hiu]
    exact word_index_lt (by omega) hidx
  · rw [hw, hib]
  · rw [hw, hib]
    exact Nat.mod_lt _ (by norm_num)
  · rw [hg]
    cases bit_at ws idx
    · left; rfl
    · right; rfl

theorem C32_word_array_indexing_witness :
    ceil_div 130 64 = (130 + 64 - 1) / 64 ∧ (∀ q, ceil_div 130 64 ≤ q ↔ 130 ≤ q * 64) ∧
    NUM_ULONGS 130 = (130 + 8 * sizeof_ulong - 1) / (8 * sizeof_ulong) ∧
    I_ULONG ((129 : Nat) : Int) = 129 / (8 * sizeof_ulong) ∧
    I_ULONG ((129 : Nat) : Int) < NUM_ULONGS 130 ∧
    I_BIT ((129 : Nat) : Int) = 129 % (8 * sizeof_ulong) ∧
    I_BIT ((129 : Nat) : Int) < 8 * sizeof_ulong ∧
    (∃ s, bitmap_set { map := some [0, 0, 0], elements := ((130 : Nat) : Int) }
      ((129 : Nat) : Int) = some (0, s)) ∧
    (∃ c, bitmap_clear { map := some [0, 0, 0], elements := ((130 : Nat) : Int) }
      ((129 : Nat) : Int) = some (0, c)) ∧
    (bitmap_get { map := some [0, 0, 0], elements := ((130 : Nat) : Int) }
        ((129 : Nat) : Int) = some 0 ∨
      bitmap_get { map := some [0, 0, 0], elements := ((130 : Nat) : Int) }
        ((129 : Nat) : Int) = some 1) :=
  C32_word_array_indexing 130 64 130 129 [0, 0, 0] (by decide) (by decide) (by decide)
    (by decide) (by decide)

end claims_macros

/-! ## Store: the search of a free slot in `add` -/

/-- In a reachable store the bits of the free map at the indices from the capacity on are
all 1, as `init` has left them. -/
theorem reachable_upper_bits {K V : Type} [DecidableEq K] [Inhabited K] [Inhabited V]
    {C : Int} {db : RECORD_TYPE_db_t K V} (h : Reachable C db) :
    ∃ (n : Nat) (rs : List (RECORD_TYPE K V)) (ws : List Nat), C = n ∧ StoreInv n db rs ws ∧
      ∀ j, n ≤ j → j < 64 * NUM_ULONGS n → bit_at ws j = true := by
  induction h with
  | init m c db hC h =>
    obtain ⟨n, hn, _, inv⟩ := init_inv hC.2 h
    exact ⟨n, _, _, hn, inv, fun j _ hj => bit_at_replicate_ones (by omega)⟩
  | add db db' xi_val st _ h ih =>
    obtain ⟨n, rs, ws, hn, inv, hup⟩ := ih
    by_cases hst : st = ING_STAT_OK
    · subst hst
      cases xi_val with
      | none => simp [add_RECORD_TYPE] at h
      | some val =>
        obtain ⟨hfind, hroom⟩ := add_ok_cases h
        obtain ⟨f, ws', hf, _, _, _, hbits, hadd, hinv⟩ := add_ok inv hfind hroom
        rw [hadd] at h
        simp only [Option.some.injEq, Prod.mk.injEq, true_and] at h
        rw [← h]
        refine ⟨n, _, ws', hn, hinv, ?_⟩
        intro j hj1 hj2
        rw [hbits j, hup j hj1 hj2]
        have : j ≠ f := by omega
        simp [this]
    · rw [(add_not_ok_unchanged h hst).1]
      exact ⟨n, rs, ws, hn, inv, hup⟩
  | del db db' xi_key st _ h ih =>
    obtain ⟨n, rs, ws, hn, inv, hup⟩ := ih
    by_cases hst : st = ING_STAT_OK
    · subst hst
      cases xi_key with
      | none => simp [del_RECORD_TYPE] at h
      | some k =>
        cases hfind : HASH_FIND db.head k with
        | none =>
          rw [del_notfound hfind] at h
          simp at h
        | some p =>
          obtain ⟨ws', _, _, hbits, hdel, hinv⟩ := del_ok inv hfind
          rw [hdel] at h
          simp only [Option.some.injEq, Prod.mk.injEq, true_and] at h
          rw [← h]
          refine ⟨n, _, ws', hn, hinv, ?_⟩
          intro j hj1 hj2
          rw [hbits j, hup j hj1 hj2]
          simp
    · rw [(del_not_ok_unchanged h hst).1]
      exact ⟨n, rs, ws, hn, inv, hup⟩
  | get db xi_key _ ih =>
    rw [get_state]
    exact ih

section claims_free_slot

/-- C33: in every store state reachable from a successful `init(C)`: when
`rec_num < max_rec_num`, `bitmap_ffs` on the free map returns an index `f` with
`0 ≤ f < C` whose free bit is 1 and whose slot is not occupied, `f` is inside the slot
array, and `add` of every record whose key is not in the index returns `ING_STAT_OK` (not
`ING_STAT_FULL` from the branch `ifree < 0`); and `bitmap_ffs` on the free map returns -1
if and only if `rec_num == max_rec_num`. -/
theorem C33_free_slot_search {K V : Type} [DecidableEq K] [Inhabited K] [Inhabited V]
    (C : Int) (db : RECORD_TYPE_db_t K V) (h : Reachable C db) :
    (db.rec_num < db.max_rec_num →
      ∃ f : Nat, bitmap_ffs db.map_free = some (f : Int) ∧ (f : Int) < C ∧
        bitmap_get db.map_free (f : Int) = some 1 ∧ ¬ occupied db f ∧
        (∃ records, db.records = heap_ptr.live records ∧ f < records.length) ∧
        ∀ val : RECORD_TYPE K V, HASH_FIND db.head val.key = none →
          ∃ db', add_RECORD_TYPE db (some val) = some (ING_STAT_OK, db')) ∧
    (bitmap_ffs db.map_free = some (-1) ↔ db.rec_num = db.max_rec_num) := by
  obtain ⟨n, rs, ws, rfl, inv, hup⟩ := reachable_upper_bits h
  have hnum := inv.num_eq
  have hmax := inv.max_eq
  have hle := inv.length_le
  have hcap := inv.cap
  have hroom : db.rec_num < db.max_rec_num →
      ∃ f : Nat, f < n ∧ bitmap_ffs db.map_free = some (f : Int) ∧ bit_at ws f = true := by
    intro hlt
    obtain ⟨f, hf, hffs, hbit, _⟩ :=
      bitmap_ffs_spec inv.cap inv.map_len (inv.exists_free (by omega))
    exact ⟨f, hf, by rw [inv.map_eq]; exact hffs, hbit⟩
  refine ⟨?_, ?_⟩
  · intro hlt
    obtain ⟨f, hf, hffs, hbit⟩ := hroom hlt
    refine ⟨f, hffs, by omega, (inv.bitmap_get_one hf).2 hbit, ?_,
      ⟨rs, inv.recs_eq, by rw [inv.recs_len]; exact hf⟩, ?_⟩
    · intro hocc
      have := (inv.free_iff f hf).2 ((inv.occupied_iff f).1 hocc)
      rw [this] at hbit
      exact Bool.noConfusion hbit
    · intro val hfind
      obtain ⟨_, _, _, _, _, _, _, hadd, _⟩ := add_ok inv hfind hlt
      exact ⟨_, hadd⟩
  · constructor
    · intro hffs
      by_contra hne
      obtain ⟨f, _, hffs', _⟩ := hroom (by omega)
      rw [hffs'] at hffs
      simp only [Option.some.injEq] at hffs
      omega
    · intro hfull
      have hall := inv.full_all_slots (by omega)
      rw [inv.map_eq]
      by_cases hlt : (n : Int) < INT_MAX
      · exact bitmap_ffs_not_found hlt inv.map_len hall
      · have hn : n = 2 ^ 31 - 1 := by unfold INT_MAX at hlt hcap; omega
        rcases bitmap_ffs_eval inv.cap inv.map_len with ⟨f, _, hf, _, hres⟩ | ⟨hnone, _⟩
        · have hge : ¬ (f : Int) < (n : Int) := by
            intro hfn
            rw [hall f (by omega)] at hf
            exact Bool.noConfusion hf
          rw [hres, if_neg hge]
        · have hnum64 : NUM_ULONGS n = (n + 63) / 64 := NUM_ULONGS_eq (by omega)
          have := hup n (le_refl n) (by rw [hnum64]; omega)
          rw [hnone n] at this
          exact Bool.noConfusion this

/-- C33 on the store of capacity 3 holding keys 1 and 3. -/
theorem C33_free_slot_search_witness :
    (scenario3d.rec_num < scenario3d.max_rec_num →
      ∃ f : Nat, bitmap_ffs scenario3d.map_free = some (f : Int) ∧ (f : Int) < 3 ∧
        bitmap_get scenario3d.map_free (f : Int) = some 1 ∧ ¬ occupied scenario3d f ∧
        (∃ records, scenario3d.records = heap_ptr.live records ∧ f < records.length) ∧
        ∀ val : RECORD_TYPE Nat Nat, HASH_FIND scenario3d.head val.key = none →
          ∃ db', add_RECORD_TYPE scenario3d (some val) = some (ING_STAT_OK, db')) ∧
    (bitmap_ffs scenario3d.map_free = some (-1) ↔
      scenario3d.rec_num = scenario3d.max_rec_num) :=
  C33_free_slot_search 3 scenario3d scenario3d_reachable

end claims_free_slot

/-! ## Strings: trim and rstrstr -/

/-- On a string with one leading space `trim` removes the space on both sides. -/
theorem trim_one_leading_space :
    trim (some [32, 97, 32, 0]) = some (some [97, 0, 0, 0]) := by
  decide

/-- On a string of spaces `trim` leaves the empty string. -/
theorem trim_only_spaces : trim (some [32, 32, 0]) = some (some [0, 0, 0]) := by
  decide

theorem strncmp_spec : ∀ (b x rest t2 : List Nat), (∀ c ∈ b, c ≠ 0) → b.length ≤ x.length →
    ∃ r, strncmp (x ++ rest) (b ++ t2) b.length = some r ∧ (r = 0 ↔ x.take b.length = b) := by
  intro b
  induction b with
  | nil =>
    intro x rest t2 _ _
    exact ⟨0, by simp [strncmp], by simp⟩
  | cons c b ih =>
    intro x rest t2 hb hlen
    cases x with
    | nil => simp at hlen
    | cons d x =>
      have hc : c ≠ 0 := hb c (List.mem_cons_self _ _)
      have hb' : ∀ y ∈ b, y ≠ 0 := fun y hy => hb y (List.mem_cons_of_mem _ hy)
      have hlen' : b.length ≤ x.length := by simpa using hlen
      by_cases hdc : d = c
      · subst hdc
        obtain ⟨r, hr, hiff⟩ := ih x rest t2 hb' hlen'
        refine ⟨r, ?_, ?_⟩
        · simp only [List.cons_append, List.length_cons, strncmp, ne_eq, not_true_eq_false,
            if_false, hc]
          exact hr
        · rw [hiff]
          simp
      · refine ⟨(d : Int) - (c : Int), ?_, ?_⟩
        · simp only [List.cons_append, List.length_cons, strncmp, ne_eq, hdc,
            not_false_eq_true, if_true]
        · constructor
          · intro h0
            exfalso
            apply hdc
            omega
          · intro ht
            exfalso
            apply hdc
            simp only [List.length_cons, List.take_succ_cons, List.cons.injEq] at ht
            exact ht.1

theorem rstrstr_loop_spec (a r b r2 : List Nat) (hb : ∀ c ∈ b, c ≠ 0)
    (hlen : b.length ≤ a.length) :
    ∀ q, q ≤ a.length - b.length + 1 →
      ∃ res, rstrstr_loop (a ++ 0 :: r) (b ++ 0 :: r2) b.length q = some res ∧
        (∀ p, res = some p →
          p < q ∧ occurs_at a b p ∧ ∀ p', p' < q → occurs_at a b p' → p' ≤ p) ∧
        (res = none → ∀ p', p' < q → ¬ occurs_at a b p') := by
  intro q
  induction q with
  | zero =>
    intro _
    refine ⟨none, rfl, ?_, ?_⟩
    · intro p hp
      exact Option.noConfusion hp
    · intro _ p' hp'
      exact absurd hp' (Nat.not_lt_zero p')
  | succ q ih =>
    intro hq
    have hqa : q + b.length ≤ a.length := by omega
    have hdrop : (a ++ 0 :: r).drop q = a.drop q ++ 0 :: r :=
      List.drop_append_of_le_length (by omega)
    obtain ⟨r0, hr0, hiff⟩ := strncmp_spec b (a.drop q) (0 :: r) (0 :: r2) hb
      (by rw [List.length_drop]; omega)
    by_cases hz : r0 = 0
    · refine ⟨some q, ?_, ?_, ?_⟩
      · simp only [rstrstr_loop, hdrop, hr0, hz, if_true]
      · intro p hp
        simp only [Option.some.injEq] at hp
        subst hp
        exact ⟨Nat.lt_succ_self _, ⟨hqa, hiff.1 hz⟩, fun p' hp' _ => Nat.lt_succ_iff.1 hp'⟩
      · intro hn
        exact Option.noConfusion hn
    · obtain ⟨res, hres, hsome, hnone⟩ := ih (by omega)
      have hnot : ¬ occurs_at a b q := fun ho => hz (hiff.2 ho.2)
      refine ⟨res, ?_, ?_, ?_⟩
      · simp only [rstrstr_loop, hdrop, hr0, hz, if_false]
        exact hres
      · intro p hp
        obtain ⟨h1, h2, h3⟩ := hsome p hp
        refine ⟨by omega, h2, ?_⟩
        intro p' hp' ho
        by_cases hpq : p' = q
        · subst hpq
          exact absurd ho hnot
        · exact h3 p' (by omega) ho
      · intro hn p' hp' ho
        by_cases hpq : p' = q
        · subst hpq
          exact hnot ho
        · exact hnone hn p' (by omega) ho

/-- For an empty `s2`, `rstrstr` returns the end of `s1`. -/
theorem rstrstr_empty_s2 : rstrstr [97, 98, 0] [0] = some (some 2) := by
  decide

/-- When the string of `s2` does not occur in `s1`, `rstrstr` returns `NULL`. -/
theorem rstrstr_no_occurrence : rstrstr [97, 98, 97, 98, 0] [98, 98, 0] = some none := by
  decide

section claims_trim_rstrstr

/-- C35 (code defect): `trim` of the string of four spaces, `a` and a space leaves the
string `a` followed by a space: after the `memmove` the second loop starts from the old
`p`, in the bytes that the move has left behind the new NUL. -/
theorem C35_trim_keeps_trailing_space :
    trim (some [32, 32, 32, 32, 97, 32, 0]) = some (some [97, 32, 0, 32, 97, 0, 0]) ∧
    c_str [97, 32, 0, 32, 97, 0, 0] = [97, 32] ∧
    c_str [97, 32, 0, 32, 97, 0, 0] ≠ [97] := by
  decide

/-- C36: for NUL-terminated `s1` and `s2`, `rstrstr` returns (its loop ends); it returns
the offset `p` if and only if `p` is the last offset at which the string of `s2` occurs in
the string of `s1`; it returns `NULL` if and only if the string of `s2` does not occur in
the string of `s1`; and for an empty `s2` it returns the end of `s1`. -/
theorem C36_rstrstr (s1 s2 : List Nat) (l1 l2 : Nat) (h1 : strlen s1 = some l1)
    (h2 : strlen s2 = some l2) :
    ∃ res, rstrstr s1 s2 = some res ∧
      (∀ p, res = some p ↔
        (occurs_at (c_str s1) (c_str s2) p ∧
          ∀ p', occurs_at (c_str s1) (c_str s2) p' → p' ≤ p)) ∧
      (res = none ↔ ∀ p, ¬ occurs_at (c_str s1) (c_str s2) p) ∧
      (l2 = 0 → res = some l1) := by
  obtain ⟨a, r, rfl, ha, rfl⟩ := strlen_some s1 l1 h1
  obtain ⟨b, r2, rfl, hb, rfl⟩ := strlen_some s2 l2 h2
  rw [c_str_append_nul a r ha, c_str_append_nul b r2 hb]
  have key : ∃ res, rstrstr (a ++ 0 :: r) (b ++ 0 :: r2) = some res ∧
      (∀ p, res = some p → occurs_at a b p ∧ ∀ p', occurs_at a b p' → p' ≤ p) ∧
      (res = none → ∀ p', ¬ occurs_at a b p') := by
    by_cases hgt : b.length > a.length
    · refine ⟨none, ?_, ?_, ?_⟩
      · simp only [rstrstr, h1, h2, hgt, if_true]
      · intro p hp
        exact Option.noConfusion hp
      · intro _ p' ho
        have := ho.1
        omega
    · obtain ⟨res, hres, hsome, hnone⟩ :=
        rstrstr_loop_spec a r b r2 hb (by omega) (a.length - b.length + 1) (le_refl _)
      have hbound : ∀ p', occurs_at a b p' → p' < a.length - b.length + 1 := by
        intro p' ho
        have := ho.1
        omega
      refine ⟨res, ?_, ?_, ?_⟩
      · simp only [rstrstr, h1, h2, hgt, if_false]
        exact hres
      · intro p hp
        obtain ⟨_, h2', h3⟩ := hsome p hp
        exact ⟨h2', fun p' ho => h3 p' (hbound p' ho) ho⟩
      · intro hn p' ho
        exact hnone hn p' (hbound p' ho) ho
  obtain ⟨res, hres, hsome, hnone⟩ := key
  have hiff : ∀ p, res = some p ↔ (occurs_at a b p ∧ ∀ p', occurs_at a b p' → p' ≤ p) := by
    intro p
    constructor
    · exact hsome p
    · intro hp
      cases hr : res with
      | none => exact absurd hp.1 (hnone hr p)
      | some p0 =>
        obtain ⟨ho0, hmax0⟩ := hsome p0 hr
        have := hmax0 p hp.1
        have := hp.2 p0 ho0
        congr 1
        omega
  refine ⟨res, hres, hiff, ?_, ?_⟩
  · constructor
    · exact hnone
    · intro hno
      cases hr : res with
      | none => rfl
      | some p0 => exact absurd (hsome p0 hr).1 (hno p0)
  · intro hl2
    have hbnil : b = [] := List.length_eq_zero.1 hl2
    subst hbnil
    apply (hiff a.length).2
    refine ⟨⟨by simp, by simp⟩, ?_⟩
    intro p' ho
    have := ho.1
    simpa using this

/-- C36 on the strings `abab` and `ab`. -/
theorem C36_rstrstr_witness :
    ∃ res, rstrstr [97, 98, 97, 98, 0] [97, 98, 0] = some res ∧
      (∀ p, res = some p ↔
        (occurs_at (c_str [97, 98, 97, 98, 0]) (c_str [97, 98, 0]) p ∧
          ∀ p', occurs_at (c_str [97, 98, 97, 98, 0]) (c_str [97, 98, 0]) p' → p' ≤ p)) ∧
      (res = none ↔ ∀ p, ¬ occurs_at (c_str [97, 98, 97, 98, 0]) (c_str [97, 98, 0]) p) ∧
      (2 = 0 → res = some 4) :=
  C36_rstrstr [97, 98, 97, 98, 0] [97, 98, 0] 4 2 (by decide) (by decide)

end claims_trim_rstrstr
